import Mathlib

/-! Wall detection: a verification development.

Shallow embedding of `src/tools/wall_detector/WallDetection.cpp`:
`isNormallyDistributed`, `findMinimizingPlane`, `angleBetweenPlanes` and
`wallDetector`.

Modelling conventions.

* A C++ `double` that is known to be finite is an element of an ordered field `F`.
  A `double` that may be non-finite is a `Dbl F`: a finite value, `+inf`, `-inf`
  or `NaN`, with the IEEE-754 rules for the special values (a zero divisor is
  `+0`, which is what `sqrt` returns in this program).
* The program is embedded twice.  The first embedding computes in exact
  arithmetic: rounding, overflow and underflow are not modelled.  The second
  (namespace `Fp`) follows every operation by the rounding of its result, for a
  rounding `R : Rounding F`; `ieee` is the rounding of binary64, with the 80-bit
  format for the `long double` accumulators of GSL, and `gsl_stats_mean` and
  `gsl_stats_sd` are the running recurrences of GSL.  The claims whose answer
  rounding, overflow or underflow changes (C3, C10, C11, C18) are settled in the
  second embedding.
* The inputs (the data vector, the significance level, the points) are finite.
* The functions of libm, GSL and Eigen that the program calls are not part of the
  repository.  `gsl_stats_mean` and `gsl_stats_sd` are written out from their
  documented formulas; `sqrt`, `acos`, `M_PI`, `gsl_cdf_ugaussian_P`,
  `gsl_cdf_ugaussian_Pinv` and the `V` factor of `Eigen::JacobiSVD` are fields of
  a structure `Numerics F`, and every theorem states the properties of them it
  relies on.
-/

namespace WallDetection

/-! ## Doubles with the IEEE special values -/

/-- A `double`: finite, plus infinity, minus infinity, or not-a-number. -/
inductive Dbl (F : Type) where
  | fin (x : F)
  | pinf
  | ninf
  | nan
  deriving DecidableEq

namespace Dbl

variable {F : Type} [LinearOrderedField F]

/-- Unary minus. -/
def neg : Dbl F → Dbl F
  | fin x => fin (-x)
  | pinf => ninf
  | ninf => pinf
  | nan => nan

/-- Addition: `inf + (-inf)` and anything with `NaN` is `NaN`. -/
def add : Dbl F → Dbl F → Dbl F
  | fin x, fin y => fin (x + y)
  | fin _, pinf => pinf
  | fin _, ninf => ninf
  | pinf, fin _ => pinf
  | pinf, pinf => pinf
  | ninf, fin _ => ninf
  | ninf, ninf => ninf
  | _, _ => nan

/-- Subtraction. -/
def sub (a b : Dbl F) : Dbl F := add a (neg b)

/-- The infinity with the sign of a non-zero finite value. -/
def infOfSign (x : F) : Dbl F := if 0 < x then pinf else ninf

/-- Multiplication: `0 * inf` is `NaN`. -/
def mul : Dbl F → Dbl F → Dbl F
  | fin x, fin y => fin (x * y)
  | fin x, pinf => if x = 0 then nan else infOfSign x
  | fin x, ninf => if x = 0 then nan else infOfSign (-x)
  | pinf, fin y => if y = 0 then nan else infOfSign y
  | ninf, fin y => if y = 0 then nan else infOfSign (-y)
  | pinf, pinf => pinf
  | ninf, ninf => pinf
  | pinf, ninf => ninf
  | ninf, pinf => ninf
  | _, _ => nan

/-- Division: `0 / 0` and `inf / inf` are `NaN`, `x / 0` is an infinity with the
sign of `x` (the zero divisor is `+0`), `x / inf` is `0`. -/
def div : Dbl F → Dbl F → Dbl F
  | fin x, fin y =>
      if y = 0 then (if x = 0 then nan else infOfSign x) else fin (x / y)
  | fin _, pinf => fin 0
  | fin _, ninf => fin 0
  | pinf, fin y => if 0 ≤ y then pinf else ninf
  | ninf, fin y => if 0 ≤ y then ninf else pinf
  | _, _ => nan

/-- Absolute value (`std::abs`). -/
def abs : Dbl F → Dbl F
  | fin x => fin |x|
  | pinf => pinf
  | ninf => pinf
  | nan => nan

/-- The comparison `a < b`; false as soon as one side is `NaN`. -/
def lt : Dbl F → Dbl F → Bool
  | fin x, fin y => decide (x < y)
  | fin _, pinf => true
  | ninf, fin _ => true
  | ninf, pinf => true
  | _, _ => false

/-- The comparison `a <= b`; false as soon as one side is `NaN`. -/
def le : Dbl F → Dbl F → Bool
  | fin x, fin y => decide (x ≤ y)
  | fin _, pinf => true
  | ninf, fin _ => true
  | ninf, pinf => true
  | pinf, pinf => true
  | ninf, ninf => true
  | _, _ => false

end Dbl

open Dbl

/-! ## Vectors -/

/-- An `Eigen::Vector3d` with finite components. -/
structure Vec3 (F : Type) where
  x : F
  y : F
  z : F
  deriving DecidableEq

/-- An `Eigen::Vector4d` with finite components: the plane `a x + b y + c z + d = 0`. -/
structure Vec4 (F : Type) where
  a : F
  b : F
  c : F
  d : F
  deriving DecidableEq

namespace Vec3

variable {F : Type} [LinearOrderedField F]

/-- Component-wise difference. -/
def sub (p q : Vec3 F) : Vec3 F := ⟨p.x - q.x, p.y - q.y, p.z - q.z⟩

/-- Component-wise sum. -/
def add (p q : Vec3 F) : Vec3 F := ⟨p.x + q.x, p.y + q.y, p.z + q.z⟩

/-- Component-wise opposite. -/
def neg (p : Vec3 F) : Vec3 F := ⟨-p.x, -p.y, -p.z⟩

/-- The dot product. -/
def dot (p q : Vec3 F) : F := p.x * q.x + p.y * q.y + p.z * q.z

/-- The cross product. -/
def cross (p q : Vec3 F) : Vec3 F :=
  ⟨p.y * q.z - p.z * q.y, p.z * q.x - p.x * q.z, p.x * q.y - p.y * q.x⟩

end Vec3

/-! ## The library functions the program calls -/

/-- The numerical routines of libm, GSL and Eigen used by the program, on finite
arguments.  `jacobiSvdV A` is the list of the columns of `svd.matrixV()` for the
matrix whose rows are `A`, computed with `ComputeThinU | ComputeThinV`. -/
structure Numerics (F : Type) where
  sqrt : F → Dbl F
  acos : F → Dbl F
  M_PI : F
  gsl_cdf_ugaussian_P : F → F
  gsl_cdf_ugaussian_Pinv : F → Dbl F
  jacobiSvdV : List (Vec3 F) → List (Vec3 F)

variable {F : Type} [LinearOrderedField F]

/-- The function `sqrt` on any double: `sqrt(+inf) = +inf`, `NaN` on `-inf` and `NaN`. -/
def sqrtD (lib : Numerics F) : Dbl F → Dbl F
  | fin x => lib.sqrt x
  | pinf => pinf
  | _ => nan

/-- The function `acos` on any double: `NaN` outside the finite values. -/
def acosD (lib : Numerics F) : Dbl F → Dbl F
  | fin x => lib.acos x
  | _ => nan

/-- The function `gsl_cdf_ugaussian_P` on any double: `1` at `+inf`, `0` at `-inf`,
`NaN` at `NaN`. -/
def ugaussianP (lib : Numerics F) : Dbl F → Dbl F
  | fin x => fin (lib.gsl_cdf_ugaussian_P x)
  | pinf => fin 1
  | ninf => fin 0
  | nan => nan

/-- The GSL routine `gsl_stats_mean`: the arithmetic mean `(1/n) Σ x_i`. -/
def gsl_stats_mean (data : List F) : F :=
  data.sum / (data.length : F)

/-- The sum of the squared deviations from the mean. -/
def sumSqDev (data : List F) : F :=
  (data.map (fun x => (x - gsl_stats_mean data) * (x - gsl_stats_mean data))).sum

/-- The GSL routine `gsl_stats_sd`: the sample standard deviation
`sqrt ((1/(n-1)) Σ (x_i - mean)^2)`; for one value the variance is `0/0`. -/
def gsl_stats_sd (lib : Numerics F) (data : List F) : Dbl F :=
  sqrtD lib (Dbl.div (fin (sumSqDev data)) (fin ((data.length : F) - 1)))

/-! ## The program -/

/-- The loop of `isNormallyDistributed` (lines 19-29): `i` is the loop index of the
head of the remaining data, `D` the running maximum. -/
def ksLoop (lib : Numerics F) (size : Nat) (mean : F) (stddev : Dbl F) :
    List F → Nat → Dbl F → Dbl F
  | [], _, D => D
  | v :: rest, i, D =>
      let F_obs := ugaussianP lib (Dbl.div (fin (v - mean)) stddev)
      let F_exp : Dbl F := fin (((i : F) + 1) / (size : F))
      let diff := Dbl.abs (Dbl.sub F_obs F_exp)
      ksLoop lib size mean stddev rest (i + 1) (if Dbl.lt D diff then diff else D)

/-- The function `isNormallyDistributed` (lines 3-35). -/
def isNormallyDistributed (lib : Numerics F) (data : List F) (significance_level : F) :
    Bool :=
  if data.isEmpty then false
  else
    let sorted_data := data.insertionSort (· ≤ ·)
    let mean := gsl_stats_mean sorted_data
    let stddev := gsl_stats_sd lib sorted_data
    let D := ksLoop lib sorted_data.length mean stddev sorted_data 0 (fin 0)
    let critical_value :=
      Dbl.div (lib.gsl_cdf_ugaussian_Pinv (1 - significance_level / 2))
        (lib.sqrt (sorted_data.length : F))
    Dbl.le D critical_value

/-- The default argument `significance_level = 0.05`. -/
def defaultSignificance : F := 5 / 100

/-- The centroid `A.colwise().mean()` (line 55). -/
def centroidOf (points : List (Vec3 F)) : Vec3 F :=
  ⟨(points.map Vec3.x).sum / (points.length : F),
   (points.map Vec3.y).sum / (points.length : F),
   (points.map Vec3.z).sum / (points.length : F)⟩

/-- The matrix `A` after `A.rowwise() -= centroid.transpose()` (line 58), as its rows. -/
def centred (points : List (Vec3 F)) : List (Vec3 F) :=
  points.map (fun p => Vec3.sub p (centroidOf points))

/-- The function `findMinimizingPlane` (lines 44-72).  The result is `none` when
`svd.matrixV().col(2)` is out of range. -/
def findMinimizingPlane (lib : Numerics F) (points : List (Vec3 F)) : Option (Vec4 F) :=
  let centroid := centroidOf points
  let A := centred points
  match (lib.jacobiSvdV A)[2]? with
  | none => none
  | some normal =>
      let d := -(Vec3.dot normal centroid)
      some ⟨normal.x, normal.y, normal.z, d⟩

/-- The function `angleBetweenPlanes` (lines 81-96). -/
def angleBetweenPlanes (lib : Numerics F) (normalVector : Vec3 F) : Dbl F :=
  let xzPlaneNormal : Vec3 F := ⟨0, 1, 0⟩
  let dot_prod := normalVector.x * xzPlaneNormal.x + normalVector.y * xzPlaneNormal.y
    + normalVector.z * xzPlaneNormal.z
  let mag1 := lib.sqrt (normalVector.x * normalVector.x + normalVector.y * normalVector.y
    + normalVector.z * normalVector.z)
  let mag2 := lib.sqrt (xzPlaneNormal.x * xzPlaneNormal.x + xzPlaneNormal.y * xzPlaneNormal.y
    + xzPlaneNormal.z * xzPlaneNormal.z)
  let cos_angle := Dbl.div (fin dot_prod) (Dbl.mul mag1 mag2)
  let radian_angle := acosD lib cos_angle
  let degrees_angle := Dbl.mul radian_angle (fin (180 / lib.M_PI))
  degrees_angle

/-- The threshold test of line 127: `angle >= 88 && angle <= 92`. -/
def inWallRange (angle : Dbl F) : Bool :=
  Dbl.le (fin 88) angle && Dbl.le angle (fin 92)

/-- The function `wallDetector` (lines 105-135).  The result is `none` when the
plane fit does not return. -/
def wallDetector (lib : Numerics F) (points : List (Vec3 F)) : Option Bool :=
  let z_cord := points.map Vec3.z
  if !isNormallyDistributed lib z_cord defaultSignificance then some false
  else
    match findMinimizingPlane lib points with
    | none => none
    | some plane =>
        let plane_normal : Vec3 F := ⟨plane.a, plane.b, plane.c⟩
        let angle_between_plane_and_XZplane := angleBetweenPlanes lib plane_normal
        some (inWallRange angle_between_plane_and_XZplane)

/-! ## A rational instance of the library

The instance `qLib` evaluates the program on rational inputs.  Its `V` factor is
exact whenever the columns of the matrix are pairwise orthogonal; `sqrt` is exact
on the listed squares and rounded to six decimals at the other listed arguments;
`acos` is exact at `-1`, `0` and `1` relative to `M_PI`; the normal distribution
function is the piecewise-linear interpolation of `Φ` through `Φ(0) = 1/2`,
`Φ(1) = 0.841345`, `Φ(1.959964) = 0.975` and `Φ(3) = 0.99865`, and the
quantile is its inverse. -/

/-- Square roots of non-negative rationals: exact on the listed squares, six
decimals at `2, 3, 5, 6, 120` and `1/4000`, a positive value elsewhere. -/
def qRoot (x : ℚ) : ℚ :=
  if x = 0 then 0
  else if x = 1 then 1
  else if x = 4 then 2
  else if x = 9 then 3
  else if x = 16 then 4
  else if x = 25 then 5
  else if x = 2 then 1414214 / 1000000
  else if x = 3 then 1732051 / 1000000
  else if x = 5 then 2236068 / 1000000
  else if x = 6 then 2449490 / 1000000
  else if x = 120 then 10954451 / 1000000
  else if x = 1 / 4000 then 15811 / 1000000
  else (x + 1) / 2

/-- The function `sqrt`: `NaN` on negative arguments. -/
def qSqrt (x : ℚ) : Dbl ℚ :=
  if x < 0 then nan else fin (qRoot x)

/-- The value of `M_PI` in `qLib`. -/
def qPi : ℚ := 355 / 113

/-- Arc cosine: `NaN` outside `[-1, 1]`, the chord through `acos 1 = 0`,
`acos 0 = π/2`, `acos (-1) = π` inside. -/
def qAcos (x : ℚ) : Dbl ℚ :=
  if x < -1 ∨ 1 < x then nan else fin (qPi * (1 - x) / 2)

/-- The interpolated normal distribution function on `x ≥ 0`. -/
def qPhiUpper (x : ℚ) : ℚ :=
  if x ≤ 1 then 1 / 2 + 341345 / 1000000 * x
  else if x ≤ 1959964 / 1000000 then
    841345 / 1000000 + 133655 / 959964 * (x - 1)
  else if x ≤ 3 then
    975 / 1000 + 23650 / 1040036 * (x - 1959964 / 1000000)
  else 1 - 405 / 100000 / x

/-- The interpolated normal distribution function. -/
def qPhi (x : ℚ) : ℚ :=
  if 0 ≤ x then qPhiUpper x else 1 - qPhiUpper (-x)

/-- The inverse of `qPhiUpper` on `[1/2, 1)`. -/
def qQuantileUpper (p : ℚ) : ℚ :=
  if p ≤ 841345 / 1000000 then (p - 1 / 2) * (1000000 / 341345)
  else if p ≤ 975 / 1000 then 1 + (p - 841345 / 1000000) * (959964 / 133655)
  else if p ≤ 99865 / 100000 then
    1959964 / 1000000 + (p - 975 / 1000) * (1040036 / 23650)
  else 405 / 100000 / (1 - p)

/-- The quantile function: `-inf` at `p ≤ 0`, `+inf` at `p ≥ 1`. -/
def qQuantile (p : ℚ) : Dbl ℚ :=
  if p ≤ 0 then ninf
  else if 1 ≤ p then pinf
  else if 1 / 2 ≤ p then fin (qQuantileUpper p)
  else fin (-(qQuantileUpper (1 - p)))

/-- The thin `V` factor of a matrix with pairwise orthogonal columns: the
coordinate axes by decreasing column norm, the first `min n 3` of them. -/
def qSvdV (A : List (Vec3 ℚ)) : List (Vec3 ℚ) :=
  let gx := (A.map (fun r => r.x * r.x)).sum
  let gy := (A.map (fun r => r.y * r.y)).sum
  let gz := (A.map (fun r => r.z * r.z)).sum
  let ex : Vec3 ℚ := ⟨1, 0, 0⟩
  let ey : Vec3 ℚ := ⟨0, 1, 0⟩
  let ez : Vec3 ℚ := ⟨0, 0, 1⟩
  let axes : List (Vec3 ℚ) :=
    if gy ≤ gx then
      (if gz ≤ gy then [ex, ey, ez] else if gz ≤ gx then [ex, ez, ey] else [ez, ex, ey])
    else
      (if gz ≤ gx then [ey, ex, ez] else if gz ≤ gy then [ey, ez, ex] else [ez, ey, ex])
  axes.take (min A.length 3)

/-- The rational instance of the library. -/
def qLib : Numerics ℚ where
  sqrt := qSqrt
  acos := qAcos
  M_PI := qPi
  gsl_cdf_ugaussian_P := qPhi
  gsl_cdf_ugaussian_Pinv := qQuantile
  jacobiSvdV := qSvdV

/-! ## The Kolmogorov-Smirnov statistic -/

/-- The term of rank `i + 1`: `|Φ((v - μ)/σ) - (i + 1)/n|`. -/
def ksTerm (Φ : F → F) (n : Nat) (μ σ : F) (i : Nat) (v : F) : F :=
  |Φ ((v - μ) / σ) - ((i : F) + 1) / (n : F)|

/-- The running maximum of the loop on finite values. -/
def ksMax (Φ : F → F) (n : Nat) (μ σ : F) : List F → Nat → F → F
  | [], _, d => d
  | v :: rest, i, d => ksMax Φ n μ σ rest (i + 1) (max d (ksTerm Φ n μ σ i v))

/-- The Kolmogorov-Smirnov statistic in the words of the specification: `D` is the
greatest of the values `|Φ((x_(i) - μ)/σ) - i/n|` over the ranks `i = 1..n` of the
sorted data `xs`. -/
def IsKsStatistic (Φ : F → F) (xs : List F) (μ σ D : F) : Prop :=
  IsGreatest {d | ∃ (i : Nat) (v : F), 1 ≤ i ∧ xs[i - 1]? = some v ∧
    d = |Φ ((v - μ) / σ) - (i : F) / (xs.length : F)|} D

/-! ## The contract of the singular value decomposition, and the fitting error -/

/-- The scalar multiple `c v`. -/
def Vec3.smul (c : F) (v : Vec3 F) : Vec3 F := ⟨c * v.x, c * v.y, c * v.z⟩

/-- The vector `Aᵀ (A v)` for the matrix with rows `A`: `Σ_r (r · v) r`. -/
def gramApply (A : List (Vec3 F)) (v : Vec3 F) : Vec3 F :=
  ⟨(A.map (fun r => Vec3.dot r v * r.x)).sum,
   (A.map (fun r => Vec3.dot r v * r.y)).sum,
   (A.map (fun r => Vec3.dot r v * r.z)).sum⟩

/-- The contract of `Eigen::JacobiSVD` with `ComputeThinV` for the `n × 3` matrix
with rows `A`: the factor `V` has `min n 3` columns, the columns are orthonormal,
and column `i` is a right-singular vector, `Aᵀ A v_i = σ_i² v_i`, where the
singular values are non-negative and sorted in decreasing order.  The list `ev`
holds the squares `σ_i²`. -/
def IsThinSvdV (A V : List (Vec3 F)) : Prop :=
  V.length = min A.length 3 ∧
  (∀ (i j : Nat) (hi : i < V.length) (hj : j < V.length),
    Vec3.dot V[i] V[j] = if i = j then 1 else 0) ∧
  ∃ ev : List F, ev.length = V.length ∧ ev.Sorted (· ≥ ·) ∧ (∀ e ∈ ev, 0 ≤ e) ∧
    ∀ (i : Nat) (hi : i < V.length) (he : i < ev.length),
      gramApply A V[i] = Vec3.smul ev[i] V[i]

/-- The sum over the rows `r` of `A` of `(r · u)²`, that is `‖A u‖²`. -/
def sumSqProj (A : List (Vec3 F)) (u : Vec3 F) : F :=
  (A.map (fun r => Vec3.dot r u ^ 2)).sum

/-! ## Rounding to a binary floating-point format -/

/-- Rounding to the nearest integer, ties to the even one. -/
def roundHalfEven (q : ℚ) : ℤ :=
  if q - ⌊q⌋ < 1 / 2 then ⌊q⌋
  else if 1 / 2 < q - ⌊q⌋ then ⌊q⌋ + 1
  else if ⌊q⌋ % 2 = 0 then ⌊q⌋ else ⌊q⌋ + 1

/-- The exponent of the unit in the last place of `x` in the binary format with
`p` significant bits and largest exponent `emax`: `⌊log₂ |x|⌋ - (p - 1)`, and the
exponent of the subnormal numbers below the normal range. -/
def ulpExponent (p : Nat) (emax : ℤ) (x : ℚ) : ℤ :=
  max (Int.log 2 |x|) (1 - emax) - ((p : ℤ) - 1)

/-- The IEEE-754 rounding to nearest, ties to even, of the rational `x` in the
binary format with `p` significant bits and largest exponent `emax`: the nearest
multiple of the unit in the last place, with gradual underflow, and an infinity
when the rounded magnitude reaches `2 ^ (emax + 1)`.  Zero has one sign. -/
def roundTo (p : Nat) (emax : ℤ) (x : ℚ) : Dbl ℚ :=
  let e := ulpExponent p emax x
  let r : ℚ := (roundHalfEven (x / 2 ^ e) : ℚ) * 2 ^ e
  if (2 : ℚ) ^ (emax + 1) ≤ |r| then Dbl.infOfSign x else fin r

/-- Rounding to `double` (binary64). -/
def binary64 (x : ℚ) : Dbl ℚ := roundTo 53 1023 x

/-- Rounding to the `long double` of x86 (the 80-bit extended format). -/
def extended80 (x : ℚ) : Dbl ℚ := roundTo 64 16383 x

/-! ## The program in floating-point arithmetic

The definitions of this section repeat the program with every arithmetic
operation followed by the rounding of its result.  A finite `double` is still an
element of `F` and the inputs are taken to be numbers of the format; the
conversions of integers (`i + 1.0`, `sorted_data.size()`, `n - 1`) are exact.
Zero has one sign, and a product followed by a sum is two rounded operations. -/

/-- The roundings of the two formats of the program's arithmetic: `dbl x` is the
`double` and `ldbl x` the `long double` nearest to the real number `x` (an
infinity on overflow).  GSL accumulates the mean and the variance in
`long double`. -/
structure Rounding (F : Type) where
  dbl : F → Dbl F
  ldbl : F → Dbl F

/-- Arithmetic without rounding. -/
def Rounding.exact : Rounding F := ⟨fin, fin⟩

/-- The result of an operation after rounding: the special values are kept. -/
def Dbl.round (r : F → Dbl F) : Dbl F → Dbl F
  | fin x => r x
  | a => a

namespace Fp

/-- The `double` sum. -/
def add (R : Rounding F) (a b : Dbl F) : Dbl F := Dbl.round R.dbl (Dbl.add a b)

/-- The `double` difference. -/
def sub (R : Rounding F) (a b : Dbl F) : Dbl F := Dbl.round R.dbl (Dbl.sub a b)

/-- The `double` product. -/
def mul (R : Rounding F) (a b : Dbl F) : Dbl F := Dbl.round R.dbl (Dbl.mul a b)

/-- The `double` quotient. -/
def div (R : Rounding F) (a b : Dbl F) : Dbl F := Dbl.round R.dbl (Dbl.div a b)

/-- The `long double` sum. -/
def ladd (R : Rounding F) (a b : Dbl F) : Dbl F := Dbl.round R.ldbl (Dbl.add a b)

/-- The `long double` difference. -/
def lsub (R : Rounding F) (a b : Dbl F) : Dbl F := Dbl.round R.ldbl (Dbl.sub a b)

/-- The `long double` product. -/
def lmul (R : Rounding F) (a b : Dbl F) : Dbl F := Dbl.round R.ldbl (Dbl.mul a b)

/-- The `long double` quotient. -/
def ldiv (R : Rounding F) (a b : Dbl F) : Dbl F := Dbl.round R.ldbl (Dbl.div a b)

/-- The loop of `gsl_stats_mean`: `mean += (data[i] - mean) / (i + 1)` on a
`long double` accumulator. -/
def meanLoop (R : Rounding F) : List F → Nat → Dbl F → Dbl F
  | [], _, mean => mean
  | x :: rest, i, mean =>
      meanLoop R rest (i + 1)
        (ladd R mean (ldiv R (lsub R (fin x) mean) (fin ((i : F) + 1))))

/-- The GSL routine `gsl_stats_mean`: the accumulator of the recurrence, returned
as a `double`. -/
def gsl_stats_mean (R : Rounding F) (data : List F) : Dbl F :=
  Dbl.round R.dbl (meanLoop R data 0 (fin 0))

/-- The loop of GSL's `compute_variance`: `delta = data[i] - mean` is a `double`
difference, `variance += (delta * delta - variance) / (i + 1)` runs on a
`long double` accumulator. -/
def varianceLoop (R : Rounding F) (mean : Dbl F) : List F → Nat → Dbl F → Dbl F
  | [], _, variance => variance
  | x :: rest, i, variance =>
      let delta := sub R (fin x) mean
      varianceLoop R mean rest (i + 1)
        (ladd R variance (ldiv R (lsub R (lmul R delta delta) variance) (fin ((i : F) + 1))))

/-- The GSL routine `gsl_stats_sd`: `sqrt (variance * ((double) n / (double) (n - 1)))`
with the mean of `gsl_stats_mean` and the variance of `compute_variance` returned
as a `double`. -/
def gsl_stats_sd (R : Rounding F) (lib : Numerics F) (data : List F) : Dbl F :=
  let mean := gsl_stats_mean R data
  let variance := Dbl.round R.dbl (varianceLoop R mean data 0 (fin 0))
  sqrtD lib (mul R variance
    (div R (fin (data.length : F)) (fin ((data.length - 1 : Nat) : F))))

/-- The value `diff` of one pass of the loop of `isNormallyDistributed` (lines
22-24) for the value `v` at index `i`. -/
def ksTerm (R : Rounding F) (lib : Numerics F) (size : Nat) (mean stddev : Dbl F)
    (i : Nat) (v : F) : Dbl F :=
  let F_obs := ugaussianP lib (div R (sub R (fin v) mean) stddev)
  let F_exp := div R (add R (fin (i : F)) (fin 1)) (fin (size : F))
  Dbl.abs (sub R F_obs F_exp)

/-- The loop of `isNormallyDistributed` (lines 19-29). -/
def ksLoop (R : Rounding F) (lib : Numerics F) (size : Nat) (mean stddev : Dbl F) :
    List F → Nat → Dbl F → Dbl F
  | [], _, D => D
  | v :: rest, i, D =>
      let diff := ksTerm R lib size mean stddev i v
      ksLoop R lib size mean stddev rest (i + 1) (if Dbl.lt D diff then diff else D)

/-- The function `gsl_cdf_ugaussian_Pinv` on any double: `NaN` outside the finite
values. -/
def ugaussianPinv (lib : Numerics F) : Dbl F → Dbl F
  | fin p => lib.gsl_cdf_ugaussian_Pinv p
  | _ => nan

/-- The critical value of line 32 for `size` values. -/
def criticalValue (R : Rounding F) (lib : Numerics F) (size : Nat)
    (significance_level : Dbl F) : Dbl F :=
  div R (ugaussianPinv lib (sub R (fin 1) (div R significance_level (fin 2))))
    (lib.sqrt (size : F))

/-- The function `isNormallyDistributed` (lines 3-35). -/
def isNormallyDistributed (R : Rounding F) (lib : Numerics F) (data : List F)
    (significance_level : Dbl F) : Bool :=
  if data.isEmpty then false
  else
    let sorted_data := data.insertionSort (· ≤ ·)
    let mean := gsl_stats_mean R sorted_data
    let stddev := gsl_stats_sd R lib sorted_data
    let D := ksLoop R lib sorted_data.length mean stddev sorted_data 0 (fin 0)
    let critical_value := criticalValue R lib sorted_data.length significance_level
    Dbl.le D critical_value

/-- The default argument `significance_level = 0.05`: the `double` nearest to
`5/100`. -/
def defaultSignificance (R : Rounding F) : Dbl F := R.dbl (5 / 100)

/-- The sum of a column, from the first row to the last. -/
def sumCol (R : Rounding F) : List F → Dbl F
  | [] => fin 0
  | x :: rest => rest.foldl (fun acc y => add R acc (fin y)) (fin x)

/-- One component of the centroid `A.colwise().mean()` (line 55): the sum of the
column divided by the number of rows. -/
def colMean (R : Rounding F) (col : List F) : Dbl F :=
  div R (sumCol R col) (fin (col.length : F))

/-- The rows of `A` after `A.rowwise() -= centroid.transpose()` (line 58), for the
centroid `(cx, cy, cz)`; `none` as soon as an entry is not finite. -/
def centredRows (R : Rounding F) (cx cy cz : Dbl F) : List (Vec3 F) → Option (List (Vec3 F))
  | [] => some []
  | p :: rest =>
      match sub R (fin p.x) cx, sub R (fin p.y) cy, sub R (fin p.z) cz,
        centredRows R cx cy cz rest with
      | fin x, fin y, fin z, some rows => some (⟨x, y, z⟩ :: rows)
      | _, _, _, _ => none

/-- The matrix `A` that is given to the decomposition (lines 46-58): the points
minus their centroid, as rows; `none` as soon as an entry is not finite. -/
def centredMatrix (R : Rounding F) (points : List (Vec3 F)) : Option (List (Vec3 F)) :=
  centredRows R (colMean R (points.map Vec3.x)) (colMean R (points.map Vec3.y))
    (colMean R (points.map Vec3.z)) points

/-- The result of `findMinimizingPlane`: a finite normal and the offset `d`. -/
structure Plane (F : Type) where
  a : F
  b : F
  c : F
  d : Dbl F

/-- The function `findMinimizingPlane` (lines 44-72).  The result is `none` when
`svd.matrixV().col(2)` is out of range, and also when the centred matrix has an
entry that is not finite (what the decomposition returns for it is not
specified).  The order of the additions inside `colwise().mean()` and `dot` is
Eigen's; the model adds from the first term to the last. -/
def findMinimizingPlane (R : Rounding F) (lib : Numerics F) (points : List (Vec3 F)) :
    Option (Plane F) :=
  let cx := colMean R (points.map Vec3.x)
  let cy := colMean R (points.map Vec3.y)
  let cz := colMean R (points.map Vec3.z)
  match centredMatrix R points with
  | none => none
  | some A =>
      match (lib.jacobiSvdV A)[2]? with
      | none => none
      | some normal =>
          let d := Dbl.neg (add R (add R (mul R (fin normal.x) cx) (mul R (fin normal.y) cy))
            (mul R (fin normal.z) cz))
          some ⟨normal.x, normal.y, normal.z, d⟩

/-- The differences `sorted_data[i] - mean` of line 22, which are also the values
`delta` of the variance, for the sorted data and the mean of GSL. -/
def deviations (R : Rounding F) (data : List F) : List (Dbl F) :=
  (data.insertionSort (· ≤ ·)).map
    (fun v => sub R (fin v) (gsl_stats_mean R (data.insertionSort (· ≤ ·))))

/-- The dot product of line 86. -/
def dotProd (R : Rounding F) (u v : Vec3 F) : Dbl F :=
  add R (add R (mul R (fin u.x) (fin v.x)) (mul R (fin u.y) (fin v.y)))
    (mul R (fin u.z) (fin v.z))

/-- The magnitude of lines 87 and 88: `sqrt (x*x + y*y + z*z)`. -/
def magnitude (R : Rounding F) (lib : Numerics F) (v : Vec3 F) : Dbl F :=
  sqrtD lib (dotProd R v v)

/-- The value `cos_angle` of line 90. -/
def cosAngle (R : Rounding F) (lib : Numerics F) (normalVector : Vec3 F) : Dbl F :=
  let xzPlaneNormal : Vec3 F := ⟨0, 1, 0⟩
  let dot_prod := dotProd R normalVector xzPlaneNormal
  let mag1 := magnitude R lib normalVector
  let mag2 := magnitude R lib xzPlaneNormal
  div R dot_prod (mul R mag1 mag2)

/-- The function `angleBetweenPlanes` (lines 81-96). -/
def angleBetweenPlanes (R : Rounding F) (lib : Numerics F) (normalVector : Vec3 F) : Dbl F :=
  let cos_angle := cosAngle R lib normalVector
  let radian_angle := acosD lib cos_angle
  let degrees_angle := mul R radian_angle (div R (fin 180) (fin lib.M_PI))
  degrees_angle

/-- The function `wallDetector` (lines 105-135).  The result is `none` when the
plane fit does not return. -/
def wallDetector (R : Rounding F) (lib : Numerics F) (points : List (Vec3 F)) : Option Bool :=
  let z_cord := points.map Vec3.z
  if !isNormallyDistributed R lib z_cord (defaultSignificance R) then some false
  else
    match findMinimizingPlane R lib points with
    | none => none
    | some plane =>
        let plane_normal : Vec3 F := ⟨plane.a, plane.b, plane.c⟩
        let angle_between_plane_and_XZplane := angleBetweenPlanes R lib plane_normal
        some (inWallRange angle_between_plane_and_XZplane)

end Fp

/-- The arithmetic of x86-64: binary64 for `double`, the 80-bit extended format
for `long double`. -/
def ieee : Rounding ℚ := ⟨binary64, extended80⟩

/-! ## A binary64 instance of the library

The instance `dLib` evaluates the floating-point program on rational inputs that
are numbers of the binary64 format.  `M_PI` is the `double` nearest to `π`; at the
listed arguments `sqrt` and `acos` return the `double` nearest to the exact
value, `gsl_cdf_ugaussian_P` the `double` nearest to `Φ`, and the quantile at the
`double` `0.975` is `1.959963984540054`.  At the other arguments the functions
return the `double` nearest to the value of the rational instance `qLib`. -/

/-- The finite value of a double, `0` for the special values. -/
def Dbl.val : Dbl ℚ → ℚ
  | fin x => x
  | _ => 0

/-- The constant `M_PI`: `0x1.921fb54442d18p+1`. -/
def dPi : ℚ := 884279719003555 / 2 ^ 48

/-- The function `sqrt` of binary64: exact at the listed squares, correctly rounded
at `2` and at `0x1.1111111111111p-108`. -/
def dSqrt (x : ℚ) : Dbl ℚ :=
  if x < 0 then nan
  else if x = 0 then fin 0
  else if x = 1 then fin 1
  else if x = 4 then fin 2
  else if x = 9 then fin 3
  else if x = 16 then fin 4
  else if x = 25 then fin 5
  else if x = 1 / 2 ^ 108 then fin (1 / 2 ^ 54)
  else if x = 2 then fin (6369051672525773 / 2 ^ 52)
  else if x = 4803839602528529 / 2 ^ 160 then fin (2325648847305581 / 2 ^ 105)
  else binary64 (qRoot x)

/-- The function `acos` of binary64: `NaN` outside `[-1, 1]`, correctly rounded at
`1`, `0`, `-1`, `0.8` and `± 0x1.1de58c9f7dc37p-5` (the cosine of 88 degrees). -/
def dAcos (x : ℚ) : Dbl ℚ :=
  if x < -1 ∨ 1 < x then nan
  else if x = 1 then fin 0
  else if x = 0 then fin (dPi / 2)
  else if x = -1 then fin dPi
  else if x = 3602879701896397 / 2 ^ 52 then fin (181129459610871 / 2 ^ 48)
  else if x = 5029547531033655 / 2 ^ 57 then fin (3458516234325015 / 2 ^ 51)
  else if x = -(5029547531033655 / 2 ^ 57) then fin (7231443035406851 / 2 ^ 52)
  else binary64 (dPi * (1 - x) / 2)

/-- The function `gsl_cdf_ugaussian_P` of binary64: `1/2` at `0`, correctly rounded
at `-0.25`, `3.75` and `0x1.efbdeb14f4edbp+1`. -/
def dPhi (x : ℚ) : ℚ :=
  if x = 0 then 1 / 2
  else if x = -(1 / 4) then 903633021060261 / 2 ^ 51
  else if x = 15 / 4 then 9006402862635625 / 2 ^ 53
  else if x = 8721183177395931 / 2 ^ 51 then 9006715067445535 / 2 ^ 53
  else Dbl.val (binary64 (qPhi x))

/-- The function `gsl_cdf_ugaussian_Pinv` of binary64: `1.959963984540054` at the
`double` `0.975`. -/
def dQuantile (p : ℚ) : Dbl ℚ :=
  if p = 8782019273372467 / 2 ^ 53 then fin (2206723267608545 / 2 ^ 50)
  else Dbl.round binary64 (qQuantile p)

/-- The binary64 instance of the library. -/
def dLib : Numerics ℚ where
  sqrt := dSqrt
  acos := dAcos
  M_PI := dPi
  gsl_cdf_ugaussian_P := dPhi
  gsl_cdf_ugaussian_Pinv := dQuantile
  jacobiSvdV := qSvdV

/-- The Kolmogorov-Smirnov statistic in the words of the specification, with every
operation rounded: `D` is the greatest of the values `|F_obs - F_exp|` over the
ranks `i = 1..n` of the sorted data `xs`, where `F_exp = i / n` and
`F_obs = Φ((x_(i) - μ)/σ)` for the computed mean `μ` and the computed standard
deviation `σ`. -/
def Fp.IsKsStatistic (R : Rounding F) (lib : Numerics F) (xs : List F) (μ σ : Dbl F)
    (D : F) : Prop :=
  IsGreatest {d | ∃ (i : Nat) (v : F), 1 ≤ i ∧ xs[i - 1]? = some v ∧
    Dbl.abs (Fp.sub R (ugaussianP lib (Fp.div R (Fp.sub R (fin v) μ) σ))
      (Fp.div R (fin (i : F)) (fin (xs.length : F)))) = fin d} D

/-- C1: `wallDetector` returns true exactly when `isNormallyDistributed` on the
z-coordinates (significance 0.05) returns true and the angle of the fitted normal
lies in `[88, 92]`; a failed normality test gives false at once; an angle of
exactly 88 or exactly 92 is a wall, an angle below 88 or above 92 is not. -/
theorem wallDetector_true_iff (lib : Numerics F) (points : List (Vec3 F)) :
    (wallDetector lib points = some true ↔
      isNormallyDistributed lib (points.map Vec3.z) defaultSignificance = true ∧
      ∃ plane, findMinimizingPlane lib points = some plane ∧
        Dbl.le (fin 88) (angleBetweenPlanes lib ⟨plane.a, plane.b, plane.c⟩) = true ∧
        Dbl.le (angleBetweenPlanes lib ⟨plane.a, plane.b, plane.c⟩) (fin 92) = true) ∧
    (isNormallyDistributed lib (points.map Vec3.z) defaultSignificance = false →
      wallDetector lib points = some false) ∧
    (∀ plane,
      isNormallyDistributed lib (points.map Vec3.z) defaultSignificance = true →
      findMinimizingPlane lib points = some plane →
      (angleBetweenPlanes lib ⟨plane.a, plane.b, plane.c⟩ = fin 88 →
        wallDetector lib points = some true) ∧
      (angleBetweenPlanes lib ⟨plane.a, plane.b, plane.c⟩ = fin 92 →
        wallDetector lib points = some true) ∧
      (Dbl.lt (angleBetweenPlanes lib ⟨plane.a, plane.b, plane.c⟩) (fin 88) = true ∨
        Dbl.lt (fin 92) (angleBetweenPlanes lib ⟨plane.a, plane.b, plane.c⟩) = true →
        wallDetector lib points = some false)) := by
  refine ⟨?_, ?_, ?_⟩
  · unfold wallDetector
    cases hN : isNormallyDistributed lib (points.map Vec3.z) defaultSignificance
    · simp [hN]
    · cases hP : findMinimizingPlane lib points with
      | none => simp [hN]
      | some plane => simp [hN, inWallRange]
  · intro hN
    simp [wallDetector, hN]
  · intro plane hN hP
    have h88 : (88 : F) ≤ 92 := by norm_num
    have hval : wallDetector lib points
        = some (inWallRange (angleBetweenPlanes lib ⟨plane.a, plane.b, plane.c⟩)) := by
      simp [wallDetector, hN, hP]
    rw [hval]
    refine ⟨?_, ?_, ?_⟩
    · intro h
      rw [h]
      simp [inWallRange, Dbl.le, h88]
    · intro h
      rw [h]
      simp [inWallRange, Dbl.le, h88]
    · intro h
      cases hA : angleBetweenPlanes lib ⟨plane.a, plane.b, plane.c⟩ with
      | fin a =>
          rw [hA] at h
          simp only [Dbl.lt, decide_eq_true_eq] at h
          rcases h with h | h
          · have : ¬ (88 : F) ≤ a := not_le.mpr h
            simp [inWallRange, Dbl.le, this]
          · have : ¬ a ≤ (92 : F) := not_le.mpr h
            simp [inWallRange, Dbl.le, this]
      | pinf => simp [inWallRange, Dbl.le]
      | ninf => simp [inWallRange, Dbl.le]
      | nan =>
          rw [hA] at h
          simp [Dbl.lt] at h

/-- C2: on the empty sequence `isNormallyDistributed` returns false for every
significance level, and on the empty cluster `wallDetector` returns false,
whatever the plane fit would do. -/
theorem empty_input_false (lib : Numerics F) (significance_level : F) :
    isNormallyDistributed lib [] significance_level = false ∧
    wallDetector lib [] = some false := by
  constructor
  · simp [isNormallyDistributed]
  · simp [wallDetector, isNormallyDistributed]

/-! ## Arithmetic on finite doubles -/

/-- The quotient of two finite values with a non-zero divisor. -/
theorem Dbl.div_fin_fin (x y : F) (hy : y ≠ 0) :
    Dbl.div (fin x) (fin y) = fin (x / y) := by
  simp [Dbl.div, hy]

/-- The quotient `0 / 0` is `NaN`. -/
theorem Dbl.div_zero_zero : Dbl.div (fin (0 : F)) (fin 0) = nan := by
  simp [Dbl.div]

/-- The product of two finite values. -/
theorem Dbl.mul_fin_fin (x y : F) : Dbl.mul (fin x) (fin y) = fin (x * y) := rfl

/-- The comparison `<=` of two finite values. -/
theorem Dbl.le_fin_fin (x y : F) : Dbl.le (fin x) (fin y) = decide (x ≤ y) := rfl

/-- The comparison `<` of two finite values. -/
theorem Dbl.lt_fin_fin (x y : F) : Dbl.lt (fin x) (fin y) = decide (x < y) := rfl

/-! ## The statistics do not depend on the order of the data -/

theorem gsl_stats_mean_perm {l₁ l₂ : List F} (h : l₁.Perm l₂) :
    gsl_stats_mean l₁ = gsl_stats_mean l₂ := by
  unfold gsl_stats_mean
  rw [h.sum_eq, h.length_eq]

/-- The sum of the squared deviations does not depend on the order. -/
theorem sumSqDev_perm {l₁ l₂ : List F} (h : l₁.Perm l₂) :
    sumSqDev l₁ = sumSqDev l₂ := by
  unfold sumSqDev
  rw [gsl_stats_mean_perm h]
  exact (h.map _).sum_eq

/-- The standard deviation does not depend on the order. -/
theorem gsl_stats_sd_perm (lib : Numerics F) {l₁ l₂ : List F} (h : l₁.Perm l₂) :
    gsl_stats_sd lib l₁ = gsl_stats_sd lib l₂ := by
  unfold gsl_stats_sd
  rw [sumSqDev_perm h, h.length_eq]

/-- A sum of squares is non-negative. -/
theorem sum_map_sq_nonneg {α : Type} (f : α → F) (l : List α) :
    0 ≤ (l.map (fun x => f x * f x)).sum := by
  induction l with
  | nil => simp
  | cons a t ih =>
      simp only [List.map_cons, List.sum_cons]
      exact add_nonneg (mul_self_nonneg _) ih

/-! ## The loop computes a maximum -/

theorem ksLoop_fin (lib : Numerics F) (n : Nat) (μ σ : F) (hσ : σ ≠ 0) (l : List F) :
    ∀ (i : Nat) (d : F), ksLoop lib n μ (fin σ) l i (fin d)
      = fin (ksMax lib.gsl_cdf_ugaussian_P n μ σ l i d) := by
  induction l with
  | nil => intro i d; rfl
  | cons v rest ih =>
      intro i d
      simp only [ksLoop, ksMax, Dbl.div_fin_fin _ _ hσ, ugaussianP, Dbl.sub, Dbl.neg, Dbl.add,
        Dbl.abs, Dbl.lt_fin_fin]
      have hterm : |lib.gsl_cdf_ugaussian_P ((v - μ) / σ) + -(((i : F) + 1) / (n : F))|
          = ksTerm lib.gsl_cdf_ugaussian_P n μ σ i v := by
        simp only [ksTerm, sub_eq_add_neg]
      rw [hterm]
      by_cases h : d < ksTerm lib.gsl_cdf_ugaussian_P n μ σ i v
      · simp only [h, decide_True, if_true]
        rw [ih, max_eq_right (le_of_lt h)]
      · simp only [h, decide_False]
        rw [if_neg (by simp), ih, max_eq_left (not_lt.mp h)]

/-! ## The smallest right-singular vector minimises the quadratic form -/

/-- The entries of `Aᵀ A`. -/
theorem gramApply_x (A : List (Vec3 F)) (v : Vec3 F) :
    (gramApply A v).x = (A.map (fun r => r.x * r.x)).sum * v.x
      + (A.map (fun r => r.x * r.y)).sum * v.y + (A.map (fun r => r.x * r.z)).sum * v.z := by
  unfold gramApply
  induction A with
  | nil => simp
  | cons r t ih =>
      simp only [List.map_cons, List.sum_cons] at ih ⊢
      rw [ih]
      unfold Vec3.dot
      ring

/-- The second component of `Aᵀ A v`. -/
theorem gramApply_y (A : List (Vec3 F)) (v : Vec3 F) :
    (gramApply A v).y = (A.map (fun r => r.x * r.y)).sum * v.x
      + (A.map (fun r => r.y * r.y)).sum * v.y + (A.map (fun r => r.y * r.z)).sum * v.z := by
  unfold gramApply
  induction A with
  | nil => simp
  | cons r t ih =>
      simp only [List.map_cons, List.sum_cons] at ih ⊢
      rw [ih]
      unfold Vec3.dot
      ring

/-- The third component of `Aᵀ A v`. -/
theorem gramApply_z (A : List (Vec3 F)) (v : Vec3 F) :
    (gramApply A v).z = (A.map (fun r => r.x * r.z)).sum * v.x
      + (A.map (fun r => r.y * r.z)).sum * v.y + (A.map (fun r => r.z * r.z)).sum * v.z := by
  unfold gramApply
  induction A with
  | nil => simp
  | cons r t ih =>
      simp only [List.map_cons, List.sum_cons] at ih ⊢
      rw [ih]
      unfold Vec3.dot
      ring

/-- The quadratic form `‖A u‖²` in terms of the entries of `Aᵀ A`. -/
theorem sumSqProj_eq (A : List (Vec3 F)) (u : Vec3 F) :
    sumSqProj A u = (A.map (fun r => r.x * r.x)).sum * (u.x * u.x)
      + (A.map (fun r => r.y * r.y)).sum * (u.y * u.y)
      + (A.map (fun r => r.z * r.z)).sum * (u.z * u.z)
      + 2 * (A.map (fun r => r.x * r.y)).sum * (u.x * u.y)
      + 2 * (A.map (fun r => r.x * r.z)).sum * (u.x * u.z)
      + 2 * (A.map (fun r => r.y * r.z)).sum * (u.y * u.z) := by
  unfold sumSqProj
  induction A with
  | nil => simp
  | cons r t ih =>
      simp only [List.map_cons, List.sum_cons]
      rw [ih]
      unfold Vec3.dot
      ring

/-- The quadratic form is `u · Aᵀ A u`. -/
theorem sumSqProj_eq_dot_gram (A : List (Vec3 F)) (u : Vec3 F) :
    sumSqProj A u = Vec3.dot u (gramApply A u) := by
  rw [sumSqProj_eq]
  unfold Vec3.dot
  rw [gramApply_x, gramApply_y, gramApply_z]
  ring

/-- Three orthonormal vectors of the three-dimensional space are complete. -/
theorem orthonormal_complete (v0 v1 v2 : Vec3 F)
    (h00 : Vec3.dot v0 v0 = 1) (h11 : Vec3.dot v1 v1 = 1) (h22 : Vec3.dot v2 v2 = 1)
    (h01 : Vec3.dot v0 v1 = 0) (h02 : Vec3.dot v0 v2 = 0) (h12 : Vec3.dot v1 v2 = 0) :
    (v0.x * v0.x + v1.x * v1.x + v2.x * v2.x = 1 ∧
     v0.y * v0.y + v1.y * v1.y + v2.y * v2.y = 1 ∧
     v0.z * v0.z + v1.z * v1.z + v2.z * v2.z = 1) ∧
    (v0.x * v0.y + v1.x * v1.y + v2.x * v2.y = 0 ∧
     v0.x * v0.z + v1.x * v1.z + v2.x * v2.z = 0 ∧
     v0.y * v0.z + v1.y * v1.z + v2.y * v2.z = 0) := by
  unfold Vec3.dot at h00 h11 h22 h01 h02 h12
  let M : Matrix (Fin 3) (Fin 3) F :=
    Matrix.of ![![v0.x, v0.y, v0.z], ![v1.x, v1.y, v1.z], ![v2.x, v2.y, v2.z]]
  have hM : M * M.transpose = 1 := by
    ext i j
    rw [Matrix.mul_apply, Fin.sum_univ_three]
    simp only [Matrix.transpose_apply]
    fin_cases i <;> fin_cases j <;> simp [M] <;> linarith
  have hM2 : M.transpose * M = 1 := Matrix.mul_eq_one_comm.mp hM
  have e : ∀ i j : Fin 3, M 0 i * M 0 j + M 1 i * M 1 j + M 2 i * M 2 j
      = (1 : Matrix (Fin 3) (Fin 3) F) i j := by
    intro i j
    rw [← hM2, Matrix.mul_apply, Fin.sum_univ_three]
    simp only [Matrix.transpose_apply]
  have e00 := e 0 0
  have e11 := e 1 1
  have e22 := e 2 2
  have e01 := e 0 1
  have e02 := e 0 2
  have e12 := e 1 2
  simp [M] at e00 e11 e22 e01 e02 e12
  exact ⟨⟨e00, e11, e22⟩, e01, e02, e12⟩

/-- What the contract says for a matrix with at least three rows: three orthonormal
columns, each an eigenvector of `Aᵀ A`, with decreasing non-negative eigenvalues. -/
theorem IsThinSvdV.triple {A V : List (Vec3 F)} (h : IsThinSvdV A V) (h3 : 3 ≤ A.length) :
    ∃ (v0 v1 v2 : Vec3 F) (e0 e1 e2 : F), V = [v0, v1, v2] ∧
      (Vec3.dot v0 v0 = 1 ∧ Vec3.dot v1 v1 = 1 ∧ Vec3.dot v2 v2 = 1) ∧
      (Vec3.dot v0 v1 = 0 ∧ Vec3.dot v0 v2 = 0 ∧ Vec3.dot v1 v2 = 0) ∧
      (e1 ≤ e0 ∧ e2 ≤ e1 ∧ 0 ≤ e2) ∧
      gramApply A v0 = Vec3.smul e0 v0 ∧ gramApply A v1 = Vec3.smul e1 v1 ∧
      gramApply A v2 = Vec3.smul e2 v2 := by
  obtain ⟨hlen, horth, ev, hevlen, hsorted, hnonneg, hgram⟩ := h
  have hV3 : V.length = 3 := by rw [hlen]; omega
  match V, hV3 with
  | [v0, v1, v2], _ =>
    match ev, hevlen with
    | [e0, e1, e2], _ =>
      refine ⟨v0, v1, v2, e0, e1, e2, rfl, ⟨?_, ?_, ?_⟩, ⟨?_, ?_, ?_⟩, ⟨?_, ?_, ?_⟩, ?_, ?_, ?_⟩
      · simpa using horth 0 0 (by simp) (by simp)
      · simpa using horth 1 1 (by simp) (by simp)
      · simpa using horth 2 2 (by simp) (by simp)
      · simpa using horth 0 1 (by simp) (by simp)
      · simpa using horth 0 2 (by simp) (by simp)
      · simpa using horth 1 2 (by simp) (by simp)
      · simp only [List.sorted_cons, List.mem_cons] at hsorted
        exact hsorted.1 e1 (Or.inl rfl)
      · simp only [List.sorted_cons, List.mem_cons] at hsorted
        exact hsorted.2.1 e2 (Or.inl rfl)
      · exact hnonneg e2 (by simp)
      · simpa using hgram 0 (by simp) (by simp)
      · simpa using hgram 1 (by simp) (by simp)
      · simpa using hgram 2 (by simp) (by simp)

/-- The algebra behind the Rayleigh bound, on the entries: `g..` are the entries
of a symmetric matrix, `(a_i, b_i, c_i)` a complete orthonormal system of
eigenvectors with eigenvalues `e_i`, and `(x, y, z)` any vector. -/
theorem rayleigh_expansion (gxx gyy gzz gxy gxz gyz a0 b0 c0 a1 b1 c1 a2 b2 c2 e0 e1 e2 x y z : F)
    (cxx : a0 * a0 + a1 * a1 + a2 * a2 = 1) (cyy : b0 * b0 + b1 * b1 + b2 * b2 = 1)
    (czz : c0 * c0 + c1 * c1 + c2 * c2 = 1) (cxy : a0 * b0 + a1 * b1 + a2 * b2 = 0)
    (cxz : a0 * c0 + a1 * c1 + a2 * c2 = 0) (cyz : b0 * c0 + b1 * c1 + b2 * c2 = 0)
    (g0x : gxx * a0 + gxy * b0 + gxz * c0 = e0 * a0)
    (g0y : gxy * a0 + gyy * b0 + gyz * c0 = e0 * b0)
    (g0z : gxz * a0 + gyz * b0 + gzz * c0 = e0 * c0)
    (g1x : gxx * a1 + gxy * b1 + gxz * c1 = e1 * a1)
    (g1y : gxy * a1 + gyy * b1 + gyz * c1 = e1 * b1)
    (g1z : gxz * a1 + gyz * b1 + gzz * c1 = e1 * c1)
    (g2x : gxx * a2 + gxy * b2 + gxz * c2 = e2 * a2)
    (g2y : gxy * a2 + gyy * b2 + gyz * c2 = e2 * b2)
    (g2z : gxz * a2 + gyz * b2 + gzz * c2 = e2 * c2) :
    x * x + y * y + z * z
      = (x * a0 + y * b0 + z * c0) * (x * a0 + y * b0 + z * c0)
        + (x * a1 + y * b1 + z * c1) * (x * a1 + y * b1 + z * c1)
        + (x * a2 + y * b2 + z * c2) * (x * a2 + y * b2 + z * c2) ∧
    gxx * (x * x) + gyy * (y * y) + gzz * (z * z)
        + 2 * gxy * (x * y) + 2 * gxz * (x * z) + 2 * gyz * (y * z)
      = e0 * ((x * a0 + y * b0 + z * c0) * (x * a0 + y * b0 + z * c0))
        + e1 * ((x * a1 + y * b1 + z * c1) * (x * a1 + y * b1 + z * c1))
        + e2 * ((x * a2 + y * b2 + z * c2) * (x * a2 + y * b2 + z * c2)) := by
  have hux : x = (x * a0 + y * b0 + z * c0) * a0 + (x * a1 + y * b1 + z * c1) * a1
      + (x * a2 + y * b2 + z * c2) * a2 := by
    linear_combination (-x) * cxx - y * cxy - z * cxz
  have huy : y = (x * a0 + y * b0 + z * c0) * b0 + (x * a1 + y * b1 + z * c1) * b1
      + (x * a2 + y * b2 + z * c2) * b2 := by
    linear_combination (-x) * cxy - y * cyy - z * cyz
  have huz : z = (x * a0 + y * b0 + z * c0) * c0 + (x * a1 + y * b1 + z * c1) * c1
      + (x * a2 + y * b2 + z * c2) * c2 := by
    linear_combination (-x) * cxz - y * cyz - z * czz
  constructor
  · linear_combination x * hux + y * huy + z * huz
  · linear_combination (gxx * x + gxy * y + gxz * z) * hux
      + (gxy * x + gyy * y + gyz * z) * huy
      + (gxz * x + gyz * y + gzz * z) * huz
      + (x * a0 + y * b0 + z * c0) * x * g0x + (x * a0 + y * b0 + z * c0) * y * g0y
      + (x * a0 + y * b0 + z * c0) * z * g0z
      + (x * a1 + y * b1 + z * c1) * x * g1x + (x * a1 + y * b1 + z * c1) * y * g1y
      + (x * a1 + y * b1 + z * c1) * z * g1z
      + (x * a2 + y * b2 + z * c2) * x * g2x + (x * a2 + y * b2 + z * c2) * y * g2y
      + (x * a2 + y * b2 + z * c2) * z * g2z
/-- The Rayleigh bound: with an orthonormal eigenbasis of `Aᵀ A` whose smallest
eigenvalue is `e2`, every vector `u` has `‖A u‖² ≥ e2 (u · u)`. -/
theorem sumSqProj_ge (A : List (Vec3 F)) (v0 v1 v2 : Vec3 F) (e0 e1 e2 : F)
    (h00 : Vec3.dot v0 v0 = 1) (h11 : Vec3.dot v1 v1 = 1) (h22 : Vec3.dot v2 v2 = 1)
    (h01 : Vec3.dot v0 v1 = 0) (h02 : Vec3.dot v0 v2 = 0) (h12 : Vec3.dot v1 v2 = 0)
    (he10 : e1 ≤ e0) (he21 : e2 ≤ e1)
    (hg0 : gramApply A v0 = Vec3.smul e0 v0) (hg1 : gramApply A v1 = Vec3.smul e1 v1)
    (hg2 : gramApply A v2 = Vec3.smul e2 v2) (u : Vec3 F) :
    e2 * Vec3.dot u u ≤ sumSqProj A u := by
  obtain ⟨⟨cxx, cyy, czz⟩, cxy, cxz, cyz⟩ := orthonormal_complete v0 v1 v2 h00 h11 h22 h01 h02 h12
  have g0x := congrArg Vec3.x hg0
  have g0y := congrArg Vec3.y hg0
  have g0z := congrArg Vec3.z hg0
  have g1x := congrArg Vec3.x hg1
  have g1y := congrArg Vec3.y hg1
  have g1z := congrArg Vec3.z hg1
  have g2x := congrArg Vec3.x hg2
  have g2y := congrArg Vec3.y hg2
  have g2z := congrArg Vec3.z hg2
  rw [gramApply_x] at g0x g1x g2x
  rw [gramApply_y] at g0y g1y g2y
  rw [gramApply_z] at g0z g1z g2z
  simp only [Vec3.smul] at g0x g0y g0z g1x g1y g1z g2x g2y g2z
  obtain ⟨hnorm, hquad⟩ := rayleigh_expansion _ _ _ _ _ _ _ _ _ _ _ _ _ _ _ e0 e1 e2 u.x u.y u.z
    cxx cyy czz cxy cxz cyz g0x g0y g0z g1x g1y g1z g2x g2y g2z
  rw [sumSqProj_eq, hquad]
  unfold Vec3.dot
  rw [hnorm]
  have h0 : 0 ≤ (e0 - e2) * ((u.x * v0.x + u.y * v0.y + u.z * v0.z)
      * (u.x * v0.x + u.y * v0.y + u.z * v0.z)) :=
    mul_nonneg (by linarith) (mul_self_nonneg _)
  have h1 : 0 ≤ (e1 - e2) * ((u.x * v1.x + u.y * v1.y + u.z * v1.z)
      * (u.x * v1.x + u.y * v1.y + u.z * v1.z)) :=
    mul_nonneg (by linarith) (mul_self_nonneg _)
  linarith

/-- The quadratic form at a unit eigenvector is the eigenvalue. -/
theorem sumSqProj_eigen (A : List (Vec3 F)) (v : Vec3 F) (e : F)
    (hv : Vec3.dot v v = 1) (hg : gramApply A v = Vec3.smul e v) :
    sumSqProj A v = e := by
  rw [sumSqProj_eq_dot_gram, hg]
  unfold Vec3.dot Vec3.smul at *
  simp only
  linear_combination e * hv

/-! ## The plane through the centroid (claim C4) -/

/-- Centring keeps the number of rows. -/
theorem length_centred (points : List (Vec3 F)) : (centred points).length = points.length := by
  simp [centred]

theorem gramApply_axis (A : List (Vec3 ℚ))
    (hxy : (A.map (fun r => r.x * r.y)).sum = 0)
    (hxz : (A.map (fun r => r.x * r.z)).sum = 0)
    (hyz : (A.map (fun r => r.y * r.z)).sum = 0) :
    gramApply A ⟨1, 0, 0⟩ = Vec3.smul (A.map (fun r => r.x * r.x)).sum ⟨1, 0, 0⟩ ∧
    gramApply A ⟨0, 1, 0⟩ = Vec3.smul (A.map (fun r => r.y * r.y)).sum ⟨0, 1, 0⟩ ∧
    gramApply A ⟨0, 0, 1⟩ = Vec3.smul (A.map (fun r => r.z * r.z)).sum ⟨0, 0, 1⟩ := by
  have key : ∀ v : Vec3 ℚ, gramApply A v
      = ⟨(A.map (fun r => r.x * r.x)).sum * v.x, (A.map (fun r => r.y * r.y)).sum * v.y,
         (A.map (fun r => r.z * r.z)).sum * v.z⟩ := by
    intro v
    have hx := gramApply_x A v
    have hy := gramApply_y A v
    have hz := gramApply_z A v
    rw [hxy, hxz] at hx
    rw [hxy, hyz] at hy
    rw [hxz, hyz] at hz
    cases hg : gramApply A v with
    | mk gx gy gz =>
        rw [hg] at hx hy hz
        simp only at hx hy hz
        rw [hx, hy, hz]
        simp
  refine ⟨?_, ?_, ?_⟩ <;> rw [key] <;> simp [Vec3.smul]

/-- For a matrix with at least three rows and pairwise orthogonal columns, `qSvdV`
satisfies the contract of the decomposition. -/
theorem qSvdV_isThinSvdV (A : List (Vec3 ℚ)) (h3 : 3 ≤ A.length)
    (hxy : (A.map (fun r => r.x * r.y)).sum = 0)
    (hxz : (A.map (fun r => r.x * r.z)).sum = 0)
    (hyz : (A.map (fun r => r.y * r.z)).sum = 0) :
    IsThinSvdV A (qSvdV A) := by
  obtain ⟨hex, hey, hez⟩ := gramApply_axis A hxy hxz hyz
  have hgx := sum_map_sq_nonneg Vec3.x A
  have hgy := sum_map_sq_nonneg Vec3.y A
  have hgz := sum_map_sq_nonneg Vec3.z A
  have hmin : min A.length 3 = 3 := min_eq_right h3
  unfold qSvdV
  simp only [hmin]
  generalize (A.map (fun r => r.x * r.x)).sum = gx at *
  generalize (A.map (fun r => r.y * r.y)).sum = gy at *
  generalize (A.map (fun r => r.z * r.z)).sum = gz at *
  have horth : ∀ (a b c : Vec3 ℚ), Vec3.dot a a = 1 → Vec3.dot b b = 1 → Vec3.dot c c = 1 →
      Vec3.dot a b = 0 → Vec3.dot a c = 0 → Vec3.dot b c = 0 →
      Vec3.dot b a = 0 → Vec3.dot c a = 0 → Vec3.dot c b = 0 →
      ∀ (i j : Nat) (hi : i < [a, b, c].length) (hj : j < [a, b, c].length),
        Vec3.dot [a, b, c][i] [a, b, c][j] = if i = j then 1 else 0 := by
    intro a b c haa hbb hcc hab hac hbc hba hca hcb i j hi hj
    simp only [List.length_cons, List.length_nil] at hi hj
    interval_cases i <;> interval_cases j <;> simp [*]
  have hgram : ∀ (a b c : Vec3 ℚ) (ea eb ec : ℚ), gramApply A a = Vec3.smul ea a →
      gramApply A b = Vec3.smul eb b → gramApply A c = Vec3.smul ec c →
      ∀ (i : Nat) (hi : i < [a, b, c].length) (he : i < [ea, eb, ec].length),
        gramApply A [a, b, c][i] = Vec3.smul [ea, eb, ec][i] [a, b, c][i] := by
    intro a b c ea eb ec ha hb hc i hi he
    simp only [List.length_cons, List.length_nil] at hi
    interval_cases i <;> simp [*]
  split_ifs with h1 h2 h3b h4 h5
  · exact ⟨by simp [hmin], horth _ _ _ (by simp [Vec3.dot]) (by simp [Vec3.dot]) (by simp [Vec3.dot])
        (by simp [Vec3.dot]) (by simp [Vec3.dot]) (by simp [Vec3.dot]) (by simp [Vec3.dot])
        (by simp [Vec3.dot]) (by simp [Vec3.dot]),
      [gx, gy, gz], by simp, by simp [h1, h2, le_trans h2 h1], by simp [hgx, hgy, hgz],
      hgram _ _ _ _ _ _ hex hey hez⟩
  · exact ⟨by simp [hmin], horth _ _ _ (by simp [Vec3.dot]) (by simp [Vec3.dot]) (by simp [Vec3.dot])
        (by simp [Vec3.dot]) (by simp [Vec3.dot]) (by simp [Vec3.dot]) (by simp [Vec3.dot])
        (by simp [Vec3.dot]) (by simp [Vec3.dot]),
      [gx, gz, gy], by simp, by simp [h1, h3b, le_of_lt (not_le.mp h2)], by simp [hgx, hgy, hgz],
      hgram _ _ _ _ _ _ hex hez hey⟩
  · exact ⟨by simp [hmin], horth _ _ _ (by simp [Vec3.dot]) (by simp [Vec3.dot]) (by simp [Vec3.dot])
        (by simp [Vec3.dot]) (by simp [Vec3.dot]) (by simp [Vec3.dot]) (by simp [Vec3.dot])
        (by simp [Vec3.dot]) (by simp [Vec3.dot]),
      [gz, gx, gy], by simp,
      by simp [h1, le_of_lt (not_le.mp h3b), le_of_lt (not_le.mp h2)], by simp [hgx, hgy, hgz],
      hgram _ _ _ _ _ _ hez hex hey⟩
  · exact ⟨by simp [hmin], horth _ _ _ (by simp [Vec3.dot]) (by simp [Vec3.dot]) (by simp [Vec3.dot])
        (by simp [Vec3.dot]) (by simp [Vec3.dot]) (by simp [Vec3.dot]) (by simp [Vec3.dot])
        (by simp [Vec3.dot]) (by simp [Vec3.dot]),
      [gy, gx, gz], by simp,
      by simp [h4, le_of_lt (not_le.mp h1), le_trans h4 (le_of_lt (not_le.mp h1))],
      by simp [hgx, hgy, hgz], hgram _ _ _ _ _ _ hey hex hez⟩
  · exact ⟨by simp [hmin], horth _ _ _ (by simp [Vec3.dot]) (by simp [Vec3.dot]) (by simp [Vec3.dot])
        (by simp [Vec3.dot]) (by simp [Vec3.dot]) (by simp [Vec3.dot]) (by simp [Vec3.dot])
        (by simp [Vec3.dot]) (by simp [Vec3.dot]),
      [gy, gz, gx], by simp,
      by simp [h5, le_of_lt (not_le.mp h1), le_of_lt (not_le.mp h4)],
      by simp [hgx, hgy, hgz], hgram _ _ _ _ _ _ hey hez hex⟩
  · exact ⟨by simp [hmin], horth _ _ _ (by simp [Vec3.dot]) (by simp [Vec3.dot]) (by simp [Vec3.dot])
        (by simp [Vec3.dot]) (by simp [Vec3.dot]) (by simp [Vec3.dot]) (by simp [Vec3.dot])
        (by simp [Vec3.dot]) (by simp [Vec3.dot]),
      [gz, gy, gx], by simp,
      by simp [le_of_lt (not_le.mp h5), le_of_lt (not_le.mp h1),
        le_trans (le_of_lt (not_le.mp h1)) (le_of_lt (not_le.mp h5))],
      by simp [hgx, hgy, hgz], hgram _ _ _ _ _ _ hez hey hex⟩

/-- C5 (the code does not do this): with `ComputeThinV` the factor `V` of an
`n × 3` matrix has `min n 3` columns, so for a cluster of fewer than three points
`svd.matrixV().col(2)` is out of range and `findMinimizingPlane` returns no plane;
`wallDetector` then returns nothing once the normality test has passed. -/
theorem findMinimizingPlane_small_cluster (lib : Numerics F) (points : List (Vec3 F))
    (hlt : points.length < 3)
    (hsvd : IsThinSvdV (centred points) (lib.jacobiSvdV (centred points))) :
    findMinimizingPlane lib points = none ∧
    (isNormallyDistributed lib (points.map Vec3.z) defaultSignificance = true →
      wallDetector lib points = none) := by
  have hlen : (lib.jacobiSvdV (centred points)).length ≤ 2 := by
    rw [hsvd.1, length_centred]
    omega
  have hcol : (lib.jacobiSvdV (centred points))[2]? = none :=
    List.getElem?_eq_none (by omega)
  have hplane : findMinimizingPlane lib points = none := by
    simp [findMinimizingPlane, hcol]
  refine ⟨hplane, ?_⟩
  intro hN
  simp [wallDetector, hN, hplane]

/-- The rational instance satisfies the contract of the decomposition on the single
point: one column. -/
theorem svd_contract_c5 :
    IsThinSvdV (centred ([⟨1, 2, 3⟩] : List (Vec3 ℚ)))
      (qLib.jacobiSvdV (centred [⟨1, 2, 3⟩])) := by
  have hc : centred ([⟨1, 2, 3⟩] : List (Vec3 ℚ)) = [⟨0, 0, 0⟩] := by
    norm_num [centred, centroidOf, Vec3.sub]
  have hv : qLib.jacobiSvdV ([⟨0, 0, 0⟩] : List (Vec3 ℚ)) = [⟨1, 0, 0⟩] := by
    show qSvdV _ = _
    norm_num [qSvdV]
  rw [hc, hv]
  refine ⟨by simp, ?_, [0], by simp, by simp, by simp, ?_⟩
  · intro i j hi hj
    simp only [List.length_cons, List.length_nil] at hi hj
    interval_cases i; interval_cases j; simp [Vec3.dot]
  · intro i hi he
    simp only [List.length_cons, List.length_nil] at hi
    interval_cases i; norm_num [gramApply, Vec3.dot, Vec3.smul]

/-- The normality test passes on a single value. -/
theorem normal_c5 : isNormallyDistributed qLib [(3 : ℚ)] defaultSignificance = true := by
  norm_num [isNormallyDistributed, gsl_stats_sd, gsl_stats_mean, sumSqDev, ksLoop, Dbl.div,
    sqrtD, ugaussianP, Dbl.sub, Dbl.add, Dbl.neg, Dbl.abs, Dbl.lt, Dbl.le, qLib, qQuantile,
    qQuantileUpper, qSqrt, qRoot, defaultSignificance]

/-- The failing input of C5: for the cluster of the single point `(1, 2, 3)` the
plane fit returns no plane and `wallDetector` returns nothing. -/
theorem findMinimizingPlane_small_cluster_witness :
    ([⟨1, 2, 3⟩] : List (Vec3 ℚ)).length < 3 ∧
    findMinimizingPlane qLib [⟨1, 2, 3⟩] = none ∧ wallDetector qLib [⟨1, 2, 3⟩] = none :=
  ⟨by decide,
   (findMinimizingPlane_small_cluster qLib [⟨1, 2, 3⟩] (by decide) svd_contract_c5).1,
   (findMinimizingPlane_small_cluster qLib [⟨1, 2, 3⟩] (by decide) svd_contract_c5).2 normal_c5⟩

/-! ## Zero standard deviation (claim C6) -/

/-- No comparison with `NaN` holds, so a `NaN` difference never updates `D`. -/
theorem ksLoop_nan (lib : Numerics F) (n : Nat) (mean : F) (stddev : Dbl F) (l : List F)
    (h : ∀ v ∈ l, Dbl.div (fin (v - mean)) stddev = nan) :
    ∀ (i : Nat) (D : Dbl F), ksLoop lib n mean stddev l i D = D := by
  induction l with
  | nil => intro i D; rfl
  | cons v rest ih =>
      intro i D
      have hv := h v (List.mem_cons_self _ _)
      have hlt : Dbl.lt D (nan : Dbl F) = false := by cases D <;> rfl
      simp only [ksLoop, hv, ugaussianP, Dbl.sub, Dbl.neg, Dbl.add, Dbl.abs, hlt]
      exact ih (fun w hw => h w (List.mem_cons_of_mem _ hw)) (i + 1) D

/-- The sum of a list all of whose elements are `c`. -/
theorem sum_of_constant (l : List F) (c : F) (h : ∀ x ∈ l, x = c) :
    l.sum = (l.length : F) * c := by
  induction l with
  | nil => simp
  | cons a t ih =>
      have ha : a = c := h a (List.mem_cons_self _ _)
      have ht := ih (fun x hx => h x (List.mem_cons_of_mem _ hx))
      simp only [List.sum_cons, List.length_cons, Nat.cast_add, Nat.cast_one]
      rw [ht, ha]
      ring

/-- The mean of a non-empty list all of whose elements are `c` is `c`. -/
theorem gsl_stats_mean_constant (l : List F) (c : F) (hne : l ≠ []) (h : ∀ x ∈ l, x = c) :
    gsl_stats_mean l = c := by
  unfold gsl_stats_mean
  rw [sum_of_constant l c h]
  have hlen : (l.length : F) ≠ 0 := by
    have : l.length ≠ 0 := fun h0 => hne (List.length_eq_zero.mp h0)
    exact_mod_cast this
  field_simp

/-- The squared deviations of a non-empty list of equal values sum to zero. -/
theorem sumSqDev_constant (l : List F) (c : F) (hne : l ≠ []) (h : ∀ x ∈ l, x = c) :
    sumSqDev l = 0 := by
  unfold sumSqDev
  rw [gsl_stats_mean_constant l c hne h]
  have : ∀ t : List F, (∀ x ∈ t, x = c) → (t.map (fun x => (x - c) * (x - c))).sum = 0 := by
    intro t
    induction t with
    | nil => intro _; simp
    | cons a t ih =>
        intro ht
        simp only [List.map_cons, List.sum_cons]
        rw [ih (fun x hx => ht x (List.mem_cons_of_mem _ hx)), ht a (List.mem_cons_self _ _)]
        ring
  exact this l h

/-- The standard deviation of a non-empty list of equal values is `NaN` for one
value (`0/0` in the variance) and `sqrt 0` otherwise. -/
theorem gsl_stats_sd_constant (lib : Numerics F) (l : List F) (c : F) (hne : l ≠ [])
    (h : ∀ x ∈ l, x = c) (hsqrt0 : lib.sqrt 0 = fin 0) :
    gsl_stats_sd lib l = nan ∨ gsl_stats_sd lib l = fin 0 := by
  unfold gsl_stats_sd
  rw [sumSqDev_constant l c hne h]
  by_cases h1 : (l.length : F) - 1 = 0
  · left
    rw [h1, Dbl.div_zero_zero]
    rfl
  · right
    rw [Dbl.div_fin_fin _ _ h1, zero_div]
    exact hsqrt0

/-- On a non-empty sequence of equal values every quotient `(x - mean) / stddev` is
`0/0` or `0/NaN`, the statistic `D` stays `0`, and `isNormallyDistributed`
returns true as soon as the critical value is finite and non-negative. -/
theorem isNormallyDistributed_constant (lib : Numerics F) (data : List F) (c α q s : F)
    (hne : data ≠ []) (h : ∀ x ∈ data, x = c) (hsqrt0 : lib.sqrt 0 = fin 0)
    (hq : lib.gsl_cdf_ugaussian_Pinv (1 - α / 2) = fin q) (hq0 : 0 ≤ q)
    (hs : lib.sqrt (data.length : F) = fin s) (hs0 : 0 < s) :
    isNormallyDistributed lib data α = true := by
  have hperm := List.perm_insertionSort (fun a b : F => a ≤ b) data
  have hlen := List.length_insertionSort (fun a b : F => a ≤ b) data
  have hsne : data.insertionSort (fun a b : F => a ≤ b) ≠ [] := by
    intro h0
    rw [h0] at hlen
    exact hne (List.length_eq_zero.mp hlen.symm)
  have hsall : ∀ x ∈ data.insertionSort (fun a b : F => a ≤ b), x = c :=
    fun x hx => h x (hperm.mem_iff.mp hx)
  have hempty : data.isEmpty = false := by
    cases data with
    | nil => exact absurd rfl hne
    | cons a t => rfl
  have hmean := gsl_stats_mean_constant _ c hsne hsall
  have hnan : ∀ v ∈ data.insertionSort (fun a b : F => a ≤ b),
      Dbl.div (fin (v - gsl_stats_mean (data.insertionSort (fun a b : F => a ≤ b))))
        (gsl_stats_sd lib (data.insertionSort (fun a b : F => a ≤ b))) = nan := by
    intro v hv
    rw [hmean, hsall v hv, sub_self]
    rcases gsl_stats_sd_constant lib _ c hsne hsall hsqrt0 with hsd | hsd
    · rw [hsd]
      rfl
    · rw [hsd, Dbl.div_zero_zero]
  simp only [isNormallyDistributed, hempty, ksLoop_nan lib _ _ _ _ hnan, hlen, hq, hs,
    Dbl.div_fin_fin _ _ (ne_of_gt hs0), Dbl.le_fin_fin]
  simp [div_nonneg hq0 (le_of_lt hs0)]

/-- The result of `wallDetector` once the normality test has passed. -/
theorem wallDetector_of_normal (lib : Numerics F) (points : List (Vec3 F))
    (hN : isNormallyDistributed lib (points.map Vec3.z) defaultSignificance = true) :
    wallDetector lib points = (findMinimizingPlane lib points).map
      (fun plane => inWallRange (angleBetweenPlanes lib ⟨plane.a, plane.b, plane.c⟩)) := by
  unfold wallDetector
  cases hP : findMinimizingPlane lib points <;> simp [hN]

/-- C6, as amended: for a non-empty cluster whose z-coordinates are all equal,
with `sqrt 0 = 0` and a finite critical value `q / s ≥ 0`, the normality test
returns true (there is no sentinel for the zero standard deviation) and the
result of `wallDetector` is the threshold test on the angle of the fitted plane. -/
theorem wallDetector_constant_z (lib : Numerics F) (points : List (Vec3 F)) (c q s : F)
    (hne : points ≠ []) (hz : ∀ p ∈ points, p.z = c) (hsqrt0 : lib.sqrt 0 = fin 0)
    (hq : lib.gsl_cdf_ugaussian_Pinv (1 - defaultSignificance / 2) = fin q) (hq0 : 0 ≤ q)
    (hs : lib.sqrt (points.length : F) = fin s) (hs0 : 0 < s) :
    isNormallyDistributed lib (points.map Vec3.z) defaultSignificance = true ∧
    wallDetector lib points = (findMinimizingPlane lib points).map
      (fun plane => inWallRange (angleBetweenPlanes lib ⟨plane.a, plane.b, plane.c⟩)) := by
  have hN : isNormallyDistributed lib (points.map Vec3.z) defaultSignificance = true := by
    apply isNormallyDistributed_constant lib (points.map Vec3.z) c defaultSignificance q s
    · simpa using hne
    · intro x hx
      obtain ⟨p, hp, rfl⟩ := List.mem_map.mp hx
      exact hz p hp
    · exact hsqrt0
    · exact hq
    · exact hq0
    · rw [List.length_map]
      exact hs
    · exact hs0
  exact ⟨hN, wallDetector_of_normal lib points hN⟩

/-- Witness of the amended C6: four points with `z = 7`. -/
theorem wallDetector_constant_z_witness :
    isNormallyDistributed qLib
      (([⟨1, 0, 7⟩, ⟨-1, 0, 7⟩, ⟨0, 3, 7⟩, ⟨0, -3, 7⟩] : List (Vec3 ℚ)).map Vec3.z)
      defaultSignificance = true ∧
    wallDetector qLib [⟨1, 0, 7⟩, ⟨-1, 0, 7⟩, ⟨0, 3, 7⟩, ⟨0, -3, 7⟩]
      = (findMinimizingPlane qLib [⟨1, 0, 7⟩, ⟨-1, 0, 7⟩, ⟨0, 3, 7⟩, ⟨0, -3, 7⟩]).map
        (fun plane => inWallRange (angleBetweenPlanes qLib ⟨plane.a, plane.b, plane.c⟩)) :=
  wallDetector_constant_z qLib [⟨1, 0, 7⟩, ⟨-1, 0, 7⟩, ⟨0, 3, 7⟩, ⟨0, -3, 7⟩] 7
    (1959964 / 1000000) 2 (by simp) (by simp)
    (by norm_num [qLib, qSqrt, qRoot])
    (by norm_num [qLib, qQuantile, qQuantileUpper, defaultSignificance]) (by norm_num)
    (by norm_num [qLib, qSqrt, qRoot]) (by norm_num)

/-- The normality test returns true on four equal values. -/
theorem normal_c6 : isNormallyDistributed qLib [(5 : ℚ), 5, 5, 5] defaultSignificance = true := by
  norm_num [isNormallyDistributed, gsl_stats_sd, gsl_stats_mean, sumSqDev, ksLoop, Dbl.div,
    sqrtD, ugaussianP, Dbl.sub, Dbl.add, Dbl.neg, Dbl.abs, Dbl.lt, Dbl.le, qLib, qQuantile,
    qQuantileUpper, qSqrt, qRoot, defaultSignificance]

/-- The plane fitted to the four points of the plane `z = 5`. -/
theorem plane_c6 :
    findMinimizingPlane qLib [⟨2, 0, 5⟩, ⟨-2, 0, 5⟩, ⟨0, 1, 5⟩, ⟨0, -1, 5⟩]
      = some ⟨0, 0, 1, -5⟩ := by
  norm_num [findMinimizingPlane, centred, centroidOf, Vec3.sub, Vec3.dot, qLib, qSvdV]

/-- The angle of the normal `(0, 0, 1)` in the rational instance. -/
theorem angle_axis_z : angleBetweenPlanes qLib ⟨0, 0, 1⟩ = fin 90 := by
  norm_num [angleBetweenPlanes, qLib, qSqrt, qRoot, Dbl.mul, Dbl.div, acosD, qAcos, qPi]

/-- Counterexample to C6: four points of the vertical plane `z = 5`.  Their
z-coordinates are all equal, the matrix `V` of the instance satisfies the contract
of the decomposition, the normality test returns true and `wallDetector` returns
true. -/
theorem wallDetector_constant_z_counterexample :
    (∀ p ∈ ([⟨2, 0, 5⟩, ⟨-2, 0, 5⟩, ⟨0, 1, 5⟩, ⟨0, -1, 5⟩] : List (Vec3 ℚ)), p.z = 5) ∧
    IsThinSvdV (centred ([⟨2, 0, 5⟩, ⟨-2, 0, 5⟩, ⟨0, 1, 5⟩, ⟨0, -1, 5⟩] : List (Vec3 ℚ)))
      (qLib.jacobiSvdV (centred [⟨2, 0, 5⟩, ⟨-2, 0, 5⟩, ⟨0, 1, 5⟩, ⟨0, -1, 5⟩])) ∧
    isNormallyDistributed qLib
      (([⟨2, 0, 5⟩, ⟨-2, 0, 5⟩, ⟨0, 1, 5⟩, ⟨0, -1, 5⟩] : List (Vec3 ℚ)).map Vec3.z)
      defaultSignificance = true ∧
    wallDetector qLib [⟨2, 0, 5⟩, ⟨-2, 0, 5⟩, ⟨0, 1, 5⟩, ⟨0, -1, 5⟩] = some true := by
  have hz : List.map Vec3.z ([⟨2, 0, 5⟩, ⟨-2, 0, 5⟩, ⟨0, 1, 5⟩, ⟨0, -1, 5⟩] : List (Vec3 ℚ))
      = [5, 5, 5, 5] := rfl
  refine ⟨by simp, ?_, ?_, ?_⟩
  · exact qSvdV_isThinSvdV _ (by simp [centred])
      (by norm_num [centred, centroidOf, Vec3.sub])
      (by norm_num [centred, centroidOf, Vec3.sub])
      (by norm_num [centred, centroidOf, Vec3.sub])
  · rw [hz]
    exact normal_c6
  · simp only [wallDetector, hz, normal_c6, plane_c6, angle_axis_z]
    norm_num [inWallRange, Dbl.le]

/-! ## The bimodal cluster (claim C7) -/

/-- The sorted copy of a sequence is the sorted sequence it is a permutation of. -/
theorem insertionSort_eq_of_perm (data sorted : List F) (hp : data.Perm sorted)
    (hs : sorted.Sorted (· ≤ ·)) :
    data.insertionSort (fun a b : F => a ≤ b) = sorted :=
  List.eq_of_perm_of_sorted ((List.perm_insertionSort _ data).trans hp)
    (List.sorted_insertionSort _ data) hs

/-- On the values `-10, -10, -10, 10, 10, 10`, with `sqrt 120 = σ > 0`, a
distribution function with values in `[0, 1]` that is at most `1/2` on `x ≤ 0` and
at least `1/2` on `x ≥ 0`, and a critical value `q / s ≥ 1/2`, the statistic is at
most `1/2` and `isNormallyDistributed` returns true. -/
theorem isNormallyDistributed_bimodal (lib : Numerics F) (data : List F) (α σ q s : F)
    (hdata : data.Perm [-10, -10, -10, 10, 10, 10])
    (hσ : lib.sqrt 120 = fin σ) (hσ0 : 0 < σ)
    (hP : ∀ x, 0 ≤ lib.gsl_cdf_ugaussian_P x ∧ lib.gsl_cdf_ugaussian_P x ≤ 1)
    (hPneg : ∀ x, x ≤ 0 → lib.gsl_cdf_ugaussian_P x ≤ 1 / 2)
    (hPpos : ∀ x, 0 ≤ x → 1 / 2 ≤ lib.gsl_cdf_ugaussian_P x)
    (hq : lib.gsl_cdf_ugaussian_Pinv (1 - α / 2) = fin q)
    (hs : lib.sqrt 6 = fin s) (hs0 : 0 < s) (hcrit : 1 / 2 ≤ q / s) :
    isNormallyDistributed lib data α = true := by
  have hsort : data.insertionSort (fun a b : F => a ≤ b) = [-10, -10, -10, 10, 10, 10] :=
    insertionSort_eq_of_perm data _ hdata (by simp)
  have hempty : data.isEmpty = false := by
    cases data with
    | nil => simp at hdata
    | cons a t => rfl
  have hmean : gsl_stats_mean ([-10, -10, -10, 10, 10, 10] : List F) = 0 := by
    norm_num [gsl_stats_mean]
  have hsd : gsl_stats_sd lib ([-10, -10, -10, 10, 10, 10] : List F) = fin σ := by
    have h5 : ((6 : F) - 1) ≠ 0 := by norm_num
    have hss : sumSqDev ([-10, -10, -10, 10, 10, 10] : List F) = 600 := by
      norm_num [sumSqDev, hmean]
    have hlen : ((([-10, -10, -10, 10, 10, 10] : List F).length : Nat) : F) = 6 := by
      norm_num
    unfold gsl_stats_sd
    rw [hss, hlen, Dbl.div_fin_fin _ _ h5]
    have : (600 : F) / (6 - 1) = 120 := by norm_num
    rw [this]
    exact hσ
  have hn0 := hP ((-10 - 0) / σ)
  have hn1 := hPneg ((-10 - 0) / σ) (by
    apply div_nonpos_of_nonpos_of_nonneg
    · norm_num
    · exact le_of_lt hσ0)
  have hp0 := hP ((10 - 0) / σ)
  have hp1 := hPpos ((10 - 0) / σ) (by
    apply div_nonneg
    · norm_num
    · exact le_of_lt hσ0)
  have hD : ksMax lib.gsl_cdf_ugaussian_P 6 0 σ ([-10, -10, -10, 10, 10, 10] : List F) 0 0
      ≤ 1 / 2 := by
    simp only [ksMax, max_le_iff, ksTerm, abs_le]
    norm_num
    refine ⟨⟨⟨⟨⟨⟨?_, ?_⟩, ?_, ?_⟩, ?_, ?_⟩, ?_, ?_⟩, ?_, ?_⟩, ?_, ?_⟩ <;> linarith
  have hlen6 : ([-10, -10, -10, 10, 10, 10] : List F).length = 6 := rfl
  simp only [isNormallyDistributed, hempty, hsort, hmean, hsd, hlen6, hq,
    ksLoop_fin lib _ _ _ (ne_of_gt hσ0), Nat.cast_ofNat, hs, Dbl.div_fin_fin _ _ (ne_of_gt hs0),
    Dbl.le_fin_fin]
  simp [le_trans hD hcrit]

/-- The interpolated distribution function lies in `[1/2, 1]` on `x ≥ 0`. -/
theorem qPhiUpper_bounds (x : ℚ) (hx : 0 ≤ x) : 1 / 2 ≤ qPhiUpper x ∧ qPhiUpper x ≤ 1 := by
  unfold qPhiUpper
  split_ifs with h1 h2 h3
  · constructor <;> linarith
  · constructor <;> linarith
  · constructor <;> linarith
  · have hx3 : 3 < x := not_le.mp h3
    have hpos : 0 < x := by linarith
    have hsmall : 405 / 100000 / x ≤ 1 / 2 := by
      rw [div_le_iff₀ hpos]
      linarith
    have hnn : 0 ≤ 405 / 100000 / x := div_nonneg (by norm_num) (le_of_lt hpos)
    constructor <;> linarith

/-- The distribution function of the rational instance has values in `[0, 1]`. -/
theorem qPhi_range (x : ℚ) :
    0 ≤ qLib.gsl_cdf_ugaussian_P x ∧ qLib.gsl_cdf_ugaussian_P x ≤ 1 := by
  show 0 ≤ qPhi x ∧ qPhi x ≤ 1
  unfold qPhi
  split_ifs with h
  · have := qPhiUpper_bounds x h
    constructor <;> linarith [this.1, this.2]
  · have := qPhiUpper_bounds (-x) (by linarith)
    constructor <;> linarith [this.1, this.2]

/-- The distribution function of the rational instance is at most `1/2` on `x ≤ 0`. -/
theorem qPhi_le_half (x : ℚ) (hx : x ≤ 0) : qLib.gsl_cdf_ugaussian_P x ≤ 1 / 2 := by
  show qPhi x ≤ 1 / 2
  unfold qPhi
  split_ifs with h
  · have h0 : x = 0 := le_antisymm hx h
    subst h0
    norm_num [qPhiUpper]
  · have := qPhiUpper_bounds (-x) (by linarith)
    linarith [this.1]

/-- The distribution function of the rational instance is at least `1/2` on `x ≥ 0`. -/
theorem qPhi_ge_half (x : ℚ) (hx : 0 ≤ x) : 1 / 2 ≤ qLib.gsl_cdf_ugaussian_P x := by
  show 1 / 2 ≤ qPhi x
  unfold qPhi
  rw [if_pos hx]
  exact (qPhiUpper_bounds x hx).1

/-- C7, as amended: for a cluster whose z-coordinates are `-10, -10, -10, 10, 10,
10` in any order, with `sqrt 120 = σ > 0`, a distribution function with values in
`[0, 1]` and median `0`, and a critical value `q / s ≥ 1/2` (it is about `0.80`),
the normality test at significance 0.05 returns true, and the result of
`wallDetector` is the threshold test on the angle of the fitted plane. -/
theorem wallDetector_bimodal_z (lib : Numerics F) (points : List (Vec3 F)) (σ q s : F)
    (hz : (points.map Vec3.z).Perm [-10, -10, -10, 10, 10, 10])
    (hσ : lib.sqrt 120 = fin σ) (hσ0 : 0 < σ)
    (hP : ∀ x, 0 ≤ lib.gsl_cdf_ugaussian_P x ∧ lib.gsl_cdf_ugaussian_P x ≤ 1)
    (hPneg : ∀ x, x ≤ 0 → lib.gsl_cdf_ugaussian_P x ≤ 1 / 2)
    (hPpos : ∀ x, 0 ≤ x → 1 / 2 ≤ lib.gsl_cdf_ugaussian_P x)
    (hq : lib.gsl_cdf_ugaussian_Pinv (1 - defaultSignificance / 2) = fin q)
    (hs : lib.sqrt 6 = fin s) (hs0 : 0 < s) (hcrit : 1 / 2 ≤ q / s) :
    isNormallyDistributed lib (points.map Vec3.z) defaultSignificance = true ∧
    wallDetector lib points = (findMinimizingPlane lib points).map
      (fun plane => inWallRange (angleBetweenPlanes lib ⟨plane.a, plane.b, plane.c⟩)) := by
  have hN := isNormallyDistributed_bimodal lib (points.map Vec3.z) defaultSignificance σ q s
    hz hσ hσ0 hP hPneg hPpos hq hs hs0 hcrit
  exact ⟨hN, wallDetector_of_normal lib points hN⟩

/-- Witness of the amended C7: six points with the bimodal z-coordinates in
mixed order. -/
theorem wallDetector_bimodal_z_witness :
    isNormallyDistributed qLib
      (([⟨1, 0, 10⟩, ⟨2, 0, -10⟩, ⟨3, 1, 10⟩, ⟨4, 0, -10⟩, ⟨5, 2, -10⟩, ⟨6, 0, 10⟩] :
        List (Vec3 ℚ)).map Vec3.z) defaultSignificance = true ∧
    wallDetector qLib [⟨1, 0, 10⟩, ⟨2, 0, -10⟩, ⟨3, 1, 10⟩, ⟨4, 0, -10⟩, ⟨5, 2, -10⟩, ⟨6, 0, 10⟩]
      = (findMinimizingPlane qLib
          [⟨1, 0, 10⟩, ⟨2, 0, -10⟩, ⟨3, 1, 10⟩, ⟨4, 0, -10⟩, ⟨5, 2, -10⟩, ⟨6, 0, 10⟩]).map
        (fun plane => inWallRange (angleBetweenPlanes qLib ⟨plane.a, plane.b, plane.c⟩)) :=
  wallDetector_bimodal_z qLib
    [⟨1, 0, 10⟩, ⟨2, 0, -10⟩, ⟨3, 1, 10⟩, ⟨4, 0, -10⟩, ⟨5, 2, -10⟩, ⟨6, 0, 10⟩]
    (10954451 / 1000000) (1959964 / 1000000) (2449490 / 1000000)
    (by
      show List.Perm [(10 : ℚ), -10, 10, -10, -10, 10] [-10, -10, -10, 10, 10, 10]
      decide)
    (by norm_num [qLib, qSqrt, qRoot]) (by norm_num) qPhi_range qPhi_le_half qPhi_ge_half
    (by norm_num [qLib, qQuantile, qQuantileUpper, defaultSignificance])
    (by norm_num [qLib, qSqrt, qRoot]) (by norm_num) (by norm_num)

/-- The standard deviation of the bimodal values in the rational instance. -/
theorem sd_c7 : gsl_stats_sd qLib [(-10 : ℚ), -10, -10, 10, 10, 10]
    = fin (10954451 / 1000000) := by
  norm_num [gsl_stats_sd, gsl_stats_mean, sumSqDev, Dbl.div, sqrtD, qLib, qSqrt, qRoot]

/-- The distribution function of the rational instance at the two standardised values. -/
theorem phi_c7 :
    qPhi (-10 / (10954451 / 1000000))
      = 1 - (1 / 2 + 341345 / 1000000 * (10 / (10954451 / 1000000))) ∧
    qPhi (10 / (10954451 / 1000000))
      = 1 / 2 + 341345 / 1000000 * (10 / (10954451 / 1000000)) := by
  constructor <;> norm_num [qPhi, qPhiUpper]

/-- The statistic `D` of the bimodal values in the rational instance. -/
theorem loop_c7 : ksLoop qLib 6 0 (fin (10954451 / 1000000)) [(-10 : ℚ), -10, -10, 10, 10, 10]
    0 (fin 0) = fin (3413450 / 10954451) := by
  rw [ksLoop_fin qLib 6 0 _ (by norm_num)]
  simp only [ksMax, ksTerm]
  have h := phi_c7
  norm_num at h
  norm_num [qLib, h.1, h.2, abs_of_nonneg, abs_of_nonpos, max_eq_left, max_eq_right]

/-- The bimodal values are already sorted. -/
theorem sort_c7 : List.insertionSort (fun a b : ℚ => a ≤ b) [-10, -10, -10, 10, 10, 10]
    = [-10, -10, -10, 10, 10, 10] := by
  norm_num [List.insertionSort, List.orderedInsert]

/-- The normality test returns true on the bimodal values. -/
theorem normal_c7 :
    isNormallyDistributed qLib [(-10 : ℚ), -10, -10, 10, 10, 10] defaultSignificance = true := by
  have hmean : gsl_stats_mean [(-10 : ℚ), -10, -10, 10, 10, 10] = 0 := by
    norm_num [gsl_stats_mean]
  have hlen : ([(-10 : ℚ), -10, -10, 10, 10, 10]).length = 6 := rfl
  simp only [isNormallyDistributed, sort_c7, sd_c7, hmean, hlen, loop_c7]
  norm_num [Dbl.div, Dbl.le, qLib, qQuantile, qQuantileUpper, qSqrt, qRoot, defaultSignificance]

/-- The plane fitted to the six points of the plane `x = 0`. -/
theorem plane_c7 :
    findMinimizingPlane qLib
      [⟨0, -1, -10⟩, ⟨0, 0, -10⟩, ⟨0, 1, -10⟩, ⟨0, -1, 10⟩, ⟨0, 0, 10⟩, ⟨0, 1, 10⟩]
      = some ⟨1, 0, 0, 0⟩ := by
  norm_num [findMinimizingPlane, centred, centroidOf, Vec3.sub, Vec3.dot, qLib, qSvdV]

/-- The angle of the normal `(1, 0, 0)` in the rational instance. -/
theorem angle_axis_x : angleBetweenPlanes qLib ⟨1, 0, 0⟩ = fin 90 := by
  norm_num [angleBetweenPlanes, qLib, qSqrt, qRoot, Dbl.mul, Dbl.div, acosD, qAcos, qPi]

/-- Counterexample to C7: six points of the vertical plane `x = 0` with the
bimodal z-coordinates.  The matrix `V` of the instance satisfies the contract of
the decomposition, the statistic is `D = 3413450/10954451 < 0.32`, below the
critical value, the normality test returns true and `wallDetector` returns true. -/
theorem wallDetector_bimodal_z_counterexample :
    ([⟨0, -1, -10⟩, ⟨0, 0, -10⟩, ⟨0, 1, -10⟩, ⟨0, -1, 10⟩, ⟨0, 0, 10⟩, ⟨0, 1, 10⟩] :
        List (Vec3 ℚ)).map Vec3.z = [-10, -10, -10, 10, 10, 10] ∧
    IsThinSvdV
      (centred ([⟨0, -1, -10⟩, ⟨0, 0, -10⟩, ⟨0, 1, -10⟩, ⟨0, -1, 10⟩, ⟨0, 0, 10⟩, ⟨0, 1, 10⟩] :
        List (Vec3 ℚ)))
      (qLib.jacobiSvdV (centred
        [⟨0, -1, -10⟩, ⟨0, 0, -10⟩, ⟨0, 1, -10⟩, ⟨0, -1, 10⟩, ⟨0, 0, 10⟩, ⟨0, 1, 10⟩])) ∧
    ksLoop qLib 6 0 (fin (10954451 / 1000000)) [(-10 : ℚ), -10, -10, 10, 10, 10] 0 (fin 0)
      = fin (3413450 / 10954451) ∧
    isNormallyDistributed qLib [(-10 : ℚ), -10, -10, 10, 10, 10] defaultSignificance = true ∧
    wallDetector qLib
      [⟨0, -1, -10⟩, ⟨0, 0, -10⟩, ⟨0, 1, -10⟩, ⟨0, -1, 10⟩, ⟨0, 0, 10⟩, ⟨0, 1, 10⟩]
      = some true := by
  have hz : List.map Vec3.z
      ([⟨0, -1, -10⟩, ⟨0, 0, -10⟩, ⟨0, 1, -10⟩, ⟨0, -1, 10⟩, ⟨0, 0, 10⟩, ⟨0, 1, 10⟩] :
        List (Vec3 ℚ)) = [-10, -10, -10, 10, 10, 10] := rfl
  refine ⟨hz, ?_, loop_c7, normal_c7, ?_⟩
  · exact qSvdV_isThinSvdV _ (by simp [centred])
      (by norm_num [centred, centroidOf, Vec3.sub])
      (by norm_num [centred, centroidOf, Vec3.sub])
      (by norm_num [centred, centroidOf, Vec3.sub])
  · simp only [wallDetector, hz, normal_c7, plane_c7, angle_axis_x]
    norm_num [inWallRange, Dbl.le]

/-! ## The angle computation on finite magnitudes -/

/-- The value of `angleBetweenPlanes` when the two magnitudes are finite. -/
theorem angleBetweenPlanes_of_mag (lib : Numerics F) (n : Vec3 F) (m : F)
    (hmag : lib.sqrt (n.x * n.x + n.y * n.y + n.z * n.z) = fin m) (hm : m ≠ 0)
    (hone : lib.sqrt 1 = fin 1) :
    angleBetweenPlanes lib n = Dbl.mul (lib.acos (n.y / m)) (fin (180 / lib.M_PI)) := by
  have e1 : n.x * 0 + n.y * 1 + n.z * 0 = n.y := by ring
  have e2 : (0 : F) * 0 + 1 * 1 + 0 * 0 = 1 := by ring
  have hm1 : m * 1 ≠ 0 := by rwa [mul_one]
  simp only [angleBetweenPlanes, e1, e2, hmag, hone, Dbl.mul_fin_fin, Dbl.div_fin_fin _ _ hm1,
    acosD]
  rw [mul_one]

/-- The `acos` of the rational instance maps `[-1, 1]` into `[0, π]`. -/
theorem qAcos_range (x : ℚ) (h1 : -1 ≤ x) (h2 : x ≤ 1) :
    ∃ r, qLib.acos x = fin r ∧ 0 ≤ r ∧ r ≤ qLib.M_PI := by
  refine ⟨qPi * (1 - x) / 2, ?_, ?_, ?_⟩
  · show qAcos x = _
    unfold qAcos
    rw [if_neg]
    intro h
    rcases h with h | h
    · linarith
    · linarith
  · unfold qPi
    linarith
  · show _ ≤ qPi
    unfold qPi
    linarith

/-- The value of `M_PI` in the rational instance is positive. -/
theorem qPi_pos : 0 < qLib.M_PI := by
  show 0 < qPi
  norm_num [qPi]

/-- In the rational instance `acos 0 = π / 2`. -/
theorem qAcos_zero : qLib.acos 0 = fin (qLib.M_PI / 2) := by
  norm_num [qLib, qAcos, qPi]

/-- In the rational instance `sqrt 1 = 1`. -/
theorem qSqrt_one : qLib.sqrt 1 = fin 1 := by
  norm_num [qLib, qSqrt, qRoot]

/-! ## Points in a coordinate plane (claims C8, C9) -/

/-- A sum of squares that vanishes has only vanishing terms. -/
theorem eq_zero_of_sum_sq_eq_zero {α : Type} (f : α → F) (l : List α)
    (h : (l.map (fun a => f a ^ 2)).sum = 0) : ∀ a ∈ l, f a = 0 := by
  induction l with
  | nil => intro a ha; simp at ha
  | cons b t ih =>
      simp only [List.map_cons, List.sum_cons] at h
      have hb : 0 ≤ f b ^ 2 := sq_nonneg _
      have ht : 0 ≤ (t.map (fun a => f a ^ 2)).sum := by
        clear ih h
        induction t with
        | nil => simp
        | cons c u ihu =>
            simp only [List.map_cons, List.sum_cons]
            exact add_nonneg (sq_nonneg _) ihu
      have hb0 : f b ^ 2 = 0 := by linarith
      have ht0 : (t.map (fun a => f a ^ 2)).sum = 0 := by linarith
      intro a ha
      rcases List.mem_cons.mp ha with rfl | ha
      · exact pow_eq_zero_iff (by norm_num) |>.mp hb0
      · exact ih ht0 a ha

/-- When some unit vector `a` is orthogonal to every row of the centred matrix (the
points lie in a plane with normal `a`), the contract gives a column 2 of `V` that
is a unit vector orthogonal to every difference of two points. -/
theorem fitted_normal_perp (lib : Numerics F) (points : List (Vec3 F)) (a : Vec3 F)
    (h3 : 3 ≤ points.length)
    (hsvd : IsThinSvdV (centred points) (lib.jacobiSvdV (centred points)))
    (ha : Vec3.dot a a = 1) (hplane : sumSqProj (centred points) a = 0) :
    ∃ v, (lib.jacobiSvdV (centred points))[2]? = some v ∧ Vec3.dot v v = 1 ∧
      ∀ p ∈ points, ∀ q ∈ points, Vec3.dot (Vec3.sub q p) v = 0 := by
  have hA3 : 3 ≤ (centred points).length := by rw [length_centred]; exact h3
  obtain ⟨v0, v1, v2, e0, e1, e2, hV, ⟨h00, h11, h22⟩, ⟨h01, h02, h12⟩, ⟨he10, he21, he2⟩,
    hg0, hg1, hg2⟩ := hsvd.triple hA3
  have hray := sumSqProj_ge (centred points) v0 v1 v2 e0 e1 e2 h00 h11 h22 h01 h02 h12
    he10 he21 hg0 hg1 hg2 a
  rw [ha, mul_one, hplane] at hray
  have he20 : e2 = 0 := le_antisymm hray he2
  have hq : sumSqProj (centred points) v2 = 0 := by
    rw [sumSqProj_eigen _ v2 e2 h22 hg2, he20]
  have hrows := eq_zero_of_sum_sq_eq_zero (fun r => Vec3.dot r v2) (centred points) hq
  refine ⟨v2, by simp [hV], h22, ?_⟩
  intro p hp q hq
  have h1 := hrows (Vec3.sub p (centroidOf points)) (List.mem_map.mpr ⟨p, hp, rfl⟩)
  have h2 := hrows (Vec3.sub q (centroidOf points)) (List.mem_map.mpr ⟨q, hq, rfl⟩)
  simp only [Vec3.dot, Vec3.sub] at h1 h2 ⊢
  linear_combination h2 - h1

/-- A vector orthogonal to `d1` and `d2` is parallel to `d1 × d2`. -/
theorem parallel_cross (v d1 d2 : Vec3 F) (h1 : Vec3.dot d1 v = 0) (h2 : Vec3.dot d2 v = 0) :
    Vec3.smul (Vec3.dot (Vec3.cross d1 d2) (Vec3.cross d1 d2)) v
      = Vec3.smul (Vec3.dot v (Vec3.cross d1 d2)) (Vec3.cross d1 d2) := by
  simp only [Vec3.dot, Vec3.cross, Vec3.smul] at *
  congr 1
  · linear_combination
      (-((d1.z * d2.x - d1.x * d2.z) * d2.z - (d1.x * d2.y - d1.y * d2.x) * d2.y)) * h1
      + ((d1.z * d2.x - d1.x * d2.z) * d1.z - (d1.x * d2.y - d1.y * d2.x) * d1.y) * h2
  · linear_combination
      (-((d1.x * d2.y - d1.y * d2.x) * d2.x - (d1.y * d2.z - d1.z * d2.y) * d2.z)) * h1
      + ((d1.x * d2.y - d1.y * d2.x) * d1.x - (d1.y * d2.z - d1.z * d2.y) * d1.z) * h2
  · linear_combination
      (-((d1.y * d2.z - d1.z * d2.y) * d2.y - (d1.z * d2.x - d1.x * d2.z) * d2.x)) * h1
      + ((d1.y * d2.z - d1.z * d2.y) * d1.y - (d1.z * d2.x - d1.x * d2.z) * d1.x) * h2

/-- A list of zeros sums to zero. -/
theorem sum_eq_zero_of_all_zero (l : List F) (h : ∀ x ∈ l, x = 0) : l.sum = 0 := by
  rw [sum_of_constant l 0 h, mul_zero]

/-- Points with `x = 0`: the centred matrix annihilates the x-axis. -/
theorem sumSqProj_centred_x (points : List (Vec3 F)) (hx : ∀ p ∈ points, p.x = 0) :
    sumSqProj (centred points) ⟨1, 0, 0⟩ = 0 := by
  have hc : (centroidOf points).x = 0 := by
    have : (points.map Vec3.x).sum = 0 :=
      sum_eq_zero_of_all_zero _ (fun x hx0 => by
        obtain ⟨p, hp, rfl⟩ := List.mem_map.mp hx0
        exact hx p hp)
    simp [centroidOf, this]
  unfold sumSqProj
  apply sum_eq_zero_of_all_zero
  intro x hx0
  obtain ⟨r, hr, rfl⟩ := List.mem_map.mp hx0
  obtain ⟨p, hp, rfl⟩ := List.mem_map.mp hr
  simp [Vec3.dot, Vec3.sub, hx p hp, hc]

/-- Points with `y = 0`: the centred matrix annihilates the y-axis. -/
theorem sumSqProj_centred_y (points : List (Vec3 F)) (hy : ∀ p ∈ points, p.y = 0) :
    sumSqProj (centred points) ⟨0, 1, 0⟩ = 0 := by
  have hc : (centroidOf points).y = 0 := by
    have : (points.map Vec3.y).sum = 0 :=
      sum_eq_zero_of_all_zero _ (fun x hx0 => by
        obtain ⟨p, hp, rfl⟩ := List.mem_map.mp hx0
        exact hy p hp)
    simp [centroidOf, this]
  unfold sumSqProj
  apply sum_eq_zero_of_all_zero
  intro x hx0
  obtain ⟨r, hr, rfl⟩ := List.mem_map.mp hx0
  obtain ⟨p, hp, rfl⟩ := List.mem_map.mp hr
  simp [Vec3.dot, Vec3.sub, hy p hp, hc]

/-- At least three non-collinear points with `x = 0`: under the contract, column 2
of `V` is `(1, 0, 0)` or `(-1, 0, 0)`. -/
theorem fitted_normal_x (lib : Numerics F) (points : List (Vec3 F))
    (h3 : 3 ≤ points.length) (hx : ∀ p ∈ points, p.x = 0)
    (hnc : ∃ p ∈ points, ∃ q ∈ points, ∃ t ∈ points,
      Vec3.cross (Vec3.sub q p) (Vec3.sub t p) ≠ ⟨0, 0, 0⟩)
    (hsvd : IsThinSvdV (centred points) (lib.jacobiSvdV (centred points))) :
    ∃ v : Vec3 F, (lib.jacobiSvdV (centred points))[2]? = some v ∧
      (v.x = 1 ∨ v.x = -1) ∧ v.y = 0 ∧ v.z = 0 := by
  obtain ⟨v, hv, hunit, hperp⟩ := fitted_normal_perp lib points ⟨1, 0, 0⟩ h3 hsvd
    (by simp [Vec3.dot]) (sumSqProj_centred_x points hx)
  obtain ⟨p, hp, q, hq, t, ht, hcross⟩ := hnc
  have hpar := parallel_cross v (Vec3.sub q p) (Vec3.sub t p) (hperp p hp q hq) (hperp p hp t ht)
  have hpx := hx p hp
  have hqx := hx q hq
  have htx := hx t ht
  have hw : (q.y - p.y) * (t.z - p.z) - (q.z - p.z) * (t.y - p.y) ≠ 0 := by
    intro h0
    apply hcross
    simp only [Vec3.cross, Vec3.sub, hpx, hqx, htx, h0]
    simp
  simp only [Vec3.cross, Vec3.sub, Vec3.smul, Vec3.dot, hpx, hqx, htx, Vec3.mk.injEq,
    sub_self, mul_zero, zero_mul, add_zero, sub_zero] at hpar
  obtain ⟨-, hy, hz⟩ := hpar
  have hww : ((q.y - p.y) * (t.z - p.z) - (q.z - p.z) * (t.y - p.y))
      * ((q.y - p.y) * (t.z - p.z) - (q.z - p.z) * (t.y - p.y)) ≠ 0 := mul_ne_zero hw hw
  have hvy : v.y = 0 := by
    rcases mul_eq_zero.mp hy with h | h
    · exact absurd h hww
    · exact h
  have hvz : v.z = 0 := by
    rcases mul_eq_zero.mp hz with h | h
    · exact absurd h hww
    · exact h
  refine ⟨v, hv, ?_, hvy, hvz⟩
  simp only [Vec3.dot, hvy, hvz, mul_zero, add_zero] at hunit
  exact mul_self_eq_one_iff.mp hunit

/-- At least three non-collinear points with `y = 0`: under the contract, column 2
of `V` is `(0, 1, 0)` or `(0, -1, 0)`. -/
theorem fitted_normal_y (lib : Numerics F) (points : List (Vec3 F))
    (h3 : 3 ≤ points.length) (hy : ∀ p ∈ points, p.y = 0)
    (hnc : ∃ p ∈ points, ∃ q ∈ points, ∃ t ∈ points,
      Vec3.cross (Vec3.sub q p) (Vec3.sub t p) ≠ ⟨0, 0, 0⟩)
    (hsvd : IsThinSvdV (centred points) (lib.jacobiSvdV (centred points))) :
    ∃ v : Vec3 F, (lib.jacobiSvdV (centred points))[2]? = some v ∧
      v.x = 0 ∧ (v.y = 1 ∨ v.y = -1) ∧ v.z = 0 := by
  obtain ⟨v, hv, hunit, hperp⟩ := fitted_normal_perp lib points ⟨0, 1, 0⟩ h3 hsvd
    (by simp [Vec3.dot]) (sumSqProj_centred_y points hy)
  obtain ⟨p, hp, q, hq, t, ht, hcross⟩ := hnc
  have hpar := parallel_cross v (Vec3.sub q p) (Vec3.sub t p) (hperp p hp q hq) (hperp p hp t ht)
  have hpy := hy p hp
  have hqy := hy q hq
  have hty := hy t ht
  have hw : (q.z - p.z) * (t.x - p.x) - (q.x - p.x) * (t.z - p.z) ≠ 0 := by
    intro h0
    apply hcross
    simp only [Vec3.cross, Vec3.sub, hpy, hqy, hty, h0]
    simp
  simp only [Vec3.cross, Vec3.sub, Vec3.smul, Vec3.dot, hpy, hqy, hty, Vec3.mk.injEq,
    sub_self, mul_zero, zero_mul, add_zero, sub_zero, zero_add, zero_sub] at hpar
  obtain ⟨hx, -, hz⟩ := hpar
  have hww : ((q.z - p.z) * (t.x - p.x) - (q.x - p.x) * (t.z - p.z))
      * ((q.z - p.z) * (t.x - p.x) - (q.x - p.x) * (t.z - p.z)) ≠ 0 := mul_ne_zero hw hw
  have hvx : v.x = 0 := by
    rcases mul_eq_zero.mp hx with h | h
    · exact absurd h hww
    · exact h
  have hvz : v.z = 0 := by
    rcases mul_eq_zero.mp hz with h | h
    · exact absurd h hww
    · exact h
  refine ⟨v, hv, hvx, ?_, hvz⟩
  simp only [Vec3.dot, hvx, hvz, mul_zero, add_zero, zero_add] at hunit
  exact mul_self_eq_one_iff.mp hunit

/-- On the values `-0.02, -0.01, 0, 0.01, 0.02`, with `sqrt (1/4000) = σ > 0`, a
distribution function with values in `[0, 1]` that is at most `1/2` on `x ≤ 0` and
at least `1/2` on `x ≥ 0`, and a critical value `q / s ≥ 1/2`, the statistic is at
most `1/2` and `isNormallyDistributed` returns true. -/
theorem isNormallyDistributed_tight (lib : Numerics F) (data : List F) (α σ q s : F)
    (hdata : data.Perm [-(1 / 50), -(1 / 100), 0, 1 / 100, 1 / 50])
    (hσ : lib.sqrt (1 / 4000) = fin σ) (hσ0 : 0 < σ)
    (hP : ∀ x, 0 ≤ lib.gsl_cdf_ugaussian_P x ∧ lib.gsl_cdf_ugaussian_P x ≤ 1)
    (hPneg : ∀ x, x ≤ 0 → lib.gsl_cdf_ugaussian_P x ≤ 1 / 2)
    (hPpos : ∀ x, 0 ≤ x → 1 / 2 ≤ lib.gsl_cdf_ugaussian_P x)
    (hq : lib.gsl_cdf_ugaussian_Pinv (1 - α / 2) = fin q)
    (hs : lib.sqrt 5 = fin s) (hs0 : 0 < s) (hcrit : 1 / 2 ≤ q / s) :
    isNormallyDistributed lib data α = true := by
  have hsorted : ([-(1 / 50), -(1 / 100), 0, 1 / 100, 1 / 50] : List F).Sorted (· ≤ ·) := by
    simp only [List.sorted_cons, List.mem_cons, List.mem_singleton, List.not_mem_nil,
      forall_eq_or_imp, forall_eq, List.sorted_nil, and_true, false_implies, implies_true]
    norm_num
  have hsort : data.insertionSort (fun a b : F => a ≤ b)
      = [-(1 / 50), -(1 / 100), 0, 1 / 100, 1 / 50] :=
    insertionSort_eq_of_perm data _ hdata hsorted
  have hempty : data.isEmpty = false := by
    cases data with
    | nil => simp at hdata
    | cons a t => rfl
  have hmean : gsl_stats_mean ([-(1 / 50), -(1 / 100), 0, 1 / 100, 1 / 50] : List F) = 0 := by
    norm_num [gsl_stats_mean]
  have hsd : gsl_stats_sd lib ([-(1 / 50), -(1 / 100), 0, 1 / 100, 1 / 50] : List F)
      = fin σ := by
    have h4 : ((5 : F) - 1) ≠ 0 := by norm_num
    have hss : sumSqDev ([-(1 / 50), -(1 / 100), 0, 1 / 100, 1 / 50] : List F) = 1 / 1000 := by
      norm_num [sumSqDev, hmean]
    have hlen : ((([-(1 / 50), -(1 / 100), 0, 1 / 100, 1 / 50] : List F).length : Nat) : F)
        = 5 := by
      norm_num
    unfold gsl_stats_sd
    rw [hss, hlen, Dbl.div_fin_fin _ _ h4]
    have : (1 / 1000 : F) / (5 - 1) = 1 / 4000 := by norm_num
    rw [this]
    exact hσ
  have hσle := le_of_lt hσ0
  have a0 := hP ((-(1 / 50) - 0) / σ)
  have a1 := hPneg ((-(1 / 50) - 0) / σ)
    (div_nonpos_of_nonpos_of_nonneg (by norm_num) hσle)
  have b0 := hP ((-(1 / 100) - 0) / σ)
  have b1 := hPneg ((-(1 / 100) - 0) / σ)
    (div_nonpos_of_nonpos_of_nonneg (by norm_num) hσle)
  have c0 := hPneg ((0 - 0) / σ) (by norm_num)
  have c1 := hPpos ((0 - 0) / σ) (by norm_num)
  have d0 := hP ((1 / 100 - 0) / σ)
  have d1 := hPpos ((1 / 100 - 0) / σ) (div_nonneg (by norm_num) hσle)
  have e0 := hP ((1 / 50 - 0) / σ)
  have e1 := hPpos ((1 / 50 - 0) / σ) (div_nonneg (by norm_num) hσle)
  have hD : ksMax lib.gsl_cdf_ugaussian_P 5 0 σ
      ([-(1 / 50), -(1 / 100), 0, 1 / 100, 1 / 50] : List F) 0 0 ≤ 1 / 2 := by
    simp only [ksMax, max_le_iff, ksTerm, abs_le]
    norm_num
    norm_num at a0 a1 b0 b1 c0 c1 d0 d1 e0 e1
    refine ⟨⟨⟨⟨⟨?_, ?_⟩, ?_, ?_⟩, ?_, ?_⟩, ?_, ?_⟩, ?_, ?_⟩ <;> linarith
  have hlen5 : ([-(1 / 50), -(1 / 100), 0, 1 / 100, 1 / 50] : List F).length = 5 := rfl
  simp only [isNormallyDistributed, hempty, hsort, hmean, hsd, hlen5, hq,
    ksLoop_fin lib _ _ _ (ne_of_gt hσ0), Nat.cast_ofNat, hs, Dbl.div_fin_fin _ _ (ne_of_gt hs0),
    Dbl.le_fin_fin, Bool.false_eq_true, if_false, decide_eq_true_eq]
  exact le_trans hD hcrit

/-- The angle of a coordinate axis orthogonal to the reference normal. -/
theorem angle_of_axis_x (lib : Numerics F) (vx : F) (hv : vx = 1 ∨ vx = -1)
    (hone : lib.sqrt 1 = fin 1) (hacos : lib.acos 0 = fin (lib.M_PI / 2))
    (hpi : 0 < lib.M_PI) :
    angleBetweenPlanes lib ⟨vx, 0, 0⟩ = fin 90 := by
  have hmag : lib.sqrt ((⟨vx, 0, 0⟩ : Vec3 F).x * (⟨vx, 0, 0⟩ : Vec3 F).x
      + (⟨vx, 0, 0⟩ : Vec3 F).y * (⟨vx, 0, 0⟩ : Vec3 F).y
      + (⟨vx, 0, 0⟩ : Vec3 F).z * (⟨vx, 0, 0⟩ : Vec3 F).z) = fin 1 := by
    have : vx * vx + 0 * 0 + 0 * 0 = (1 : F) := by
      rcases hv with h | h <;> rw [h] <;> ring
    simp only [this]
    exact hone
  rw [angleBetweenPlanes_of_mag lib _ 1 hmag one_ne_zero hone]
  simp only [zero_div, hacos, Dbl.mul_fin_fin]
  congr 1
  field_simp
  ring

/-- The angle of the reference normal and of its opposite. -/
theorem angle_of_axis_y (lib : Numerics F) (vy : F) (hv : vy = 1 ∨ vy = -1)
    (hone : lib.sqrt 1 = fin 1) (hacos1 : lib.acos 1 = fin 0)
    (hacosm1 : lib.acos (-1) = fin lib.M_PI) (hpi : 0 < lib.M_PI) :
    angleBetweenPlanes lib ⟨0, vy, 0⟩ = fin 0 ∨ angleBetweenPlanes lib ⟨0, vy, 0⟩ = fin 180 := by
  have hmag : lib.sqrt ((⟨0, vy, 0⟩ : Vec3 F).x * (⟨0, vy, 0⟩ : Vec3 F).x
      + (⟨0, vy, 0⟩ : Vec3 F).y * (⟨0, vy, 0⟩ : Vec3 F).y
      + (⟨0, vy, 0⟩ : Vec3 F).z * (⟨0, vy, 0⟩ : Vec3 F).z) = fin 1 := by
    have : 0 * 0 + vy * vy + 0 * 0 = (1 : F) := by
      rcases hv with h | h <;> rw [h] <;> ring
    simp only [this]
    exact hone
  rw [angleBetweenPlanes_of_mag lib _ 1 hmag one_ne_zero hone]
  rcases hv with h | h
  · left
    simp only [h, div_one, hacos1, Dbl.mul_fin_fin, zero_mul]
  · right
    simp only [h, div_one, hacosm1, Dbl.mul_fin_fin]
    congr 1
    field_simp

/-- The general part of C8: at least three non-collinear points with `x = 0` whose
z-coordinates pass the normality test. -/
theorem wallDetector_x_plane (lib : Numerics F) (points : List (Vec3 F))
    (hone : lib.sqrt 1 = fin 1) (hacos : lib.acos 0 = fin (lib.M_PI / 2))
    (hpi : 0 < lib.M_PI) (h3 : 3 ≤ points.length) (hx : ∀ p ∈ points, p.x = 0)
    (hnc : ∃ p ∈ points, ∃ q ∈ points, ∃ t ∈ points,
      Vec3.cross (Vec3.sub q p) (Vec3.sub t p) ≠ ⟨0, 0, 0⟩)
    (hsvd : IsThinSvdV (centred points) (lib.jacobiSvdV (centred points)))
    (hN : isNormallyDistributed lib (points.map Vec3.z) defaultSignificance = true) :
    (∃ plane, findMinimizingPlane lib points = some plane ∧
      (plane.a = 1 ∨ plane.a = -1) ∧ plane.b = 0 ∧ plane.c = 0 ∧
      angleBetweenPlanes lib ⟨plane.a, plane.b, plane.c⟩ = fin 90) ∧
    wallDetector lib points = some true := by
  obtain ⟨v, hv, hvx, hvy, hvz⟩ := fitted_normal_x lib points h3 hx hnc hsvd
  have hplane : findMinimizingPlane lib points
      = some ⟨v.x, v.y, v.z, -(Vec3.dot v (centroidOf points))⟩ := by
    simp [findMinimizingPlane, hv]
  have hangle : angleBetweenPlanes lib ⟨v.x, v.y, v.z⟩ = fin 90 := by
    rw [hvy, hvz]
    exact angle_of_axis_x lib v.x hvx hone hacos hpi
  refine ⟨⟨_, hplane, hvx, hvy, hvz, hangle⟩, ?_⟩
  rw [wallDetector_of_normal lib points hN, hplane]
  simp only [Option.map_some', hangle, inWallRange, Dbl.le_fin_fin]
  norm_num

/-- C8: with `sqrt 1 = 1`, `acos 0 = π/2` and `π > 0`: for every cluster of at
least three non-collinear points with `x = 0` whose z-coordinates pass the
normality test, under the contract of the decomposition, the fitted normal is
`(1, 0, 0)` or `(-1, 0, 0)`, its angle is 90 and `wallDetector` returns true; and
this holds for the five points `(0,0,-0.02)`, `(0,1,-0.01)`, `(0,0,0)`,
`(0,1,0.01)`, `(0,0,0.02)` as soon as `sqrt (1/4000)` is positive, the
distribution function has values in `[0, 1]` and median `0`, and the critical
value `q / s` is at least `1/2` (it is about `0.88`). -/
theorem wallDetector_vertical_plane (lib : Numerics F)
    (hone : lib.sqrt 1 = fin 1) (hacos : lib.acos 0 = fin (lib.M_PI / 2))
    (hpi : 0 < lib.M_PI) :
    (∀ points : List (Vec3 F), 3 ≤ points.length → (∀ p ∈ points, p.x = 0) →
      (∃ p ∈ points, ∃ q ∈ points, ∃ t ∈ points,
        Vec3.cross (Vec3.sub q p) (Vec3.sub t p) ≠ ⟨0, 0, 0⟩) →
      IsThinSvdV (centred points) (lib.jacobiSvdV (centred points)) →
      isNormallyDistributed lib (points.map Vec3.z) defaultSignificance = true →
      (∃ plane, findMinimizingPlane lib points = some plane ∧
        (plane.a = 1 ∨ plane.a = -1) ∧ plane.b = 0 ∧ plane.c = 0 ∧
        angleBetweenPlanes lib ⟨plane.a, plane.b, plane.c⟩ = fin 90) ∧
      wallDetector lib points = some true) ∧
    (∀ σ q s : F, lib.sqrt (1 / 4000) = fin σ → 0 < σ →
      (∀ x, 0 ≤ lib.gsl_cdf_ugaussian_P x ∧ lib.gsl_cdf_ugaussian_P x ≤ 1) →
      (∀ x, x ≤ 0 → lib.gsl_cdf_ugaussian_P x ≤ 1 / 2) →
      (∀ x, 0 ≤ x → 1 / 2 ≤ lib.gsl_cdf_ugaussian_P x) →
      lib.gsl_cdf_ugaussian_Pinv (1 - defaultSignificance / 2) = fin q →
      lib.sqrt 5 = fin s → 0 < s → 1 / 2 ≤ q / s →
      IsThinSvdV
        (centred [⟨0, 0, -(1 / 50)⟩, ⟨0, 1, -(1 / 100)⟩, ⟨0, 0, 0⟩, ⟨0, 1, 1 / 100⟩,
          ⟨0, 0, 1 / 50⟩])
        (lib.jacobiSvdV (centred [⟨0, 0, -(1 / 50)⟩, ⟨0, 1, -(1 / 100)⟩, ⟨0, 0, 0⟩,
          ⟨0, 1, 1 / 100⟩, ⟨0, 0, 1 / 50⟩])) →
      wallDetector lib [⟨0, 0, -(1 / 50)⟩, ⟨0, 1, -(1 / 100)⟩, ⟨0, 0, 0⟩, ⟨0, 1, 1 / 100⟩,
        ⟨0, 0, 1 / 50⟩] = some true) := by
  constructor
  · intro points h3 hx hnc hsvd hN
    exact wallDetector_x_plane lib points hone hacos hpi h3 hx hnc hsvd hN
  · intro σ q s hσ hσ0 hP hPneg hPpos hq hs hs0 hcrit hsvd
    have hN : isNormallyDistributed lib
        (([⟨0, 0, -(1 / 50)⟩, ⟨0, 1, -(1 / 100)⟩, ⟨0, 0, 0⟩, ⟨0, 1, 1 / 100⟩,
          ⟨0, 0, 1 / 50⟩] : List (Vec3 F)).map Vec3.z) defaultSignificance = true :=
      isNormallyDistributed_tight lib _ defaultSignificance σ q s (List.Perm.refl _)
        hσ hσ0 hP hPneg hPpos hq hs hs0 hcrit
    refine (wallDetector_x_plane lib _ hone hacos hpi (by simp) ?_ ?_ hsvd hN).2
    · intro p hp
      simp only [List.mem_cons, List.mem_singleton, List.not_mem_nil, or_false] at hp
      rcases hp with rfl | rfl | rfl | rfl | rfl <;> rfl
    · refine ⟨⟨0, 0, -(1 / 50)⟩, by simp, ⟨0, 1, -(1 / 100)⟩, by simp, ⟨0, 0, 0⟩, by simp, ?_⟩
      intro h
      have hx := congrArg Vec3.x h
      norm_num [Vec3.cross, Vec3.sub] at hx

/-- The rational instance satisfies the contract of the decomposition on the five
points. -/
theorem svd_contract_c8 :
    IsThinSvdV
      (centred ([⟨0, 0, -(1 / 50)⟩, ⟨0, 1, -(1 / 100)⟩, ⟨0, 0, 0⟩, ⟨0, 1, 1 / 100⟩,
        ⟨0, 0, 1 / 50⟩] : List (Vec3 ℚ)))
      (qLib.jacobiSvdV (centred [⟨0, 0, -(1 / 50)⟩, ⟨0, 1, -(1 / 100)⟩, ⟨0, 0, 0⟩,
        ⟨0, 1, 1 / 100⟩, ⟨0, 0, 1 / 50⟩])) :=
  qSvdV_isThinSvdV _ (by simp [centred]) (by norm_num [centred, centroidOf, Vec3.sub])
    (by norm_num [centred, centroidOf, Vec3.sub]) (by norm_num [centred, centroidOf, Vec3.sub])

/-- Witness of C8: the five points of the claim in the rational instance. -/
theorem wallDetector_vertical_plane_witness :
    wallDetector qLib [⟨0, 0, -(1 / 50)⟩, ⟨0, 1, -(1 / 100)⟩, ⟨0, 0, 0⟩, ⟨0, 1, 1 / 100⟩,
      ⟨0, 0, 1 / 50⟩] = some true :=
  (wallDetector_vertical_plane qLib qSqrt_one qAcos_zero qPi_pos).2
    (15811 / 1000000) (1959964 / 1000000) (2236068 / 1000000)
    (by norm_num [qLib, qSqrt, qRoot]) (by norm_num) qPhi_range qPhi_le_half qPhi_ge_half
    (by norm_num [qLib, qQuantile, qQuantileUpper, defaultSignificance])
    (by norm_num [qLib, qSqrt, qRoot]) (by norm_num) (by norm_num) svd_contract_c8

/-! ### Points in the horizontal plane `y = 0` (claim C9) -/

/-- C9: with `sqrt 1 = 1`, `acos 1 = 0`, `acos (-1) = π` and `π > 0`, for every
cluster of at least three non-collinear points with `y = 0`, under the contract of
the decomposition, `wallDetector` returns false, whatever the normality test
returns. -/
theorem wallDetector_horizontal_plane (lib : Numerics F) (points : List (Vec3 F))
    (h3 : 3 ≤ points.length) (hy : ∀ p ∈ points, p.y = 0)
    (hnc : ∃ p ∈ points, ∃ q ∈ points, ∃ t ∈ points,
      Vec3.cross (Vec3.sub q p) (Vec3.sub t p) ≠ ⟨0, 0, 0⟩)
    (hsvd : IsThinSvdV (centred points) (lib.jacobiSvdV (centred points)))
    (hone : lib.sqrt 1 = fin 1) (hacos1 : lib.acos 1 = fin 0)
    (hacosm1 : lib.acos (-1) = fin lib.M_PI) (hpi : 0 < lib.M_PI) :
    wallDetector lib points = some false := by
  cases hN : isNormallyDistributed lib (points.map Vec3.z) defaultSignificance with
  | false => simp [wallDetector, hN]
  | true =>
      obtain ⟨v, hv, hvx, hvy, hvz⟩ := fitted_normal_y lib points h3 hy hnc hsvd
      have hplane : findMinimizingPlane lib points
          = some ⟨v.x, v.y, v.z, -(Vec3.dot v (centroidOf points))⟩ := by
        simp [findMinimizingPlane, hv]
      rw [wallDetector_of_normal lib points hN, hplane]
      simp only [Option.map_some', hvx, hvz]
      rcases angle_of_axis_y lib v.y hvy hone hacos1 hacosm1 hpi with h | h
      · rw [h]
        simp only [inWallRange, Dbl.le_fin_fin]
        norm_num
      · rw [h]
        simp only [inWallRange, Dbl.le_fin_fin]
        norm_num

/-- The rational instance satisfies the contract of the decomposition on the four points
of the floor. -/
theorem svd_contract_c9 :
    IsThinSvdV
      (centred ([⟨2, 0, 1⟩, ⟨-2, 0, -1⟩, ⟨1, 0, -2⟩, ⟨-1, 0, 2⟩] : List (Vec3 ℚ)))
      (qLib.jacobiSvdV (centred [⟨2, 0, 1⟩, ⟨-2, 0, -1⟩, ⟨1, 0, -2⟩, ⟨-1, 0, 2⟩])) :=
  qSvdV_isThinSvdV _ (by simp [centred]) (by norm_num [centred, centroidOf, Vec3.sub])
    (by norm_num [centred, centroidOf, Vec3.sub]) (by norm_num [centred, centroidOf, Vec3.sub])

/-- Witness of C9: four points of the floor `y = 0`. -/
theorem wallDetector_horizontal_plane_witness :
    wallDetector qLib [⟨2, 0, 1⟩, ⟨-2, 0, -1⟩, ⟨1, 0, -2⟩, ⟨-1, 0, 2⟩] = some false :=
  wallDetector_horizontal_plane qLib [⟨2, 0, 1⟩, ⟨-2, 0, -1⟩, ⟨1, 0, -2⟩, ⟨-1, 0, 2⟩]
    (by decide)
    (by
      intro p hp
      simp only [List.mem_cons, List.mem_singleton, List.not_mem_nil, or_false] at hp
      rcases hp with rfl | rfl | rfl | rfl <;> rfl)
    ⟨⟨2, 0, 1⟩, by simp, ⟨-2, 0, -1⟩, by simp, ⟨1, 0, -2⟩, by simp, by
      intro h
      have hy := congrArg Vec3.y h
      norm_num [Vec3.cross, Vec3.sub] at hy⟩
    svd_contract_c9 qSqrt_one (by norm_num [qLib, qAcos, qPi]) (by norm_num [qLib, qAcos, qPi])
    qPi_pos

/-! ## The plane passes through the centroid (claim C12) -/

/-- The cosine of the zero vector is `0 / 0`, whatever `sqrt 1` returns. -/
theorem cos_of_zero_normal (mag2 : Dbl F) :
    Dbl.div (fin (0 : F)) (Dbl.mul (fin 0) mag2) = nan := by
  cases mag2 <;> simp [Dbl.mul, Dbl.div]

/-- With `sqrt 0 = 0`, `angleBetweenPlanes` returns `NaN` on the zero vector. -/
theorem angleBetweenPlanes_zero (lib : Numerics F) (hzero : lib.sqrt 0 = fin 0) :
    angleBetweenPlanes lib ⟨0, 0, 0⟩ = nan := by
  have e1 : (0 : F) * 0 + 0 * 1 + 0 * 0 = 0 := by ring
  have e2 : (0 : F) * 0 + 0 * 0 + 0 * 0 = 0 := by ring
  simp only [angleBetweenPlanes, e1, e2, hzero, cos_of_zero_normal, acosD]
  rfl

/-- C14, as amended: there is no guard.  With `sqrt 0 = 0`, on the zero vector the
quotient `0 / 0` is `NaN`, `angleBetweenPlanes` returns that `NaN`, and the
threshold test rejects it because no comparison with `NaN` holds; so
`wallDetector` returns false for a cluster whose fitted normal is the zero
vector. -/
theorem wallDetector_zero_normal (lib : Numerics F) (hzero : lib.sqrt 0 = fin 0) :
    angleBetweenPlanes lib ⟨0, 0, 0⟩ = nan ∧
    inWallRange (angleBetweenPlanes lib ⟨0, 0, 0⟩) = false ∧
    ∀ (points : List (Vec3 F)) (plane : Vec4 F),
      findMinimizingPlane lib points = some plane →
      plane.a = 0 → plane.b = 0 → plane.c = 0 →
      wallDetector lib points = some false := by
  have hnan := angleBetweenPlanes_zero lib hzero
  refine ⟨hnan, ?_, ?_⟩
  · rw [hnan]
    rfl
  · intro points plane hP ha hb hc
    cases hN : isNormallyDistributed lib (points.map Vec3.z) defaultSignificance with
    | false => simp [wallDetector, hN]
    | true =>
        rw [wallDetector_of_normal lib points hN, hP]
        simp only [Option.map_some', ha, hb, hc, hnan]
        rfl

/-- In the rational instance `sqrt 0 = 0`. -/
theorem qSqrt_zero : qLib.sqrt 0 = fin 0 := by
  norm_num [qLib, qSqrt, qRoot]

/-- Witness of the amended C14 in the rational instance. -/
theorem wallDetector_zero_normal_witness :
    angleBetweenPlanes qLib ⟨0, 0, 0⟩ = nan ∧
    inWallRange (angleBetweenPlanes qLib ⟨0, 0, 0⟩) = false :=
  ⟨(wallDetector_zero_normal qLib qSqrt_zero).1, (wallDetector_zero_normal qLib qSqrt_zero).2.1⟩

/-- Counterexample to C14: on the zero vector the magnitudes are `0` and `1`, the
cosine is `0 / (0 * 1) = NaN`, and `angleBetweenPlanes` returns `NaN`: the
division by zero is not guarded and no sentinel is returned, the invalid value
is passed on to the caller. -/
theorem angleBetweenPlanes_zero_counterexample :
    qLib.sqrt ((0 : ℚ) * 0 + 0 * 0 + 0 * 0) = fin 0 ∧
    qLib.sqrt ((0 : ℚ) * 0 + 1 * 1 + 0 * 0) = fin 1 ∧
    Dbl.div (fin ((0 : ℚ) * 0 + 0 * 1 + 0 * 0)) (Dbl.mul (fin 0) (fin 1)) = nan ∧
    angleBetweenPlanes qLib ⟨0, 0, 0⟩ = nan := by
  refine ⟨?_, ?_, ?_, ?_⟩
  · norm_num [qLib, qSqrt, qRoot]
  · norm_num [qLib, qSqrt, qRoot]
  · norm_num [Dbl.mul, Dbl.div]
  · norm_num [angleBetweenPlanes, qLib, qSqrt, qRoot, Dbl.mul, Dbl.div, acosD]

/-! ## Fewer than four values (claim C15) -/

/-- With a distribution function with values in `[0, 1]`, the theoretical value
`F_obs` is `NaN` or a number in `[0, 1]`, whatever the standard deviation is. -/
theorem ugaussianP_range (lib : Numerics F)
    (hP : ∀ x, 0 ≤ lib.gsl_cdf_ugaussian_P x ∧ lib.gsl_cdf_ugaussian_P x ≤ 1) (z : Dbl F) :
    ugaussianP lib z = nan ∨ ∃ p, ugaussianP lib z = fin p ∧ 0 ≤ p ∧ p ≤ 1 := by
  cases z with
  | fin x => exact Or.inr ⟨_, rfl, (hP x).1, (hP x).2⟩
  | pinf => exact Or.inr ⟨1, rfl, zero_le_one, le_refl _⟩
  | ninf => exact Or.inr ⟨0, rfl, le_refl _, zero_le_one⟩
  | nan => exact Or.inl rfl

/-- With a distribution function with values in `[0, 1]`, the statistic `D` is a
number in `[0, 1]`: both `F_obs` and `F_exp` lie in `[0, 1]`, and a `NaN`
difference leaves `D` unchanged. -/
theorem ksLoop_range (lib : Numerics F)
    (hP : ∀ x, 0 ≤ lib.gsl_cdf_ugaussian_P x ∧ lib.gsl_cdf_ugaussian_P x ≤ 1)
    (n : Nat) (mean : F) (stddev : Dbl F) (l : List F) :
    ∀ (i : Nat) (d : F), i + l.length ≤ n → 0 ≤ d → d ≤ 1 →
      ∃ r, ksLoop lib n mean stddev l i (fin d) = fin r ∧ 0 ≤ r ∧ r ≤ 1 := by
  induction l with
  | nil => intro i d _ h0 h1; exact ⟨d, rfl, h0, h1⟩
  | cons v rest ih =>
      intro i d hi h0 h1
      simp only [List.length_cons] at hi
      have hnpos : (0 : F) < (n : F) := by
        have : 0 < n := by omega
        exact_mod_cast this
      have he0 : 0 ≤ ((i : F) + 1) / (n : F) :=
        div_nonneg (by positivity) (le_of_lt hnpos)
      have he1 : ((i : F) + 1) / (n : F) ≤ 1 := by
        rw [div_le_one hnpos]
        have : i + 1 ≤ n := by omega
        exact_mod_cast this
      simp only [ksLoop]
      rcases ugaussianP_range lib hP (Dbl.div (fin (v - mean)) stddev) with hz | ⟨p, hz, hp0, hp1⟩
      · rw [hz]
        have hlt : Dbl.lt (fin d) (Dbl.abs (Dbl.sub (nan : Dbl F)
            (fin (((i : F) + 1) / (n : F))))) = false := rfl
        rw [hlt]
        exact ih (i + 1) d (by omega) h0 h1
      · rw [hz]
        have hdiff : Dbl.abs (Dbl.sub (fin p) (fin (((i : F) + 1) / (n : F))))
            = fin |p + -(((i : F) + 1) / (n : F))| := rfl
        rw [hdiff, Dbl.lt_fin_fin]
        have habs0 : 0 ≤ |p + -(((i : F) + 1) / (n : F))| := abs_nonneg _
        have habs1 : |p + -(((i : F) + 1) / (n : F))| ≤ 1 := by
          rw [abs_le]
          constructor <;> linarith
        by_cases hlt : d < |p + -(((i : F) + 1) / (n : F))|
        · simp only [hlt, decide_True, if_true]
          exact ih (i + 1) _ (by omega) habs0 habs1
        · simp only [hlt, decide_False]
          rw [if_neg (by simp)]
          exact ih (i + 1) d (by omega) h0 h1

/-- C15: for one, two or three values, with a distribution function with values
in `[0, 1]`, a quantile `Φ⁻¹(0.975) ≥ 1.9` and a positive `sqrt n` accurate to one
per cent (`s² ≤ 1.01 n`), the statistic `D` is at most 1, the critical value is
greater than 1, and `isNormallyDistributed` at significance 0.05 returns true;
hence the normality gate lets every cluster of one, two or three points through
to the plane fit. -/
theorem isNormallyDistributed_small (lib : Numerics F) (data : List F) (q s : F)
    (h1 : 1 ≤ data.length) (h3 : data.length ≤ 3)
    (hP : ∀ x, 0 ≤ lib.gsl_cdf_ugaussian_P x ∧ lib.gsl_cdf_ugaussian_P x ≤ 1)
    (hq : lib.gsl_cdf_ugaussian_Pinv (1 - defaultSignificance / 2) = fin q)
    (hq19 : 19 / 10 ≤ q)
    (hs : lib.sqrt (data.length : F) = fin s) (hs0 : 0 < s)
    (hacc : s * s ≤ 101 / 100 * (data.length : F)) :
    (∃ D, ksLoop lib (data.insertionSort (· ≤ ·)).length
        (gsl_stats_mean (data.insertionSort (· ≤ ·)))
        (gsl_stats_sd lib (data.insertionSort (· ≤ ·)))
        (data.insertionSort (· ≤ ·)) 0 (fin 0) = fin D ∧ 0 ≤ D ∧ D ≤ 1) ∧
    1 < q / s ∧
    isNormallyDistributed lib data defaultSignificance = true ∧
    ∀ points : List (Vec3 F), points.map Vec3.z = data →
      wallDetector lib points = (findMinimizingPlane lib points).map
        (fun plane => inWallRange (angleBetweenPlanes lib ⟨plane.a, plane.b, plane.c⟩)) := by
  have hempty : data.isEmpty = false := by
    cases data with
    | nil => simp at h1
    | cons a t => rfl
  obtain ⟨D, hD, hD0, hD1⟩ := ksLoop_range lib hP (data.insertionSort (· ≤ ·)).length
    (gsl_stats_mean (data.insertionSort (· ≤ ·)))
    (gsl_stats_sd lib (data.insertionSort (· ≤ ·)))
    (data.insertionSort (· ≤ ·)) 0 0 (by omega) (le_refl _) zero_le_one
  have hlen := List.length_insertionSort (fun a b : F => a ≤ b) data
  have hn3 : (data.length : F) ≤ 3 := by exact_mod_cast h3
  have hsq : s < q := by
    by_contra hcon
    have hqs : q ≤ s := not_lt.mp hcon
    have hq0 : 0 ≤ q := by linarith
    have : q * q ≤ s * s := mul_self_le_mul_self hq0 hqs
    have h19 : (19 / 10 : F) * (19 / 10) ≤ q * q :=
      mul_self_le_mul_self (by norm_num) hq19
    norm_num at h19
    linarith
  have hcrit : 1 < q / s := by
    rw [lt_div_iff₀ hs0]
    linarith
  have hD2 := hD
  rw [hlen] at hD2
  have hN : isNormallyDistributed lib data defaultSignificance = true := by
    simp only [isNormallyDistributed, hempty, hlen, hD2, hq, hs,
      Dbl.div_fin_fin _ _ (ne_of_gt hs0), Dbl.le_fin_fin, Bool.false_eq_true, if_false,
      decide_eq_true_eq]
    linarith
  refine ⟨⟨D, hD, hD0, hD1⟩, hcrit, hN, ?_⟩
  intro points hz
  rw [← hz] at hN
  exact wallDetector_of_normal lib points hN

/-- Witness of C15: the three values `4, 1, 9` in the rational instance. -/
theorem isNormallyDistributed_small_witness :
    (1 : ℚ) < 1959964 / 1000000 / (1732051 / 1000000) ∧
    isNormallyDistributed qLib [(4 : ℚ), 1, 9] defaultSignificance = true :=
  ⟨(isNormallyDistributed_small qLib [4, 1, 9] (1959964 / 1000000) (1732051 / 1000000)
    (by decide) (by decide) qPhi_range
    (by norm_num [qLib, qQuantile, qQuantileUpper, defaultSignificance]) (by norm_num)
    (by norm_num [qLib, qSqrt, qRoot]) (by norm_num) (by norm_num)).2.1,
   (isNormallyDistributed_small qLib [4, 1, 9] (1959964 / 1000000) (1732051 / 1000000)
    (by decide) (by decide) qPhi_range
    (by norm_num [qLib, qQuantile, qQuantileUpper, defaultSignificance]) (by norm_num)
    (by norm_num [qLib, qSqrt, qRoot]) (by norm_num) (by norm_num)).2.2.1⟩

/-! ## Monotonicity in the significance level (claim C16) -/

/-- A larger finite bound keeps the comparison `D <= bound` true. -/
theorem Dbl.le_fin_mono (D : Dbl F) (c₁ c₂ : F) (h : c₂ ≤ c₁)
    (hD : Dbl.le D (fin c₂) = true) : Dbl.le D (fin c₁) = true := by
  cases D with
  | fin d =>
      simp only [Dbl.le_fin_fin, decide_eq_true_eq] at hD ⊢
      exact le_trans hD h
  | pinf => exact absurd hD (by simp [Dbl.le])
  | ninf => rfl
  | nan => exact absurd hD (by simp [Dbl.le])

/-- C16: for a non-empty sequence and `0 < α₁ ≤ α₂ < 1`, with a quantile function
that is finite and non-decreasing on `(1/2, 1)` and a positive `sqrt n`, if
`isNormallyDistributed` returns true at `α₂` then it returns true at `α₁`. -/
theorem isNormallyDistributed_mono (lib : Numerics F) (data : List F) (α₁ α₂ s : F)
    (hne : data ≠ []) (h0 : 0 < α₁) (h12 : α₁ ≤ α₂) (h1 : α₂ < 1)
    (hmono : ∀ p₁ p₂, 1 / 2 < p₂ → p₂ ≤ p₁ → p₁ < 1 →
      ∃ q₁ q₂, lib.gsl_cdf_ugaussian_Pinv p₁ = fin q₁ ∧
        lib.gsl_cdf_ugaussian_Pinv p₂ = fin q₂ ∧ q₂ ≤ q₁)
    (hs : lib.sqrt (data.length : F) = fin s) (hs0 : 0 < s)
    (h : isNormallyDistributed lib data α₂ = true) :
    isNormallyDistributed lib data α₁ = true := by
  have hempty : data.isEmpty = false := by
    cases data with
    | nil => exact absurd rfl hne
    | cons a t => rfl
  have hlen := List.length_insertionSort (fun a b : F => a ≤ b) data
  obtain ⟨q₁, q₂, hq₁, hq₂, hq⟩ := hmono (1 - α₁ / 2) (1 - α₂ / 2) (by linarith) (by linarith)
    (by linarith)
  simp only [isNormallyDistributed, hempty, hlen, hq₁, hq₂, hs,
    Dbl.div_fin_fin _ _ (ne_of_gt hs0), Bool.false_eq_true, if_false] at h ⊢
  exact Dbl.le_fin_mono _ _ _ (div_le_div_of_nonneg_right hq (le_of_lt hs0)) h

/-- The inverse of the interpolated distribution function is non-decreasing below
`1`. -/
theorem qQuantileUpper_mono (p₁ p₂ : ℚ) (h12 : p₂ ≤ p₁) (h1 : p₁ < 1) :
    qQuantileUpper p₂ ≤ qQuantileUpper p₁ := by
  have tail : ∀ p : ℚ, 99865 / 100000 < p → p < 1 → 3 ≤ 405 / 100000 / (1 - p) := by
    intro p hp hp1
    rw [le_div_iff₀ (by linarith)]
    linarith
  have tail₁ : 99865 / 100000 < p₁ → 3 ≤ 405 / 100000 / (1 - p₁) := fun h => tail p₁ h h1
  unfold qQuantileUpper
  split_ifs with a1 a2 a3 b1 b2 b3 b2 b3 b3
  all_goals first
    | linarith
    | linarith [tail₁ (by linarith)]
    | exact div_le_div_of_nonneg_left (by norm_num) (by linarith) (by linarith)

/-- The quantile of the rational instance is finite and non-decreasing on
`(1/2, 1)`. -/
theorem qQuantile_mono (p₁ p₂ : ℚ) (h2 : 1 / 2 < p₂) (h12 : p₂ ≤ p₁) (h1 : p₁ < 1) :
    ∃ q₁ q₂, qLib.gsl_cdf_ugaussian_Pinv p₁ = fin q₁ ∧
      qLib.gsl_cdf_ugaussian_Pinv p₂ = fin q₂ ∧ q₂ ≤ q₁ := by
  refine ⟨qQuantileUpper p₁, qQuantileUpper p₂, ?_, ?_, qQuantileUpper_mono p₁ p₂ h12 h1⟩
  · show qQuantile p₁ = _
    unfold qQuantile
    rw [if_neg (by linarith), if_neg (by linarith), if_pos (by linarith)]
  · show qQuantile p₂ = _
    unfold qQuantile
    rw [if_neg (by linarith), if_neg (by linarith), if_pos (by linarith)]

/-- The normality test returns true on `3, 1, 2` at significance 0.05 in the
rational instance. -/
theorem normal_c16 : isNormallyDistributed qLib [(3 : ℚ), 1, 2] (5 / 100) = true := by
  have hsort : List.insertionSort (fun a b : ℚ => a ≤ b) [3, 1, 2] = [1, 2, 3] := by
    norm_num [List.insertionSort, List.orderedInsert]
  have hmean : gsl_stats_mean [(1 : ℚ), 2, 3] = 2 := by
    norm_num [gsl_stats_mean]
  have hsd : gsl_stats_sd qLib [(1 : ℚ), 2, 3] = fin 1 := by
    norm_num [gsl_stats_sd, gsl_stats_mean, sumSqDev, Dbl.div, sqrtD, qLib, qSqrt, qRoot]
  have hloop : ksLoop qLib 3 2 (fin 1) [(1 : ℚ), 2, 3] 0 (fin 0) = fin (524035 / 3000000) := by
    rw [ksLoop_fin qLib 3 2 _ (by norm_num)]
    simp only [ksMax, ksTerm]
    norm_num [qLib, qPhi, qPhiUpper, abs_of_nonneg, abs_of_nonpos, max_eq_left, max_eq_right]
  have hlen : ([(1 : ℚ), 2, 3]).length = 3 := rfl
  simp only [isNormallyDistributed, hsort, hmean, hsd, hlen, hloop]
  norm_num [Dbl.div, Dbl.le, qLib, qQuantile, qQuantileUpper, qSqrt, qRoot]

/-- Witness of C16: the values `3, 1, 2` at the significance levels `0.01` and
`0.05`. -/
theorem isNormallyDistributed_mono_witness :
    isNormallyDistributed qLib [(3 : ℚ), 1, 2] (5 / 100) = true ∧
    isNormallyDistributed qLib [(3 : ℚ), 1, 2] (1 / 100) = true :=
  ⟨normal_c16,
   isNormallyDistributed_mono qLib [3, 1, 2] (1 / 100) (5 / 100) (1732051 / 1000000)
    (by simp) (by norm_num) (by norm_num) (by norm_num) qQuantile_mono
    (by norm_num [qLib, qSqrt, qRoot]) (by norm_num) normal_c16⟩

/-! ## Independence of the order of the data (claim C17) -/

/-- Two permutations of the same data have the same sorted copy. -/
theorem insertionSort_perm (data₁ data₂ : List F) (h : data₁.Perm data₂) :
    data₁.insertionSort (fun a b : F => a ≤ b) = data₂.insertionSort (fun a b : F => a ≤ b) :=
  insertionSort_eq_of_perm data₁ _ (h.trans (List.perm_insertionSort _ data₂).symm)
    (List.sorted_insertionSort _ data₂)

/-- C17: `isNormallyDistributed` returns the same boolean on a sequence and on
every permutation of it, for every significance level. -/
theorem isNormallyDistributed_perm (lib : Numerics F) (data₁ data₂ : List F) (α : F)
    (h : data₁.Perm data₂) :
    isNormallyDistributed lib data₁ α = isNormallyDistributed lib data₂ α := by
  have hempty : data₁.isEmpty = data₂.isEmpty := by
    cases data₁ with
    | nil =>
        have := h.length_eq
        cases data₂ with
        | nil => rfl
        | cons b t => simp at this
    | cons a t =>
        cases data₂ with
        | nil =>
            have := h.length_eq
            simp at this
        | cons b u => rfl
  unfold isNormallyDistributed
  rw [hempty, insertionSort_perm data₁ data₂ h]

/-- Witness of C17: the values `3, 1, 2` and `2, 3, 1`. -/
theorem isNormallyDistributed_perm_witness :
    isNormallyDistributed qLib [(3 : ℚ), 1, 2] (5 / 100)
      = isNormallyDistributed qLib [(2 : ℚ), 3, 1] (5 / 100) :=
  isNormallyDistributed_perm qLib [3, 1, 2] [2, 3, 1] (5 / 100) (by decide)

/-! ## Translation of the data in exact arithmetic -/

/-- Shifting every value by `t` shifts the sorted copy by `t`. -/
theorem insertionSort_shift (t : F) (l : List F) :
    (l.map (fun x => x + t)).insertionSort (fun a b : F => a ≤ b)
      = (l.insertionSort (fun a b : F => a ≤ b)).map (fun x => x + t) := by
  apply insertionSort_eq_of_perm
  · exact ((List.perm_insertionSort _ l).map _).symm
  · have hs := List.sorted_insertionSort (fun a b : F => a ≤ b) l
    exact List.Pairwise.map _ (fun a b hab => add_le_add_right hab t) hs

/-- Shifting every value of a non-empty sequence by `t` shifts the mean by `t`. -/
theorem gsl_stats_mean_shift (t : F) (l : List F) (hne : l ≠ []) :
    gsl_stats_mean (l.map (fun x => x + t)) = gsl_stats_mean l + t := by
  unfold gsl_stats_mean
  have hsum : (l.map (fun x => x + t)).sum = l.sum + (l.length : F) * t := by
    clear hne
    induction l with
    | nil => simp
    | cons a u ih =>
        simp only [List.map_cons, List.sum_cons, List.length_cons, Nat.cast_add, Nat.cast_one]
        rw [ih]
        ring
  have hlen : (l.length : F) ≠ 0 := by
    have : l.length ≠ 0 := fun h0 => hne (List.length_eq_zero.mp h0)
    exact_mod_cast this
  rw [hsum, List.length_map]
  field_simp
  ring

/-- Shifting every point of a non-empty cluster by `t` shifts the centroid by `t`. -/
theorem centroidOf_shift (t : Vec3 F) (points : List (Vec3 F)) (hne : points ≠ []) :
    centroidOf (points.map (fun p => Vec3.add p t)) = Vec3.add (centroidOf points) t := by
  have hx : (points.map (fun p => Vec3.add p t)).map Vec3.x
      = (points.map Vec3.x).map (fun x => x + t.x) := by
    simp [List.map_map, Function.comp, Vec3.add]
  have hy : (points.map (fun p => Vec3.add p t)).map Vec3.y
      = (points.map Vec3.y).map (fun x => x + t.y) := by
    simp [List.map_map, Function.comp, Vec3.add]
  have hz : (points.map (fun p => Vec3.add p t)).map Vec3.z
      = (points.map Vec3.z).map (fun x => x + t.z) := by
    simp [List.map_map, Function.comp, Vec3.add]
  have hnx : points.map Vec3.x ≠ [] := by simpa using hne
  have hny : points.map Vec3.y ≠ [] := by simpa using hne
  have hnz : points.map Vec3.z ≠ [] := by simpa using hne
  have mx := gsl_stats_mean_shift t.x (points.map Vec3.x) hnx
  have my := gsl_stats_mean_shift t.y (points.map Vec3.y) hny
  have mz := gsl_stats_mean_shift t.z (points.map Vec3.z) hnz
  simp only [gsl_stats_mean, List.length_map] at mx my mz
  unfold centroidOf
  rw [hx, hy, hz]
  simp only [List.length_map, mx, my, mz, Vec3.add]

/-- Shifting every point by `t` does not change the centred matrix. -/
theorem centred_shift (t : Vec3 F) (points : List (Vec3 F)) :
    centred (points.map (fun p => Vec3.add p t)) = centred points := by
  cases points with
  | nil => rfl
  | cons a u =>
      unfold centred
      rw [centroidOf_shift t (a :: u) (by simp), List.map_map]
      apply List.map_congr_left
      intro p _
      simp only [Function.comp, Vec3.sub, Vec3.add, Vec3.mk.injEq]
      refine ⟨?_, ?_, ?_⟩ <;> ring

/-! ## Rounding to a binary format: evaluation -/

theorem roundHalfEven_of_near (q : ℚ) (m : ℤ) (h : |q - m| < 1 / 2) : roundHalfEven q = m := by
  have h1 := (abs_lt.mp h).1
  have h2 := (abs_lt.mp h).2
  have hf1 : (⌊q⌋ : ℚ) ≤ q := Int.floor_le q
  have hf2 : q < ⌊q⌋ + 1 := Int.lt_floor_add_one q
  have a : ⌊q⌋ ≤ m := by
    have : (⌊q⌋ : ℚ) < m + 1 := by linarith
    have : ⌊q⌋ < m + 1 := by exact_mod_cast this
    omega
  have b : m ≤ ⌊q⌋ + 1 := by
    have : (m : ℚ) < ⌊q⌋ + 1 + 1 := by linarith
    have : m < ⌊q⌋ + 1 + 1 := by exact_mod_cast this
    omega
  unfold roundHalfEven
  rcases (by omega : m = ⌊q⌋ ∨ m = ⌊q⌋ + 1) with hm | hm
  · have : q - ⌊q⌋ < 1 / 2 := by
      have e : (m : ℚ) = ⌊q⌋ := by exact_mod_cast hm
      linarith
    rw [if_pos this, hm]
  · have e : (m : ℚ) = ⌊q⌋ + 1 := by exact_mod_cast hm
    have h3 : 1 / 2 < q - ⌊q⌋ := by linarith
    rw [if_neg (by linarith), if_pos h3, hm]

theorem roundHalfEven_intCast (m : ℤ) : roundHalfEven (m : ℚ) = m :=
  roundHalfEven_of_near _ m (by simp)

/-- A tie is rounded to the even neighbour. -/
theorem roundHalfEven_tie (q : ℚ) (m : ℤ) (hm : m % 2 = 0) (h : |q - m| = 1 / 2) :
    roundHalfEven q = m := by
  unfold roundHalfEven
  rcases abs_eq (by norm_num : (0:ℚ) ≤ 1 / 2) |>.mp h with h1 | h1
  · have hq : q = ((m : ℤ) : ℚ) + 1 / 2 := by linarith
    have hfl : ⌊q⌋ = m := by
      rw [Int.floor_eq_iff]
      constructor <;> linarith
    rw [hfl]
    rw [if_neg (by linarith), if_neg (by linarith), if_pos hm]
  · have hq : q = ((m - 1 : ℤ) : ℚ) + 1 / 2 := by push_cast; linarith
    have hfl : ⌊q⌋ = m - 1 := by
      rw [Int.floor_eq_iff]
      constructor <;> linarith
    rw [hfl]
    have : ((m - 1 : ℤ) : ℚ) = m - 1 := by push_cast; ring
    rw [if_neg (by rw [this]; linarith), if_neg (by rw [this]; linarith), if_neg (by omega)]
    omega

theorem log_two_eq (x : ℚ) (k : ℤ) (hx : 0 < x) (h1 : (2 : ℚ) ^ k ≤ x) (h2 : x < 2 ^ (k + 1)) :
    Int.log 2 x = k := by
  have a : k ≤ Int.log 2 x := (Int.zpow_le_iff_le_log (by norm_num) hx).mp (by exact_mod_cast h1)
  have b : Int.log 2 x < k + 1 :=
    (Int.lt_zpow_iff_log_lt (by norm_num) hx).mp (by exact_mod_cast h2)
  omega

theorem roundHalfEven_spec (q : ℚ) :
    |q - roundHalfEven q| < 1 / 2 ∨ (|q - roundHalfEven q| = 1 / 2 ∧ roundHalfEven q % 2 = 0) := by
  have hf1 : (⌊q⌋ : ℚ) ≤ q := Int.floor_le q
  have hf2 : q < ⌊q⌋ + 1 := Int.lt_floor_add_one q
  unfold roundHalfEven
  by_cases h1 : q - ⌊q⌋ < 1 / 2
  · rw [if_pos h1]
    left
    rw [abs_lt]
    constructor <;> linarith
  · rw [if_neg h1]
    by_cases h2 : 1 / 2 < q - ⌊q⌋
    · rw [if_pos h2]
      left
      rw [abs_lt]
      push_cast
      constructor <;> linarith
    · rw [if_neg h2]
      have he : q - ⌊q⌋ = 1 / 2 := le_antisymm (not_lt.mp h2) (not_lt.mp h1)
      right
      by_cases h3 : ⌊q⌋ % 2 = 0
      · rw [if_pos h3]
        refine ⟨?_, h3⟩
        rw [he]
        norm_num
      · rw [if_neg h3]
        refine ⟨?_, by omega⟩
        push_cast
        have : q - (⌊q⌋ + 1) = -(1 / 2) := by linarith
        rw [this]
        norm_num

theorem roundHalfEven_neg (q : ℚ) : roundHalfEven (-q) = -roundHalfEven q := by
  rcases roundHalfEven_spec q with h | ⟨h, hev⟩
  · apply roundHalfEven_of_near
    push_cast
    have : -q - -(roundHalfEven q : ℚ) = -(q - roundHalfEven q) := by ring
    rw [this, abs_neg]
    exact h
  · apply roundHalfEven_tie _ _ (by omega)
    push_cast
    have : -q - -(roundHalfEven q : ℚ) = -(q - roundHalfEven q) := by ring
    rw [this, abs_neg]
    exact h

theorem roundHalfEven_le (q : ℚ) (N : ℤ) (h : q ≤ N) : roundHalfEven q ≤ N := by
  have hf1 : (⌊q⌋ : ℚ) ≤ q := Int.floor_le q
  have hfl : ⌊q⌋ ≤ N := by
    have : (⌊q⌋ : ℚ) ≤ N := le_trans hf1 h
    exact_mod_cast this
  have hstep : (0 : ℚ) < q - ⌊q⌋ → ⌊q⌋ + 1 ≤ N := by
    intro hpos
    have : (⌊q⌋ : ℚ) < N := by linarith
    have : ⌊q⌋ < N := by exact_mod_cast this
    omega
  unfold roundHalfEven
  split_ifs with h1 h2 h3
  · exact hfl
  · exact hstep (by linarith)
  · exact hfl
  · exact hstep (by linarith)

theorem le_roundHalfEven (q : ℚ) (N : ℤ) (h : (N : ℚ) ≤ q) : N ≤ roundHalfEven q := by
  have := roundHalfEven_le (-q) (-N) (by push_cast; linarith)
  rw [roundHalfEven_neg] at this
  omega

theorem ulpExponent_neg (p : Nat) (emax : ℤ) (x : ℚ) :
    ulpExponent p emax (-x) = ulpExponent p emax x := by
  unfold ulpExponent
  rw [abs_neg]

theorem roundTo_zero (p : Nat) (emax : ℤ) : roundTo p emax 0 = fin 0 := by
  unfold roundTo
  have h0 : roundHalfEven 0 = 0 := by simpa using roundHalfEven_intCast 0
  have hpos : (0 : ℚ) < 2 ^ (emax + 1) := by positivity
  simp only [zero_div, h0, Int.cast_zero, zero_mul, abs_zero]
  rw [if_neg (not_le.mpr hpos)]

/-- The exponent of the unit in the last place from the binade of `x`. -/
theorem ulpExponent_eq (p : Nat) (emax : ℤ) (x : ℚ) (k : ℤ)
    (hlo : (2 : ℚ) ^ k ≤ |x|) (hhi : |x| < 2 ^ (k + 1)) :
    ulpExponent p emax x = max k (1 - emax) - ((p : ℤ) - 1) := by
  have hpos : 0 < |x| := lt_of_lt_of_le (by positivity) hlo
  unfold ulpExponent
  rw [log_two_eq |x| k hpos hlo hhi]

/-- Evaluation of a rounding: `m` is the integer nearest to `x / 2^e`. -/
theorem roundTo_of_near (p : Nat) (emax : ℤ) (x v : ℚ) (k e m : ℤ)
    (hlo : (2 : ℚ) ^ k ≤ |x|) (hhi : |x| < 2 ^ (k + 1))
    (he : e = max k (1 - emax) - ((p : ℤ) - 1))
    (hm : |x / 2 ^ e - m| < 1 / 2) (hv : v = m * 2 ^ e) (hov : |v| < 2 ^ (emax + 1)) :
    roundTo p emax x = fin v := by
  unfold roundTo
  simp only
  rw [ulpExponent_eq p emax x k hlo hhi, ← he, roundHalfEven_of_near _ m hm, ← hv,
    if_neg (not_le.mpr hov)]

/-- Evaluation of a rounding at a tie: `x / 2^e` is half-way and `m` is even. -/
theorem roundTo_of_tie (p : Nat) (emax : ℤ) (x v : ℚ) (k e m : ℤ)
    (hlo : (2 : ℚ) ^ k ≤ |x|) (hhi : |x| < 2 ^ (k + 1))
    (he : e = max k (1 - emax) - ((p : ℤ) - 1))
    (hm : |x / 2 ^ e - m| = 1 / 2) (hev : m % 2 = 0) (hv : v = m * 2 ^ e)
    (hov : |v| < 2 ^ (emax + 1)) :
    roundTo p emax x = fin v := by
  unfold roundTo
  simp only
  rw [ulpExponent_eq p emax x k hlo hhi, ← he, roundHalfEven_tie _ m hev hm, ← hv,
    if_neg (not_le.mpr hov)]

/-- Rounding commutes with the change of sign. -/
theorem roundTo_neg (p : Nat) (emax : ℤ) (x : ℚ) :
    roundTo p emax (-x) = Dbl.neg (roundTo p emax x) := by
  unfold roundTo
  simp only [ulpExponent_neg, neg_div, roundHalfEven_neg, Int.cast_neg, neg_mul, abs_neg]
  by_cases h : (2 : ℚ) ^ (emax + 1) ≤
      |(roundHalfEven (x / 2 ^ ulpExponent p emax x) : ℚ) * 2 ^ ulpExponent p emax x|
  · rw [if_pos h, if_pos h]
    have hx : x ≠ 0 := by
      rintro rfl
      have h0 : roundHalfEven 0 = 0 := by simpa using roundHalfEven_intCast 0
      simp only [zero_div, h0, Int.cast_zero, zero_mul, abs_zero] at h
      exact absurd h (not_le.mpr (by positivity))
    unfold Dbl.infOfSign
    rcases lt_or_gt_of_ne hx with hneg | hpos
    · rw [if_pos (by linarith), if_neg (by linarith)]
      rfl
    · rw [if_neg (by linarith), if_pos hpos]
      rfl
  · rw [if_neg h, if_neg h]
    rfl

/-- A bound on the exponent of the unit in the last place. -/
theorem ulpExponent_le (p : Nat) (emax : ℤ) (x : ℚ) (j : ℤ) (h0 : x ≠ 0)
    (hx : |x| < 2 ^ (j + p)) (hj : 2 - emax - p ≤ j) : ulpExponent p emax x ≤ j := by
  unfold ulpExponent
  have hpos : 0 < |x| := abs_pos.mpr h0
  have hlog : Int.log 2 |x| < j + p :=
    (Int.lt_zpow_iff_log_lt (by norm_num) hpos).mp (by exact_mod_cast hx)
  have h1 : Int.log 2 |x| ≤ j + p - 1 := by omega
  have h2 : 1 - emax ≤ j + p - 1 := by omega
  have := max_le h1 h2
  omega

/-- A multiple of `2^j` is a multiple of `2^e` for `e ≤ j`. -/
theorem grid_refine (a : ℤ) (j e : ℤ) (h : e ≤ j) :
    ∃ N : ℤ, (a : ℚ) * 2 ^ j / 2 ^ e = N := by
  obtain ⟨n, hn⟩ := Int.eq_ofNat_of_zero_le (sub_nonneg.mpr h)
  refine ⟨a * 2 ^ n, ?_⟩
  have h2 : (2 : ℚ) ≠ 0 := by norm_num
  have hj : j = e + n := by omega
  rw [hj, zpow_add₀ h2, zpow_natCast]
  push_cast
  field_simp
  ring

/-- Rounding stays between two numbers of a grid that contains the format near `x`. -/
theorem roundTo_between (p : Nat) (emax : ℤ) (x lo hi : ℚ) (a b j : ℤ)
    (hlo : lo = a * 2 ^ j) (hhi : hi = b * 2 ^ j) (h1 : lo ≤ x) (h2 : x ≤ hi)
    (hx : |x| < 2 ^ (j + p)) (hj : 2 - emax - p ≤ j)
    (hov1 : |lo| < 2 ^ (emax + 1)) (hov2 : |hi| < 2 ^ (emax + 1)) :
    ∃ r, roundTo p emax x = fin r ∧ lo ≤ r ∧ r ≤ hi := by
  by_cases h0 : x = 0
  · subst h0
    exact ⟨0, roundTo_zero p emax, h1, h2⟩
  · have he := ulpExponent_le p emax x j h0 hx hj
    obtain ⟨A, hA⟩ := grid_refine a j _ he
    obtain ⟨B, hB⟩ := grid_refine b j _ he
    have hpow : (0 : ℚ) < 2 ^ ulpExponent p emax x := by positivity
    have hq1 : (A : ℚ) ≤ x / 2 ^ ulpExponent p emax x := by
      rw [← hA, ← hlo]
      exact div_le_div_of_nonneg_right h1 (le_of_lt hpow)
    have hq2 : x / 2 ^ ulpExponent p emax x ≤ (B : ℚ) := by
      rw [← hB, ← hhi]
      exact div_le_div_of_nonneg_right h2 (le_of_lt hpow)
    have r1 := le_roundHalfEven _ A hq1
    have r2 := roundHalfEven_le _ B hq2
    have c1 : lo ≤ (roundHalfEven (x / 2 ^ ulpExponent p emax x) : ℚ)
        * 2 ^ ulpExponent p emax x := by
      have : lo = A * 2 ^ ulpExponent p emax x := by
        rw [← hA, ← hlo]
        field_simp
      rw [this]
      exact mul_le_mul_of_nonneg_right (by exact_mod_cast r1) (le_of_lt hpow)
    have c2 : (roundHalfEven (x / 2 ^ ulpExponent p emax x) : ℚ)
        * 2 ^ ulpExponent p emax x ≤ hi := by
      have : hi = B * 2 ^ ulpExponent p emax x := by
        rw [← hB, ← hhi]
        field_simp
      rw [this]
      exact mul_le_mul_of_nonneg_right (by exact_mod_cast r2) (le_of_lt hpow)
    refine ⟨_, ?_, c1, c2⟩
    unfold roundTo
    simp only
    rw [if_neg]
    rw [not_le, abs_lt]
    have l1 := (abs_lt.mp hov1).1
    have l2 := (abs_lt.mp hov2).2
    constructor <;> linarith

/-- A number of the format is not changed by the rounding. -/
theorem roundTo_rep (p : Nat) (emax : ℤ) (x : ℚ) (m e : ℤ) (hx : x = m * 2 ^ e)
    (hm : |(m : ℚ)| < 2 ^ p) (he1 : 2 - emax - p ≤ e) (he2 : e ≤ emax + 1 - p) :
    roundTo p emax x = fin x := by
  have hpow : (0 : ℚ) < 2 ^ e := by positivity
  have habs : |x| < 2 ^ (e + p) := by
    rw [hx, abs_mul, abs_of_pos hpow, zpow_add₀ (by norm_num : (2 : ℚ) ≠ 0), zpow_natCast,
      mul_comm]
    exact mul_lt_mul_of_pos_left hm hpow
  have hbig : (2 : ℚ) ^ (e + (p : ℤ)) ≤ 2 ^ (emax + 1) :=
    zpow_le_zpow_right₀ (by norm_num) (by omega)
  obtain ⟨r, hr, r1, r2⟩ := roundTo_between p emax x x x m m e hx hx (le_refl _) (le_refl _)
    habs he1 (lt_of_lt_of_le habs hbig) (lt_of_lt_of_le habs hbig)
  rw [hr, le_antisymm r2 r1]

/-- A magnitude beyond the largest number of the format rounds to an infinity. -/
theorem roundTo_overflow (p : Nat) (emax : ℤ) (x : ℚ) (hp : 1 ≤ p) (he : 0 ≤ emax)
    (hx : (2 : ℚ) ^ (emax + 1) ≤ |x|) : roundTo p emax x = Dbl.infOfSign x := by
  have key : ∀ y : ℚ, 0 < y → (2 : ℚ) ^ (emax + 1) ≤ y →
      (2 : ℚ) ^ (emax + 1) ≤ |(roundHalfEven (y / 2 ^ ulpExponent p emax y) : ℚ)
        * 2 ^ ulpExponent p emax y| := by
    intro y hy0 hy
    have habs : |y| = y := abs_of_pos hy0
    have hL : emax + 1 ≤ Int.log 2 y :=
      (Int.zpow_le_iff_le_log (by norm_num) hy0).mp (by exact_mod_cast hy)
    have hE : ulpExponent p emax y = Int.log 2 y - ((p : ℤ) - 1) := by
      unfold ulpExponent
      rw [habs, max_eq_left (by omega)]
    have hpow : (0 : ℚ) < 2 ^ ulpExponent p emax y := by positivity
    have hlow : (2 : ℚ) ^ Int.log 2 y ≤ y := by
      have := Int.zpow_log_le_self (by norm_num : 1 < 2) hy0
      exact_mod_cast this
    obtain ⟨n, hn⟩ : ∃ n : ℕ, (p : ℤ) - 1 = n := ⟨p - 1, by omega⟩
    have hq : (((2 : ℤ) ^ n : ℤ) : ℚ) ≤ y / 2 ^ ulpExponent p emax y := by
      rw [le_div_iff₀ hpow, hE, hn]
      push_cast
      rw [← zpow_natCast, ← zpow_add₀ (by norm_num : (2 : ℚ) ≠ 0)]
      simpa using hlow
    have hr := le_roundHalfEven _ _ hq
    have hr' : ((2 : ℚ) ^ n) ≤ (roundHalfEven (y / 2 ^ ulpExponent p emax y) : ℚ) := by
      exact_mod_cast hr
    have hnn : (0 : ℚ) ≤ (roundHalfEven (y / 2 ^ ulpExponent p emax y) : ℚ) :=
      le_trans (by positivity) hr'
    rw [abs_of_nonneg (mul_nonneg hnn (le_of_lt hpow))]
    calc (2 : ℚ) ^ (emax + 1) ≤ 2 ^ Int.log 2 y := zpow_le_zpow_right₀ (by norm_num) hL
      _ = 2 ^ n * 2 ^ ulpExponent p emax y := by
          rw [hE, hn, ← zpow_natCast, ← zpow_add₀ (by norm_num : (2 : ℚ) ≠ 0)]
          simp
      _ ≤ _ := mul_le_mul_of_nonneg_right hr' (le_of_lt hpow)
  have hx0 : x ≠ 0 := by
    rintro rfl
    simp only [abs_zero] at hx
    exact absurd hx (not_le.mpr (by positivity))
  rcases lt_or_gt_of_ne hx0 with hneg | hpos
  · have h1 := key (-x) (by linarith) (by rwa [abs_of_neg hneg] at hx)
    have h2 : roundTo p emax (-x) = Dbl.infOfSign (-x) := by
      unfold roundTo
      simp only
      rw [if_pos h1]
    rw [roundTo_neg] at h2
    have h3 := congrArg Dbl.neg h2
    have hnegneg : ∀ a : Dbl ℚ, Dbl.neg (Dbl.neg a) = a := by
      intro a
      cases a <;> simp [Dbl.neg]
    rw [hnegneg] at h3
    rw [h3]
    unfold Dbl.infOfSign
    rw [if_pos (by linarith), if_neg (by linarith)]
    rfl
  · have h1 := key x hpos (by rwa [abs_of_pos hpos] at hx)
    unfold roundTo
    simp only
    rw [if_pos h1]

/-- Evaluation of a rounding at a number of the format, given as `m * 2^e`. -/
theorem roundTo_of_rep (p : Nat) (emax : ℤ) (x v : ℚ) (m e : ℤ) (hx : x = m * 2 ^ e)
    (hv : v = m * 2 ^ e) (hm : |(m : ℚ)| < 2 ^ p) (he1 : 2 - emax - p ≤ e)
    (he2 : e ≤ emax + 1 - p) : roundTo p emax x = fin v := by
  rw [roundTo_rep p emax x m e hx hm he1 he2, hx, hv]

theorem binary64_zero : binary64 0 = fin 0 := roundTo_zero 53 1023

theorem extended80_zero : extended80 0 = fin 0 := roundTo_zero 64 16383

theorem binary64_neg (x : ℚ) : binary64 (-x) = Dbl.neg (binary64 x) := roundTo_neg 53 1023 x

/-- Rounding never produces `NaN`. -/
theorem roundTo_ne_nan (p : Nat) (emax : ℤ) (x : ℚ) : roundTo p emax x ≠ nan := by
  unfold roundTo Dbl.infOfSign
  simp only
  split_ifs <;> simp

/-- Rounding to binary64 maps `[-1, 1]` into itself. -/
theorem binary64_unit (x : ℚ) (hx : |x| ≤ 1) : ∃ y, binary64 x = fin y ∧ |y| ≤ 1 := by
  obtain ⟨r, hr, h1, h2⟩ := roundTo_between 53 1023 x (-1) 1 (-2 ^ 52) (2 ^ 52) (-52)
    (by norm_num) (by norm_num) (abs_le.mp hx).1 (abs_le.mp hx).2
    (lt_of_le_of_lt hx (by norm_num)) (by norm_num) (by norm_num) (by norm_num)
  exact ⟨r, hr, abs_le.mpr ⟨h1, h2⟩⟩

/-- The natural numbers below `2^53` are numbers of binary64. -/
theorem binary64_natCast (n : ℕ) (h : n < 2 ^ 53) : binary64 (n : ℚ) = fin (n : ℚ) := by
  apply roundTo_rep 53 1023 _ n 0 (by simp)
  · have : ((n : ℤ) : ℚ) = (n : ℚ) := by simp
    rw [this, abs_of_nonneg (by positivity)]
    exact_mod_cast h
  · norm_num
  · norm_num

/-! ## The angle in floating-point arithmetic -/

/-- The dot product with the reference normal `(0, 1, 0)` is the second component. -/
theorem Fp.dotProd_reference (R : Rounding F) (n : Vec3 F) (h0 : R.dbl 0 = fin 0)
    (hy : R.dbl n.y = fin n.y) : Fp.dotProd R n ⟨0, 1, 0⟩ = fin n.y := by
  simp only [Fp.dotProd, Fp.mul, Fp.add, Dbl.mul, Dbl.add, Dbl.round, mul_zero, mul_one,
    zero_add, add_zero, h0, hy]

/-- The magnitude of the reference normal is `sqrt 1`. -/
theorem Fp.magnitude_reference (R : Rounding F) (lib : Numerics F) (h0 : R.dbl 0 = fin 0)
    (h1 : R.dbl 1 = fin 1) : Fp.magnitude R lib ⟨0, 1, 0⟩ = lib.sqrt 1 := by
  simp only [Fp.magnitude, Fp.dotProd, Fp.mul, Fp.add, Dbl.mul, Dbl.add, Dbl.round, mul_zero,
    mul_one, zero_add, add_zero, h0, h1, sqrtD]

/-- The cosine of line 90 from the computed magnitude. -/
theorem Fp.cosAngle_eq (R : Rounding F) (lib : Numerics F) (n : Vec3 F)
    (h0 : R.dbl 0 = fin 0) (h1 : R.dbl 1 = fin 1) (hy : R.dbl n.y = fin n.y)
    (hone : lib.sqrt 1 = fin 1) :
    Fp.cosAngle R lib n = Fp.div R (fin n.y) (Fp.mul R (Fp.magnitude R lib n) (fin 1)) := by
  simp only [Fp.cosAngle, Fp.dotProd_reference R n h0 hy, Fp.magnitude_reference R lib h0 h1,
    hone]

/-- The sum of the squares of a vector on the second axis. -/
theorem Fp.dotProd_self_axis (R : Rounding F) (y : F) (s : Dbl F) (h0 : R.dbl 0 = fin 0)
    (hyy : R.dbl (y * y) = s) (hs : Dbl.round R.dbl s = s) :
    Fp.dotProd R (⟨0, y, 0⟩ : Vec3 F) ⟨0, y, 0⟩ = s := by
  simp only [Fp.dotProd, Fp.mul, Fp.add, Dbl.mul, Dbl.round, mul_zero, h0, hyy]
  cases s with
  | fin v =>
      simp only [Dbl.round] at hs
      simp only [Dbl.add, Dbl.round, zero_add, add_zero, hs]
  | pinf => simp only [Dbl.add, Dbl.round]
  | ninf => simp only [Dbl.add, Dbl.round]
  | nan => simp only [Dbl.add, Dbl.round]

/-- The angle of a vector on the second axis whose square overflows: the magnitude
is `+inf`, the cosine `0`. -/
theorem Fp.angle_of_overflow (R : Rounding F) (lib : Numerics F) (y r k a : F)
    (h0 : R.dbl 0 = fin 0) (h1 : R.dbl 1 = fin 1) (hy : R.dbl y = fin y)
    (hyy : R.dbl (y * y) = pinf) (hone : lib.sqrt 1 = fin 1) (hacos : lib.acos 0 = fin r)
    (hpi : lib.M_PI ≠ 0) (hk : R.dbl (180 / lib.M_PI) = fin k) (ha : R.dbl (r * k) = fin a) :
    Fp.angleBetweenPlanes R lib ⟨0, y, 0⟩ = fin a := by
  have hmag : Fp.magnitude R lib ⟨0, y, 0⟩ = pinf := by
    simp only [Fp.magnitude, Fp.dotProd_self_axis R y pinf h0 hyy rfl, sqrtD]
  have hcos : Fp.cosAngle R lib ⟨0, y, 0⟩ = fin 0 := by
    rw [Fp.cosAngle_eq R lib _ h0 h1 hy hone, hmag]
    simp [Fp.mul, Fp.div, Dbl.mul, Dbl.div, Dbl.round, Dbl.infOfSign, h0]
  simp only [Fp.angleBetweenPlanes, hcos, acosD, hacos, Fp.div, Fp.mul, Dbl.div_fin_fin _ _ hpi,
    Dbl.round, hk, Dbl.mul, ha]

/-- The angle of a vector on the second axis whose square underflows to zero: the
magnitude is `0`, the cosine an infinity and the angle `NaN`. -/
theorem Fp.angle_of_underflow (R : Rounding F) (lib : Numerics F) (y : F)
    (h0 : R.dbl 0 = fin 0) (h1 : R.dbl 1 = fin 1) (hy : R.dbl y = fin y) (hpos : 0 < y)
    (hyy : R.dbl (y * y) = fin 0) (hone : lib.sqrt 1 = fin 1) (hzero : lib.sqrt 0 = fin 0) :
    Fp.angleBetweenPlanes R lib ⟨0, y, 0⟩ = nan := by
  have hmag : Fp.magnitude R lib ⟨0, y, 0⟩ = fin 0 := by
    simp only [Fp.magnitude, Fp.dotProd_self_axis R y (fin 0) h0 hyy (by simp [Dbl.round, h0]),
      sqrtD, hzero]
  have hcos : Fp.cosAngle R lib ⟨0, y, 0⟩ = pinf := by
    rw [Fp.cosAngle_eq R lib _ h0 h1 hy hone, hmag]
    simp [Fp.mul, Fp.div, Dbl.mul, Dbl.div, Dbl.round, Dbl.infOfSign, h0, ne_of_gt hpos, hpos]
  simp only [Fp.angleBetweenPlanes, hcos, acosD, Fp.mul, Dbl.mul, Dbl.round]

/-! ## The statistics of GSL on a constant run followed by one larger value -/

/-- A constant run followed by a larger value is sorted: the sort leaves it as it is. -/
theorem insertionSort_replicate_append (c c' : F) (h : c ≤ c') (k : Nat) :
    (List.replicate k c ++ [c']).insertionSort (· ≤ ·) = List.replicate k c ++ [c'] := by
  apply List.Sorted.insertionSort_eq
  induction k with
  | zero => simp
  | succ j ih =>
      rw [List.replicate_succ, List.cons_append, List.sorted_cons]
      refine ⟨?_, ih⟩
      intro b hb
      rcases List.mem_append.mp hb with hb | hb
      · rw [List.eq_of_mem_replicate hb]
      · rw [List.mem_singleton.mp hb]
        exact h

/-- The first pass of the loop of the mean. -/
theorem Fp.meanLoop_first (R : Rounding F) (c : F) (hc : R.ldbl c = fin c) (rest : List F) :
    Fp.meanLoop R (c :: rest) 0 (fin 0) = Fp.meanLoop R rest 1 (fin c) := by
  simp only [Fp.meanLoop, Fp.lsub, Fp.ldiv, Fp.ladd, Dbl.sub, Dbl.neg, Dbl.add, Dbl.round,
    neg_zero, add_zero, zero_add, Nat.cast_zero, hc, Dbl.div_fin_fin _ _ (one_ne_zero), div_one]

/-- A pass of the loop of the mean over a value equal to the accumulator. -/
theorem Fp.meanLoop_replicate (R : Rounding F) (c : F) (h0 : R.ldbl 0 = fin 0)
    (hc : R.ldbl c = fin c) (rest : List F) :
    ∀ (k i : Nat), Fp.meanLoop R (List.replicate k c ++ rest) i (fin c)
      = Fp.meanLoop R rest (i + k) (fin c) := by
  intro k
  induction k with
  | zero => intro i; simp
  | succ j ih =>
      intro i
      have hi : ((i : F) + 1) ≠ 0 := by positivity
      rw [List.replicate_succ, List.cons_append]
      simp only [Fp.meanLoop, Fp.lsub, Fp.ldiv, Fp.ladd, Dbl.sub, Dbl.neg, Dbl.add, Dbl.round,
        add_neg_cancel, h0, Dbl.div_fin_fin _ _ hi, zero_div, add_zero, hc]
      rw [ih (i + 1)]
      congr 1
      omega

/-- The mean of GSL on `k + 1` equal values `c` followed by `c'`. -/
theorem Fp.gsl_stats_mean_run (R : Rounding F) (c c' d₁ d₂ m' : F) (μ : Dbl F) (k : Nat)
    (h0 : R.ldbl 0 = fin 0) (hc : R.ldbl c = fin c)
    (h1 : R.ldbl (c' - c) = fin d₁) (h2 : R.ldbl (d₁ / (((k + 1 : Nat) : F) + 1)) = fin d₂)
    (h3 : R.ldbl (c + d₂) = fin m') (h4 : R.dbl m' = μ) :
    Fp.gsl_stats_mean R (List.replicate (k + 1) c ++ [c']) = μ := by
  have hk : ((((k + 1 : Nat) : F)) + 1) ≠ 0 := by positivity
  unfold Fp.gsl_stats_mean
  rw [List.replicate_succ, List.cons_append, Fp.meanLoop_first R c hc,
    Fp.meanLoop_replicate R c h0 hc [c'] k 1]
  have e : 1 + k = k + 1 := by omega
  rw [e]
  simp only [Fp.meanLoop, Fp.lsub, Fp.ldiv, Fp.ladd, Dbl.sub, Dbl.neg, Dbl.add, Dbl.round,
    ← sub_eq_add_neg, h1, Dbl.div_fin_fin _ _ hk, h2, h3, h4]

/-- The first pass of the loop of the variance. -/
theorem Fp.varianceLoop_first (R : Rounding F) (μ c δ w : F) (hδ : R.dbl (c - μ) = fin δ)
    (hw : R.ldbl (δ * δ) = fin w) (hww : R.ldbl w = fin w) (rest : List F) :
    Fp.varianceLoop R (fin μ) (c :: rest) 0 (fin 0)
      = Fp.varianceLoop R (fin μ) rest 1 (fin w) := by
  simp only [Fp.varianceLoop, Fp.sub, Fp.lsub, Fp.ldiv, Fp.ladd, Fp.lmul, Dbl.sub, Dbl.neg,
    Dbl.add, Dbl.mul, Dbl.round, ← sub_eq_add_neg, hδ, hw, neg_zero, add_zero, zero_add,
    Nat.cast_zero, hww, Dbl.div_fin_fin _ _ (one_ne_zero), div_one]

/-- A pass of the loop of the variance over a value whose squared deviation equals
the accumulator. -/
theorem Fp.varianceLoop_replicate (R : Rounding F) (μ c δ w : F) (h0 : R.ldbl 0 = fin 0)
    (hδ : R.dbl (c - μ) = fin δ) (hw : R.ldbl (δ * δ) = fin w) (hww : R.ldbl w = fin w)
    (rest : List F) :
    ∀ (k i : Nat), Fp.varianceLoop R (fin μ) (List.replicate k c ++ rest) i (fin w)
      = Fp.varianceLoop R (fin μ) rest (i + k) (fin w) := by
  intro k
  induction k with
  | zero => intro i; simp
  | succ j ih =>
      intro i
      have hi : ((i : F) + 1) ≠ 0 := by positivity
      rw [List.replicate_succ, List.cons_append]
      simp only [Fp.varianceLoop, Fp.sub, Fp.lsub, Fp.ldiv, Fp.ladd, Fp.lmul, Dbl.sub, Dbl.neg,
        Dbl.add, Dbl.mul, Dbl.round, ← sub_eq_add_neg, hδ, hw, sub_self, h0,
        Dbl.div_fin_fin _ _ hi, zero_div, add_zero, hww]
      rw [ih (i + 1)]
      congr 1
      omega

/-- The standard deviation of GSL on `k + 1` equal values `c` followed by `c'`,
for the mean `μ`. -/
theorem Fp.gsl_stats_sd_run (R : Rounding F) (lib : Numerics F)
    (c c' μ δ w δ' w' u₁ u₂ v' v ρ V : F) (s : Dbl F) (k : Nat)
    (hmean : Fp.gsl_stats_mean R (List.replicate (k + 1) c ++ [c']) = fin μ)
    (h0 : R.ldbl 0 = fin 0)
    (hδ : R.dbl (c - μ) = fin δ) (hw : R.ldbl (δ * δ) = fin w) (hww : R.ldbl w = fin w)
    (hδ' : R.dbl (c' - μ) = fin δ') (hw' : R.ldbl (δ' * δ') = fin w')
    (h1 : R.ldbl (w' - w) = fin u₁) (h2 : R.ldbl (u₁ / (((k + 1 : Nat) : F) + 1)) = fin u₂)
    (h3 : R.ldbl (w + u₂) = fin v') (h4 : R.dbl v' = fin v)
    (hρ : R.dbl ((((k + 1 + 1 : Nat) : F)) / ((k + 1 : Nat) : F)) = fin ρ)
    (hV : R.dbl (v * ρ) = fin V) (hs : lib.sqrt V = s) :
    Fp.gsl_stats_sd R lib (List.replicate (k + 1) c ++ [c']) = s := by
  have hk : ((((k + 1 : Nat) : F)) + 1) ≠ 0 := by positivity
  have hk1 : (((k + 1 : Nat) : F)) ≠ 0 := by positivity
  have hlen : (List.replicate (k + 1) c ++ [c']).length = k + 1 + 1 := by simp
  unfold Fp.gsl_stats_sd
  simp only [hmean, hlen]
  rw [List.replicate_succ, List.cons_append, Fp.varianceLoop_first R μ c δ w hδ hw hww,
    Fp.varianceLoop_replicate R μ c δ w h0 hδ hw hww [c'] k 1]
  have e : 1 + k = k + 1 := by omega
  rw [e]
  have e2 : k + 1 + 1 - 1 = k + 1 := by omega
  simp only [Fp.varianceLoop, Fp.sub, Fp.lsub, Fp.ldiv, Fp.ladd, Fp.lmul, Fp.mul, Fp.div,
    Dbl.sub, Dbl.neg, Dbl.add, Dbl.mul, Dbl.round, ← sub_eq_add_neg, hδ', hw', h1,
    Dbl.div_fin_fin _ _ hk, h2, h3, h4, e2, Dbl.div_fin_fin _ _ hk1, hρ, hV, sqrtD, hs]

/-! ## The loop of the normality test in floating-point arithmetic -/

/-- When every value of `diff` met by the loop is finite, the loop returns the
greatest of the initial value and these values. -/
theorem Fp.ksLoop_max (R : Rounding F) (lib : Numerics F) (n : Nat) (mean stddev : Dbl F)
    (l : List F) :
    ∀ (i : Nat) (d : F),
      (∀ j v, l[j]? = some v → ∃ t, Fp.ksTerm R lib n mean stddev (i + j) v = fin t) →
      ∃ D, Fp.ksLoop R lib n mean stddev l i (fin d) = fin D ∧ d ≤ D ∧
        (∀ j v t, l[j]? = some v → Fp.ksTerm R lib n mean stddev (i + j) v = fin t → t ≤ D) ∧
        (D = d ∨ ∃ j v, l[j]? = some v ∧ Fp.ksTerm R lib n mean stddev (i + j) v = fin D) := by
  induction l with
  | nil =>
      intro i d _
      exact ⟨d, rfl, le_refl _, by simp, Or.inl rfl⟩
  | cons w rest ih =>
      intro i d hfin
      obtain ⟨t₀, ht₀⟩ := hfin 0 w (by simp)
      simp only [add_zero] at ht₀
      have hrest : ∀ j v, rest[j]? = some v →
          ∃ t, Fp.ksTerm R lib n mean stddev (i + 1 + j) v = fin t := by
        intro j v hj
        have := hfin (j + 1) v (by simpa using hj)
        have e : i + (j + 1) = i + 1 + j := by omega
        rwa [e] at this
      obtain ⟨D, hD, hd, hall, hatt⟩ := ih (i + 1) (max d t₀) hrest
      have hstep : Fp.ksLoop R lib n mean stddev (w :: rest) i (fin d)
          = Fp.ksLoop R lib n mean stddev rest (i + 1) (fin (max d t₀)) := by
        simp only [Fp.ksLoop, ht₀, Dbl.lt_fin_fin]
        by_cases h : d < t₀
        · simp only [h, decide_True, if_true, max_eq_right (le_of_lt h)]
        · simp only [h, decide_False, max_eq_left (not_lt.mp h)]
          rw [if_neg (by simp)]
      refine ⟨D, by rw [hstep, hD], le_trans (le_max_left _ _) hd, ?_, ?_⟩
      · intro j v t hj ht
        cases j with
        | zero =>
            simp only [List.getElem?_cons_zero, Option.some.injEq] at hj
            subst hj
            simp only [add_zero] at ht
            rw [ht₀] at ht
            cases ht
            exact le_trans (le_max_right _ _) hd
        | succ j' =>
            simp only [List.getElem?_cons_succ] at hj
            have e : i + (j' + 1) = i + 1 + j' := by omega
            rw [e] at ht
            exact hall j' v t hj ht
      · rcases hatt with h | ⟨j, v, hj, h⟩
        · rcases max_choice d t₀ with hm | hm
          · left
            rw [h, hm]
          · right
            refine ⟨0, w, by simp, ?_⟩
            simp only [add_zero]
            rw [h, hm, ht₀]
        · right
          refine ⟨j + 1, v, by simpa using hj, ?_⟩
          have e : i + (j + 1) = i + 1 + j := by omega
          rw [e]
          exact h

/-- The standardised value of line 22 is not `NaN` when the mean is finite and the
standard deviation is finite and not zero. -/
theorem Fp.standardised_ne_nan (R : Rounding F) (m s v : F) (hs : s ≠ 0)
    (hnn : ∀ x, R.dbl x ≠ nan) :
    Fp.div R (Fp.sub R (fin v) (fin m)) (fin s) ≠ nan := by
  simp only [Fp.div, Fp.sub, Dbl.sub, Dbl.neg, Dbl.add, Dbl.round]
  cases h : R.dbl (v + -m) with
  | fin a => simp only [Dbl.div_fin_fin _ _ hs, Dbl.round]; exact hnn _
  | pinf =>
      simp only [Dbl.div]
      by_cases h0 : 0 ≤ s
      · simp [h0, Dbl.round]
      · simp [h0, Dbl.round]
  | ninf =>
      simp only [Dbl.div]
      by_cases h0 : 0 ≤ s
      · simp [h0, Dbl.round]
      · simp [h0, Dbl.round]
  | nan => exact absurd h (hnn _)

/-- The value of the distribution function is finite and in `[0, 1]` away from `NaN`. -/
theorem ugaussianP_fin (lib : Numerics F) (z : Dbl F) (hz : z ≠ nan)
    (hP : ∀ x, 0 ≤ lib.gsl_cdf_ugaussian_P x ∧ lib.gsl_cdf_ugaussian_P x ≤ 1) :
    ∃ φ, ugaussianP lib z = fin φ ∧ 0 ≤ φ ∧ φ ≤ 1 := by
  cases z with
  | fin x => exact ⟨_, rfl, (hP x).1, (hP x).2⟩
  | pinf => exact ⟨1, rfl, by norm_num, le_refl _⟩
  | ninf => exact ⟨0, rfl, le_refl _, by norm_num⟩
  | nan => exact absurd rfl hz

/-- Every value of `diff` is finite when the mean is finite and the standard
deviation is finite and not zero. -/
theorem Fp.ksTerm_fin (R : Rounding F) (lib : Numerics F) (n : Nat) (m s : F) (i : Nat) (v : F)
    (hi : i < n) (hs : s ≠ 0) (hnn : ∀ x, R.dbl x ≠ nan)
    (hunit : ∀ x, |x| ≤ 1 → ∃ y, R.dbl x = fin y ∧ |y| ≤ 1)
    (htwo : ∀ x, |x| ≤ 2 → ∃ y, R.dbl x = fin y)
    (hnat : ∀ j : Nat, j ≤ n → R.dbl (j : F) = fin (j : F))
    (hP : ∀ x, 0 ≤ lib.gsl_cdf_ugaussian_P x ∧ lib.gsl_cdf_ugaussian_P x ≤ 1) :
    ∃ t, Fp.ksTerm R lib n (fin m) (fin s) i v = fin t ∧ 0 ≤ t := by
  obtain ⟨φ, hφ, hφ0, hφ1⟩ := ugaussianP_fin lib _ (Fp.standardised_ne_nan R m s v hs hnn) hP
  have hn0 : (n : F) ≠ 0 := by
    have : 0 < n := by omega
    positivity
  have hcast : (i : F) + 1 = ((i + 1 : Nat) : F) := by push_cast; ring
  have hq0 : (0 : F) ≤ ((i + 1 : Nat) : F) / (n : F) := by positivity
  have hq1 : ((i + 1 : Nat) : F) / (n : F) ≤ 1 := by
    rw [div_le_one (by positivity)]
    exact_mod_cast hi
  obtain ⟨e, he, he1⟩ := hunit (((i + 1 : Nat) : F) / (n : F)) (by rw [abs_of_nonneg hq0]; exact hq1)
  have hbound : |φ - e| ≤ 2 := by
    have := abs_le.mp he1
    rw [abs_le]
    constructor <;> linarith [this.1, this.2]
  obtain ⟨y, hy⟩ := htwo (φ - e) hbound
  refine ⟨|y|, ?_, abs_nonneg _⟩
  simp only [Fp.ksTerm, hφ]
  simp only [Fp.add, Fp.div, Fp.sub, Dbl.add, Dbl.sub, Dbl.neg, Dbl.round, hcast,
    hnat (i + 1) (by omega), Dbl.div_fin_fin _ _ hn0, he, ← sub_eq_add_neg, hy, Dbl.abs]

/-- The value of `diff` at index `i` is the term of rank `i + 1`. -/
theorem Fp.ksTerm_eq_rank (R : Rounding F) (lib : Numerics F) (n : Nat) (μ σ : Dbl F)
    (i : Nat) (v : F) (hi : R.dbl ((i + 1 : Nat) : F) = fin ((i + 1 : Nat) : F)) :
    Fp.ksTerm R lib n μ σ i v
      = Dbl.abs (Fp.sub R (ugaussianP lib (Fp.div R (Fp.sub R (fin v) μ) σ))
          (Fp.div R (fin ((i + 1 : Nat) : F)) (fin (n : F)))) := by
  have hcast : (i : F) + 1 = ((i + 1 : Nat) : F) := by push_cast; ring
  simp only [Fp.ksTerm, Fp.add, Dbl.add, Dbl.round, hcast, hi]

/-- The function on a list that is already sorted, from the computed mean,
standard deviation and critical value. -/
theorem Fp.isNormallyDistributed_eq (R : Rounding F) (lib : Numerics F) (data : List F)
    (α μ σ : Dbl F) (hne : data ≠ [])
    (hmean : Fp.gsl_stats_mean R (data.insertionSort (· ≤ ·)) = μ)
    (hsd : Fp.gsl_stats_sd R lib (data.insertionSort (· ≤ ·)) = σ) :
    Fp.isNormallyDistributed R lib data α
      = Dbl.le (Fp.ksLoop R lib data.length μ σ (data.insertionSort (· ≤ ·)) 0 (fin 0))
          (Fp.criticalValue R lib data.length α) := by
  have hempty : data.isEmpty = false := by
    cases data with
    | nil => exact absurd rfl hne
    | cons a t => rfl
  simp only [Fp.isNormallyDistributed, hempty, hmean, hsd, List.length_insertionSort]
  simp

/-- The critical value of line 32 from its intermediate results. -/
theorem Fp.criticalValue_eval (R : Rounding F) (lib : Numerics F) (n : Nat)
    (α a p q s κ : F) (ha : R.dbl (α / 2) = fin a) (hp : R.dbl (1 - a) = fin p)
    (hq : lib.gsl_cdf_ugaussian_Pinv p = fin q) (hs : lib.sqrt (n : F) = fin s) (hs0 : s ≠ 0)
    (hκ : R.dbl (q / s) = fin κ) :
    Fp.criticalValue R lib n (fin α) = fin κ := by
  simp only [Fp.criticalValue, Fp.div, Fp.sub, Dbl.sub, Dbl.neg, Dbl.add, Dbl.round,
    Dbl.div_fin_fin α 2 two_ne_zero, ha, ← sub_eq_add_neg, hp, Fp.ugaussianPinv, hq, hs,
    Dbl.div_fin_fin _ _ hs0, hκ]

/-- The value of `diff` at index `i` from its intermediate results. -/
theorem Fp.ksTerm_eval (R : Rounding F) (lib : Numerics F) (n : Nat) (μ s : F) (i : Nat)
    (v δ ζ φ e t : F) (hn : (n : F) ≠ 0) (hs : s ≠ 0)
    (hδ : R.dbl (v - μ) = fin δ) (hζ : R.dbl (δ / s) = fin ζ)
    (hφ : lib.gsl_cdf_ugaussian_P ζ = φ)
    (hi : R.dbl ((i : F) + 1) = fin ((i : F) + 1))
    (he : R.dbl (((i : F) + 1) / (n : F)) = fin e) (ht : R.dbl (φ - e) = fin t) :
    Fp.ksTerm R lib n (fin μ) (fin s) i v = fin |t| := by
  simp only [Fp.ksTerm, Fp.add, Fp.div, Fp.sub, Dbl.add, Dbl.sub, Dbl.neg, Dbl.round,
    ← sub_eq_add_neg, hδ, Dbl.div_fin_fin _ _ hs, hζ, ugaussianP, hφ, hi,
    Dbl.div_fin_fin _ _ hn, he, ht, Dbl.abs]

/-- The entries of a constant run followed by one value. -/
theorem run_getElem? {α : Type} (k : Nat) (c c' : α) (j : Nat) (v : α)
    (h : (List.replicate k c ++ [c'])[j]? = some v) : (j < k ∧ v = c) ∨ (j = k ∧ v = c') := by
  by_cases hj : j < k
  · left
    rw [List.getElem?_append_left (by simpa using hj)] at h
    have hmem : v ∈ List.replicate k c := by
      obtain ⟨hlt, hv⟩ := List.getElem?_eq_some_iff.mp h
      rw [← hv]
      exact List.getElem_mem hlt
    exact ⟨hj, List.eq_of_mem_replicate hmem⟩
  · right
    rw [List.getElem?_append_right (by simpa using hj)] at h
    simp only [List.length_replicate] at h
    cases hjk : j - k with
    | zero =>
        rw [hjk] at h
        simp only [List.getElem?_cons_zero, Option.some.injEq] at h
        exact ⟨by omega, h.symm⟩
    | succ n =>
        rw [hjk] at h
        simp at h

/-- The normality test accepts a constant run followed by a larger value when
every value of `diff` is at most `B` and `B` is at most the critical value. -/
theorem Fp.isNormallyDistributed_run_true (R : Rounding F) (lib : Numerics F)
    (c c' μ s κ B : F) (α : Dbl F) (k : Nat) (hcc : c ≤ c')
    (hmean : Fp.gsl_stats_mean R (List.replicate (k + 1) c ++ [c']) = fin μ)
    (hsd : Fp.gsl_stats_sd R lib (List.replicate (k + 1) c ++ [c']) = fin s)
    (hcrit : Fp.criticalValue R lib (k + 1 + 1) α = fin κ) (hB0 : 0 ≤ B) (hBκ : B ≤ κ)
    (hrun : ∀ j, j < k + 1 →
      ∃ t, Fp.ksTerm R lib (k + 1 + 1) (fin μ) (fin s) j c = fin t ∧ t ≤ B)
    (hlast : ∃ t, Fp.ksTerm R lib (k + 1 + 1) (fin μ) (fin s) (k + 1) c' = fin t ∧ t ≤ B) :
    Fp.isNormallyDistributed R lib (List.replicate (k + 1) c ++ [c']) α = true := by
  have hsort := insertionSort_replicate_append c c' hcc (k + 1)
  have hlen : (List.replicate (k + 1) c ++ [c']).length = k + 1 + 1 := by simp
  have hterm : ∀ j v, (List.replicate (k + 1) c ++ [c'])[j]? = some v →
      ∃ t, Fp.ksTerm R lib (k + 1 + 1) (fin μ) (fin s) (0 + j) v = fin t ∧ t ≤ B := by
    intro j v hj
    rw [zero_add]
    rcases run_getElem? (k + 1) c c' j v hj with ⟨h1, h2⟩ | ⟨h1, h2⟩
    · rw [h2]
      exact hrun j h1
    · rw [h1, h2]
      exact hlast
  obtain ⟨D, hD, _, _, hatt⟩ := Fp.ksLoop_max R lib (k + 1 + 1) (fin μ) (fin s)
    (List.replicate (k + 1) c ++ [c']) 0 0
    (fun j v hj => (hterm j v hj).imp (fun _ h => h.1))
  have hDB : D ≤ B := by
    rcases hatt with h | ⟨j, v, hj, h⟩
    · rw [h]
      exact hB0
    · obtain ⟨t, ht, htB⟩ := hterm j v hj
      rw [h] at ht
      cases ht
      exact htB
  rw [Fp.isNormallyDistributed_eq R lib _ α (fin μ) (fin s) (by simp)
    (by rw [hsort]; exact hmean) (by rw [hsort]; exact hsd), hsort, hlen, hD, hcrit,
    Dbl.le_fin_fin]
  exact decide_eq_true (le_trans hDB hBκ)

/-- The normality test rejects a constant run followed by a larger value when
every value of `diff` is finite and one of them exceeds the critical value. -/
theorem Fp.isNormallyDistributed_run_false (R : Rounding F) (lib : Numerics F)
    (c c' μ s κ t₀ : F) (α : Dbl F) (k j₀ : Nat) (hcc : c ≤ c')
    (hmean : Fp.gsl_stats_mean R (List.replicate (k + 1) c ++ [c']) = fin μ)
    (hsd : Fp.gsl_stats_sd R lib (List.replicate (k + 1) c ++ [c']) = fin s)
    (hcrit : Fp.criticalValue R lib (k + 1 + 1) α = fin κ)
    (hfin : ∀ j v, j < k + 1 + 1 →
      ∃ t, Fp.ksTerm R lib (k + 1 + 1) (fin μ) (fin s) j v = fin t)
    (hj₀ : j₀ < k + 1) (ht₀ : Fp.ksTerm R lib (k + 1 + 1) (fin μ) (fin s) j₀ c = fin t₀)
    (hκ : κ < t₀) :
    Fp.isNormallyDistributed R lib (List.replicate (k + 1) c ++ [c']) α = false := by
  have hsort := insertionSort_replicate_append c c' hcc (k + 1)
  have hlen : (List.replicate (k + 1) c ++ [c']).length = k + 1 + 1 := by simp
  have hterm : ∀ j v, (List.replicate (k + 1) c ++ [c'])[j]? = some v →
      ∃ t, Fp.ksTerm R lib (k + 1 + 1) (fin μ) (fin s) (0 + j) v = fin t := by
    intro j v hj
    rw [zero_add]
    have := (List.getElem?_eq_some_iff.mp hj).1
    rw [hlen] at this
    exact hfin j v this
  obtain ⟨D, hD, _, hall, _⟩ := Fp.ksLoop_max R lib (k + 1 + 1) (fin μ) (fin s)
    (List.replicate (k + 1) c ++ [c']) 0 0 hterm
  have hget : (List.replicate (k + 1) c ++ [c'])[j₀]? = some c := by
    rw [List.getElem?_append_left (by simpa using hj₀)]
    simp [List.getElem?_replicate, hj₀]
  have hle := hall j₀ c t₀ hget (by rw [zero_add]; exact ht₀)
  rw [Fp.isNormallyDistributed_eq R lib _ α (fin μ) (fin s) (by simp)
    (by rw [hsort]; exact hmean) (by rw [hsort]; exact hsd), hsort, hlen, hD, hcrit,
    Dbl.le_fin_fin]
  exact decide_eq_false (not_le.mpr (lt_of_lt_of_le hκ hle))

/-- The magnitude of a vector from the intermediate results of line 87. -/
theorem Fp.magnitude_eval (R : Rounding F) (lib : Numerics F) (x y z sx sy sz s₁ s₂ : F)
    (m : Dbl F) (hx : R.dbl (x * x) = fin sx) (hy : R.dbl (y * y) = fin sy)
    (hz : R.dbl (z * z) = fin sz) (h₁ : R.dbl (sx + sy) = fin s₁)
    (h₂ : R.dbl (s₁ + sz) = fin s₂) (hs : lib.sqrt s₂ = m) :
    Fp.magnitude R lib ⟨x, y, z⟩ = m := by
  simp only [Fp.magnitude, Fp.dotProd, Fp.mul, Fp.add, Dbl.mul, Dbl.add, Dbl.round, hx, hy, hz,
    h₁, h₂, sqrtD, hs]

/-- The cosine and the angle from the computed magnitude and the intermediate
results of lines 90-94. -/
theorem Fp.angleBetweenPlanes_eval (R : Rounding F) (lib : Numerics F) (n : Vec3 F)
    (m c r k a : F) (h0 : R.dbl 0 = fin 0) (h1 : R.dbl 1 = fin 1) (hy : R.dbl n.y = fin n.y)
    (hone : lib.sqrt 1 = fin 1) (hmag : Fp.magnitude R lib n = fin m) (hm0 : m ≠ 0)
    (hmm : R.dbl m = fin m) (hc : R.dbl (n.y / m) = fin c) (hr : lib.acos c = fin r)
    (hpi : lib.M_PI ≠ 0) (hk : R.dbl (180 / lib.M_PI) = fin k) (ha : R.dbl (r * k) = fin a) :
    Fp.cosAngle R lib n = fin c ∧ Fp.angleBetweenPlanes R lib n = fin a := by
  have hcos : Fp.cosAngle R lib n = fin c := by
    rw [Fp.cosAngle_eq R lib n h0 h1 hy hone, hmag]
    simp only [Fp.mul, Fp.div, Dbl.mul, Dbl.round, mul_one, hmm, Dbl.div_fin_fin _ _ hm0, hc]
  refine ⟨hcos, ?_⟩
  simp only [Fp.angleBetweenPlanes, hcos, acosD, hr, Fp.div, Fp.mul, Dbl.div_fin_fin _ _ hpi,
    Dbl.round, hk, Dbl.mul, ha]

/-! ## The opposite normal in floating-point arithmetic -/

theorem Dbl.neg_neg (a : Dbl F) : Dbl.neg (Dbl.neg a) = a := by
  cases a <;> simp [Dbl.neg]

theorem Dbl.round_fin {α : Type} (r : α → Dbl α) (x : α) : Dbl.round r (fin x) = r x := rfl

theorem Dbl.round_exact {α : Type} (a : Dbl α) : Dbl.round (fun x : α => fin x) a = a := by
  cases a <;> rfl

theorem exact_add (a b : Dbl F) : Fp.add Rounding.exact a b = Dbl.add a b :=
  Dbl.round_exact _

theorem exact_sub (a b : Dbl F) : Fp.sub Rounding.exact a b = Dbl.sub a b :=
  Dbl.round_exact _

theorem exact_mul (a b : Dbl F) : Fp.mul Rounding.exact a b = Dbl.mul a b :=
  Dbl.round_exact _

theorem exact_div (a b : Dbl F) : Fp.div Rounding.exact a b = Dbl.div a b :=
  Dbl.round_exact _

theorem exact_ladd (a b : Dbl F) : Fp.ladd Rounding.exact a b = Dbl.add a b :=
  Dbl.round_exact _

theorem exact_lsub (a b : Dbl F) : Fp.lsub Rounding.exact a b = Dbl.sub a b :=
  Dbl.round_exact _

theorem exact_lmul (a b : Dbl F) : Fp.lmul Rounding.exact a b = Dbl.mul a b :=
  Dbl.round_exact _

theorem exact_ldiv (a b : Dbl F) : Fp.ldiv Rounding.exact a b = Dbl.div a b :=
  Dbl.round_exact _

/-- The difference of two finite values. -/
theorem Dbl.sub_fin_fin (x y : F) : Dbl.sub (fin x) (fin y) = fin (x - y) := by
  simp [Dbl.sub, Dbl.neg, Dbl.add, sub_eq_add_neg]

/-- The sum of two finite values. -/
theorem Dbl.add_fin_fin (x y : F) : Dbl.add (fin x) (fin y) = fin (x + y) := rfl

/-- Without rounding the recurrence of the mean keeps `mean = (sum so far) / i`. -/
theorem exact_meanLoop (l : List F) :
    ∀ (i : Nat) (m : F), (i = 0 → m = 0) →
      Fp.meanLoop Rounding.exact l i (fin m)
        = fin ((m * (i : F) + l.sum) / ((i : F) + (l.length : F))) := by
  induction l with
  | nil =>
      intro i m h
      simp only [Fp.meanLoop, List.sum_nil, List.length_nil, Nat.cast_zero, add_zero]
      congr 1
      by_cases hi : i = 0
      · rw [h hi, hi]
        simp
      · have : (i : F) ≠ 0 := by exact_mod_cast hi
        field_simp
  | cons x rest ih =>
      intro i m _
      have hi : ((i : F) + 1) ≠ 0 := by positivity
      simp only [Fp.meanLoop, exact_lsub, exact_ldiv, exact_ladd, Dbl.sub_fin_fin,
        Dbl.div_fin_fin _ _ hi, Dbl.add_fin_fin]
      rw [ih (i + 1) _ (by omega)]
      congr 1
      have hden : ((i : F) + ((rest.length : F) + 1)) ≠ 0 := by positivity
      simp only [List.sum_cons, List.length_cons, Nat.cast_add, Nat.cast_one]
      field_simp
      ring

/-- Without rounding `gsl_stats_mean` is the arithmetic mean. -/
theorem exact_gsl_stats_mean (data : List F) :
    Fp.gsl_stats_mean Rounding.exact data = fin (gsl_stats_mean data) := by
  unfold Fp.gsl_stats_mean gsl_stats_mean
  rw [exact_meanLoop data 0 0 (fun _ => rfl)]
  simp [Rounding.exact, Dbl.round]

/-- Without rounding the recurrence of the variance keeps
`variance = (sum of the squared deviations so far) / i`. -/
theorem exact_varianceLoop (μ : F) (l : List F) :
    ∀ (i : Nat) (v : F), (i = 0 → v = 0) →
      Fp.varianceLoop Rounding.exact (fin μ) l i (fin v)
        = fin ((v * (i : F) + (l.map (fun x => (x - μ) * (x - μ))).sum)
            / ((i : F) + (l.length : F))) := by
  induction l with
  | nil =>
      intro i v h
      simp only [Fp.varianceLoop, List.map_nil, List.sum_nil, List.length_nil, Nat.cast_zero,
        add_zero]
      congr 1
      by_cases hi : i = 0
      · rw [h hi, hi]
        simp
      · have : (i : F) ≠ 0 := by exact_mod_cast hi
        field_simp
  | cons x rest ih =>
      intro i v _
      have hi : ((i : F) + 1) ≠ 0 := by positivity
      simp only [Fp.varianceLoop, exact_sub, exact_lsub, exact_ldiv, exact_ladd,
        exact_lmul, Dbl.sub_fin_fin, Dbl.mul_fin_fin, Dbl.div_fin_fin _ _ hi,
        Dbl.add_fin_fin]
      rw [ih (i + 1) _ (by omega)]
      congr 1
      have hden : ((i : F) + ((rest.length : F) + 1)) ≠ 0 := by positivity
      simp only [List.map_cons, List.sum_cons, List.length_cons, Nat.cast_add, Nat.cast_one]
      field_simp
      ring

/-- Without rounding `gsl_stats_sd` is the square root of the variance with
denominator `n - 1`. -/
theorem exact_gsl_stats_sd (lib : Numerics F) (data : List F) (hne : data ≠ []) :
    Fp.gsl_stats_sd Rounding.exact lib data = gsl_stats_sd lib data := by
  unfold Fp.gsl_stats_sd gsl_stats_sd
  simp only [exact_gsl_stats_mean, exact_varianceLoop _ data 0 0 (fun _ => rfl)]
  have hround : ∀ x : F, Dbl.round Rounding.exact.dbl (fin x) = fin x := fun _ => rfl
  simp only [hround, exact_mul, exact_div, zero_mul, zero_add, Nat.cast_zero]
  have hS : (data.map (fun x => (x - gsl_stats_mean data) * (x - gsl_stats_mean data))).sum
      = sumSqDev data := rfl
  rw [hS]
  congr 1
  obtain ⟨a, t, rfl⟩ := List.exists_cons_of_ne_nil hne
  cases t with
  | nil =>
      have h0 : sumSqDev [a] = 0 := by
        simp [sumSqDev, gsl_stats_mean]
      simp [h0, Dbl.div, Dbl.mul, Dbl.infOfSign]
  | cons b u =>
      have hlen : ((a :: b :: u).length : F) = (u.length : F) + 1 + 1 := by
        simp
      have hlen1 : (((a :: b :: u).length - 1 : Nat) : F) = (u.length : F) + 1 := by
        simp
      have h1 : ((u.length : F) + 1) ≠ 0 := by positivity
      have h2 : ((u.length : F) + 1 + 1) ≠ 0 := by positivity
      have h3 : ((u.length : F) + 1 + 1 - 1) ≠ 0 := by
        have : (u.length : F) + 1 + 1 - 1 = (u.length : F) + 1 := by ring
        rw [this]
        exact h1
      rw [hlen, hlen1, Dbl.div_fin_fin _ _ h1, Dbl.mul_fin_fin, Dbl.div_fin_fin _ _ h3]
      congr 1
      field_simp

/-- Without rounding the loop of the normality test is the loop of the exact
program. -/
theorem exact_ksLoop (lib : Numerics F) (n : Nat) (hn : n ≠ 0) (μ : F) (σ : Dbl F)
    (l : List F) :
    ∀ (i : Nat) (D : Dbl F),
      Fp.ksLoop Rounding.exact lib n (fin μ) σ l i D = ksLoop lib n μ σ l i D := by
  have hn' : (n : F) ≠ 0 := by exact_mod_cast hn
  induction l with
  | nil => intro i D; rfl
  | cons v rest ih =>
      intro i D
      simp only [Fp.ksLoop, ksLoop, Fp.ksTerm, exact_sub, exact_div, exact_add,
        Dbl.sub_fin_fin, Dbl.add_fin_fin, Dbl.div_fin_fin _ _ hn']
      exact ih (i + 1) _

/-- Without rounding `isNormallyDistributed` is the exact program. -/
theorem exact_isNormallyDistributed (lib : Numerics F) (data : List F) (α : F) :
    Fp.isNormallyDistributed Rounding.exact lib data (fin α)
      = isNormallyDistributed lib data α := by
  cases data with
  | nil => rfl
  | cons a t =>
      have hne : List.insertionSort (fun a b : F => a ≤ b) (a :: t) ≠ [] := by
        intro h0
        have := List.length_insertionSort (fun a b : F => a ≤ b) (a :: t)
        rw [h0] at this
        simp at this
      have hlen : (List.insertionSort (fun a b : F => a ≤ b) (a :: t)).length ≠ 0 := by
        rw [List.length_insertionSort]
        simp
      unfold Fp.isNormallyDistributed isNormallyDistributed
      simp only [exact_gsl_stats_mean, exact_gsl_stats_sd lib _ hne,
        exact_ksLoop lib _ hlen, Fp.criticalValue, exact_div, exact_sub,
        Dbl.div_fin_fin α 2 two_ne_zero, Dbl.sub_fin_fin, Fp.ugaussianPinv]

/-! ## Translation of the cluster in floating-point arithmetic -/

/-- The loop of the variance reads the data through the differences `x - mean`. -/
theorem Fp.varianceLoop_congr (R : Rounding F) (μ μ' : Dbl F) (l : List F) :
    ∀ (l' : List F), l.map (fun x => Fp.sub R (fin x) μ) = l'.map (fun x => Fp.sub R (fin x) μ') →
      ∀ (i : Nat) (v : Dbl F), Fp.varianceLoop R μ l i v = Fp.varianceLoop R μ' l' i v := by
  induction l with
  | nil =>
      intro l' h i v
      cases l' with
      | nil => rfl
      | cons a t => simp at h
  | cons x rest ih =>
      intro l' h i v
      cases l' with
      | nil => simp at h
      | cons a t =>
          simp only [List.map_cons, List.cons.injEq] at h
          simp only [Fp.varianceLoop, h.1]
          exact ih t h.2 (i + 1) _

/-- The loop of the normality test reads the data through the differences
`x - mean`. -/
theorem Fp.ksLoop_congr (R : Rounding F) (lib : Numerics F) (n : Nat) (μ μ' σ : Dbl F)
    (l : List F) :
    ∀ (l' : List F), l.map (fun x => Fp.sub R (fin x) μ) = l'.map (fun x => Fp.sub R (fin x) μ') →
      ∀ (i : Nat) (D : Dbl F),
        Fp.ksLoop R lib n μ σ l i D = Fp.ksLoop R lib n μ' σ l' i D := by
  induction l with
  | nil =>
      intro l' h i D
      cases l' with
      | nil => rfl
      | cons a t => simp at h
  | cons x rest ih =>
      intro l' h i D
      cases l' with
      | nil => simp at h
      | cons a t =>
          simp only [List.map_cons, List.cons.injEq] at h
          simp only [Fp.ksLoop, Fp.ksTerm, h.1]
          exact ih t h.2 (i + 1) _

/-- The normality test reads the data through their number and the differences
`sorted_data[i] - mean`. -/
theorem Fp.isNormallyDistributed_congr (R : Rounding F) (lib : Numerics F) (data data' : List F)
    (α : Dbl F) (hlen : data'.length = data.length)
    (hdev : Fp.deviations R data' = Fp.deviations R data) :
    Fp.isNormallyDistributed R lib data' α = Fp.isNormallyDistributed R lib data α := by
  have hempty : data'.isEmpty = data.isEmpty := by
    cases data <;> cases data' <;> simp at hlen ⊢
  unfold Fp.deviations at hdev
  unfold Fp.isNormallyDistributed Fp.gsl_stats_sd
  simp only [hempty, List.length_insertionSort, hlen]
  rw [Fp.varianceLoop_congr R _ _ _ _ hdev 0 (fin 0)]
  rw [Fp.ksLoop_congr R lib _ _ _ _ _ _ hdev 0 (fin 0)]

/-- The result of `wallDetector` from the normality test and the fitted normal. -/
theorem Fp.wallDetector_eq (R : Rounding F) (lib : Numerics F) (points : List (Vec3 F)) :
    Fp.wallDetector R lib points
      = if !Fp.isNormallyDistributed R lib (points.map Vec3.z) (Fp.defaultSignificance R) then
          some false
        else
          ((Fp.centredMatrix R points).bind (fun A => (lib.jacobiSvdV A)[2]?)).map
            (fun normal => inWallRange (Fp.angleBetweenPlanes R lib normal)) := by
  unfold Fp.wallDetector Fp.findMinimizingPlane
  cases hN : Fp.isNormallyDistributed R lib (points.map Vec3.z) (Fp.defaultSignificance R) with
  | false => simp [hN]
  | true =>
      cases hA : Fp.centredMatrix R points with
      | none => simp [hN, hA]
      | some A =>
          cases hV : (lib.jacobiSvdV A)[2]? with
          | none => simp [hN, hA, hV]
          | some normal => simp [hN, hA, hV]

/-- Clusters with the same number of points, the same differences
`sorted_data[i] - mean` of the z-coordinates and the same centred matrix get the
same result. -/
theorem Fp.wallDetector_congr (R : Rounding F) (lib : Numerics F) (points points' : List (Vec3 F))
    (hlen : points'.length = points.length)
    (hdev : Fp.deviations R (points'.map Vec3.z) = Fp.deviations R (points.map Vec3.z))
    (hA : Fp.centredMatrix R points' = Fp.centredMatrix R points) :
    Fp.wallDetector R lib points' = Fp.wallDetector R lib points := by
  rw [Fp.wallDetector_eq, Fp.wallDetector_eq, hA,
    Fp.isNormallyDistributed_congr R lib (points.map Vec3.z) (points'.map Vec3.z) _
      (by simpa using hlen) hdev]

/-- Without rounding the sum of a column is the sum of its entries. -/
theorem exact_sumCol (l : List F) : Fp.sumCol Rounding.exact l = fin l.sum := by
  cases l with
  | nil => rfl
  | cons x rest =>
      have : ∀ (t : List F) (a : F),
          t.foldl (fun acc y => Fp.add Rounding.exact acc (fin y)) (fin a) = fin (a + t.sum) := by
        intro t
        induction t with
        | nil => intro a; simp
        | cons y u ih =>
            intro a
            rw [List.foldl_cons, exact_add, Dbl.add_fin_fin, ih, List.sum_cons, add_assoc]
      simp only [Fp.sumCol, this, List.sum_cons]

/-- Without rounding the centred matrix is the matrix of the exact program. -/
theorem exact_centredMatrix (points : List (Vec3 F)) (hne : points ≠ []) :
    Fp.centredMatrix Rounding.exact points = some (centred points) := by
  have hn : ((points.length : F)) ≠ 0 := by
    have : 0 < points.length := List.length_pos.mpr hne
    positivity
  have hrows : ∀ (c : Vec3 F) (l : List (Vec3 F)),
      Fp.centredRows Rounding.exact (fin c.x) (fin c.y) (fin c.z) l
        = some (l.map (fun p => Vec3.sub p c)) := by
    intro c l
    induction l with
    | nil => rfl
    | cons p rest ih =>
        simp only [Fp.centredRows, exact_sub, Dbl.sub_fin_fin, ih, List.map_cons, Vec3.sub]
  unfold Fp.centredMatrix Fp.colMean
  simp only [exact_sumCol, exact_div, List.length_map, Dbl.div_fin_fin _ _ hn]
  exact hrows (centroidOf points) points

/-- Without rounding a shift of the data leaves the differences
`sorted_data[i] - mean` unchanged. -/
theorem exact_deviations_shift (t : F) (data : List F) :
    Fp.deviations Rounding.exact (data.map (fun x => x + t))
      = Fp.deviations Rounding.exact data := by
  cases data with
  | nil => rfl
  | cons a u =>
      have hne : List.insertionSort (fun a b : F => a ≤ b) (a :: u) ≠ [] := by
        intro h0
        have := List.length_insertionSort (fun a b : F => a ≤ b) (a :: u)
        rw [h0] at this
        simp at this
      unfold Fp.deviations
      rw [insertionSort_shift, exact_gsl_stats_mean, exact_gsl_stats_mean,
        gsl_stats_mean_shift t _ hne, List.map_map]
      apply List.map_congr_left
      intro v _
      simp only [Function.comp, exact_sub, Dbl.sub_fin_fin]
      congr 1
      ring

/-- Without rounding a translation of the cluster leaves the centred matrix
unchanged. -/
theorem exact_centredMatrix_shift (t : Vec3 F) (points : List (Vec3 F)) :
    Fp.centredMatrix Rounding.exact (points.map (fun p => Vec3.add p t))
      = Fp.centredMatrix Rounding.exact points := by
  cases points with
  | nil => rfl
  | cons a u =>
      rw [exact_centredMatrix _ (by simp), exact_centredMatrix _ (by simp), centred_shift]

/-! ## The plane fit of a cluster on the plane `x = 0` in floating-point arithmetic -/

/-- The sum of a column with a first entry. -/
theorem Fp.sumCol_cons (R : Rounding F) (x : F) (rest : List F) :
    Fp.sumCol R (x :: rest) = rest.foldl (fun acc y => Fp.add R acc (fin y)) (fin x) := rfl

/-- The sum of a column of zeros is zero. -/
theorem Fp.foldl_add_zeros (R : Rounding F) (h0 : R.dbl 0 = fin 0) (l : List F)
    (hl : ∀ x ∈ l, x = 0) :
    l.foldl (fun acc y => Fp.add R acc (fin y)) (fin 0) = fin 0 := by
  induction l with
  | nil => rfl
  | cons x rest ih =>
      have hx : x = 0 := hl x (List.mem_cons_self _ _)
      rw [List.foldl_cons, hx, Fp.add, Dbl.add_fin_fin, Dbl.round_fin, add_zero, h0]
      exact ih (fun y hy => hl y (List.mem_cons_of_mem _ hy))

/-- The partial sums of a column of ones are the natural numbers, as long as these
are numbers of the format. -/
theorem Fp.foldl_add_ones (R : Rounding F) :
    ∀ (m j : Nat), (∀ i : Nat, i ≤ j + m → R.dbl (i : F) = fin (i : F)) →
      (List.replicate m (1 : F)).foldl (fun acc y => Fp.add R acc (fin y)) (fin (j : F))
        = fin ((j + m : Nat) : F) := by
  intro m
  induction m with
  | zero => intro j _; simp
  | succ m ih =>
      intro j h
      have hstep : R.dbl ((j : F) + 1) = fin (((j + 1 : Nat)) : F) := by
        have := h (j + 1) (by omega)
        push_cast at this ⊢
        exact this
      rw [List.replicate_succ, List.foldl_cons, Fp.add, Dbl.add_fin_fin, Dbl.round_fin, hstep,
        ih (j + 1) (fun i hi => h i (by omega))]
      congr 2
      omega

/-- The mean of a column of `k + 2` ones followed by `c'`. -/
theorem Fp.colMean_ones (R : Rounding F) (k : Nat) (c' S μ : F)
    (hnat : ∀ i : Nat, i ≤ k + 2 → R.dbl (i : F) = fin (i : F))
    (hlast : R.dbl (((k + 2 : Nat) : F) + c') = fin S)
    (hmean : R.dbl (S / ((k + 3 : Nat) : F)) = fin μ) :
    Fp.colMean R (1 :: 1 :: (List.replicate k 1 ++ [c'])) = fin μ := by
  have hlen : (1 :: 1 :: (List.replicate k (1 : F) ++ [c'])).length = k + 3 := by simp
  have hn : ((k + 3 : Nat) : F) ≠ 0 := by positivity
  have hrun := Fp.foldl_add_ones R (k + 1) 1 (fun i hi => hnat i (by omega))
  have h12 : 1 + (k + 1) = k + 2 := by omega
  rw [h12, Nat.cast_one] at hrun
  unfold Fp.colMean
  rw [hlen, Fp.sumCol_cons, ← List.cons_append, ← List.replicate_succ, List.foldl_append, hrun]
  simp only [List.foldl_cons, List.foldl_nil, Fp.add, Fp.div, Dbl.add_fin_fin, Dbl.round_fin,
    hlast, Dbl.div_fin_fin _ _ hn, hmean]

/-- The centred rows of two lists of rows, one after the other. -/
theorem Fp.centredRows_append (R : Rounding F) (cx cy cz : Dbl F) (l₁ l₂ r₁ r₂ : List (Vec3 F))
    (h₁ : Fp.centredRows R cx cy cz l₁ = some r₁) (h₂ : Fp.centredRows R cx cy cz l₂ = some r₂) :
    Fp.centredRows R cx cy cz (l₁ ++ l₂) = some (r₁ ++ r₂) := by
  induction l₁ generalizing r₁ with
  | nil =>
      simp only [Fp.centredRows, Option.some.injEq] at h₁
      subst h₁
      simpa using h₂
  | cons p rest ih =>
      simp only [List.cons_append, Fp.centredRows] at h₁ ⊢
      cases hx : Fp.sub R (fin p.x) cx <;> cases hy : Fp.sub R (fin p.y) cy <;>
        cases hz : Fp.sub R (fin p.z) cz <;> cases hr : Fp.centredRows R cx cy cz rest <;>
        simp [hx, hy, hz, hr] at h₁
      subst h₁
      simp [ih _ hr]

/-- One centred row. -/
theorem Fp.centredRows_cons (R : Rounding F) (cx cy cz : F) (p q : Vec3 F) (l r : List (Vec3 F))
    (hx : R.dbl (p.x - cx) = fin q.x) (hy : R.dbl (p.y - cy) = fin q.y)
    (hz : R.dbl (p.z - cz) = fin q.z)
    (h : Fp.centredRows R (fin cx) (fin cy) (fin cz) l = some r) :
    Fp.centredRows R (fin cx) (fin cy) (fin cz) (p :: l) = some (q :: r) := by
  simp only [Fp.centredRows, Fp.sub, Dbl.sub_fin_fin, Dbl.round_fin, hx, hy, hz, h]

/-- The centred rows of `k` equal rows. -/
theorem Fp.centredRows_replicate (R : Rounding F) (cx cy cz : F) (p q : Vec3 F)
    (hx : R.dbl (p.x - cx) = fin q.x) (hy : R.dbl (p.y - cy) = fin q.y)
    (hz : R.dbl (p.z - cz) = fin q.z) (k : Nat) :
    Fp.centredRows R (fin cx) (fin cy) (fin cz) (List.replicate k p)
      = some (List.replicate k q) := by
  induction k with
  | zero => rfl
  | succ k ih =>
      rw [List.replicate_succ, List.replicate_succ]
      exact Fp.centredRows_cons R cx cy cz p q _ _ hx hy hz ih

/-- The centred matrix of the cluster `(0, 1, c)`, `(0, -1, c)`, `k` points
`(0, 0, c)` and `(0, 0, c')`, from the computed mean `μ` of the z-coordinates and
the computed differences `c - μ` and `c' - μ`. -/
theorem Fp.centredMatrix_cluster (R : Rounding F) (k : Nat) (c c' μ δ δ' : F)
    (h0 : R.dbl 0 = fin 0) (h1 : R.dbl 1 = fin 1) (hm1 : R.dbl (-1) = fin (-1))
    (hμ : Fp.colMean R (c :: c :: (List.replicate k c ++ [c'])) = fin μ)
    (hδ : R.dbl (c - μ) = fin δ) (hδ' : R.dbl (c' - μ) = fin δ') :
    Fp.centredMatrix R (⟨0, 1, c⟩ :: ⟨0, -1, c⟩ :: (List.replicate k ⟨0, 0, c⟩ ++ [⟨0, 0, c'⟩]))
      = some (⟨0, 1, δ⟩ :: ⟨0, -1, δ⟩ :: (List.replicate k ⟨0, 0, δ⟩ ++ [⟨0, 0, δ'⟩])) := by
  have hn : (((k + 3 : Nat) : F)) ≠ 0 := by positivity
  have hz0 : ∀ x ∈ List.replicate k (0 : F) ++ [0], x = 0 := by
    intro x hx
    rcases List.mem_append.mp hx with h | h
    · exact List.eq_of_mem_replicate h
    · simpa using h
  have hz1 : ∀ x ∈ 0 :: (List.replicate k (0 : F) ++ [0]), x = 0 := by
    intro x hx
    rcases List.mem_cons.mp hx with h | h
    · exact h
    · exact hz0 x h
  have hx : Fp.colMean R (0 :: 0 :: (List.replicate k (0 : F) ++ [0])) = fin 0 := by
    have hlen : (0 :: 0 :: (List.replicate k (0 : F) ++ [0])).length = k + 3 := by simp
    unfold Fp.colMean
    rw [hlen, Fp.sumCol_cons, Fp.foldl_add_zeros R h0 _ hz1, Fp.div, Dbl.div_fin_fin _ _ hn, Dbl.round_fin,
      zero_div, h0]
  have hy : Fp.colMean R (1 :: -1 :: (List.replicate k (0 : F) ++ [0])) = fin 0 := by
    have hlen : (1 :: -1 :: (List.replicate k (0 : F) ++ [0])).length = k + 3 := by simp
    unfold Fp.colMean
    rw [hlen, Fp.sumCol_cons, List.foldl_cons, Fp.add, Dbl.add_fin_fin, Dbl.round_fin, add_neg_cancel, h0,
      Fp.foldl_add_zeros R h0 _ hz0, Fp.div, Dbl.div_fin_fin _ _ hn, Dbl.round_fin,
      zero_div, h0]
  unfold Fp.centredMatrix
  simp only [List.map_cons, List.map_append, List.map_replicate, List.map_nil]
  rw [hx, hy, hμ]
  have e0 : R.dbl (0 - 0) = fin 0 := by rw [sub_zero, h0]
  have e1 : R.dbl (1 - 0) = fin 1 := by rw [sub_zero, h1]
  have em : R.dbl (-1 - 0) = fin (-1) := by rw [sub_zero, hm1]
  refine Fp.centredRows_cons R 0 0 μ _ ⟨0, 1, δ⟩ _ _ e0 e1 hδ ?_
  refine Fp.centredRows_cons R 0 0 μ _ ⟨0, -1, δ⟩ _ _ e0 em hδ ?_
  refine Fp.centredRows_append R _ _ _ _ _ _ _
    (Fp.centredRows_replicate R 0 0 μ _ ⟨0, 0, δ⟩ e0 e0 hδ k) ?_
  exact Fp.centredRows_cons R 0 0 μ _ ⟨0, 0, δ'⟩ [] [] e0 e0 hδ' rfl

/-- The result of `wallDetector` when the normality test rejects the
z-coordinates. -/
theorem Fp.wallDetector_of_rejected (R : Rounding F) (lib : Numerics F) (points : List (Vec3 F))
    (h : Fp.isNormallyDistributed R lib (points.map Vec3.z) (Fp.defaultSignificance R) = false) :
    Fp.wallDetector R lib points = some false := by
  rw [Fp.wallDetector_eq, h]
  rfl

/-- The result of `wallDetector` when the normality test accepts the
z-coordinates, from the centred matrix, the fitted normal and its angle. -/
theorem Fp.wallDetector_of_accepted (R : Rounding F) (lib : Numerics F) (points A : List (Vec3 F))
    (n : Vec3 F) (a : Dbl F)
    (h : Fp.isNormallyDistributed R lib (points.map Vec3.z) (Fp.defaultSignificance R) = true)
    (hA : Fp.centredMatrix R points = some A) (hV : (lib.jacobiSvdV A)[2]? = some n)
    (ha : Fp.angleBetweenPlanes R lib n = a) :
    Fp.wallDetector R lib points = some (inWallRange a) := by
  rw [Fp.wallDetector_eq, h, hA]
  simp [hV, ha]

/-- The z-coordinates of the cluster `(0, 1, c)`, `(0, -1, c)`, `k` points
`(0, 0, c)` and `(0, 0, c')`. -/
theorem cluster_z (k : Nat) (c c' : F) :
    (⟨0, 1, c⟩ :: ⟨0, -1, c⟩ :: (List.replicate k ⟨0, 0, c⟩ ++ [(⟨0, 0, c'⟩ : Vec3 F)])).map
      Vec3.z = List.replicate (k + 2) c ++ [c'] := by
  simp [List.replicate_succ]

/-- The translate of the cluster `(0, 1, c)`, `(0, -1, c)`, `k` points `(0, 0, c)`
and `(0, 0, c')` by `(0, 0, t)`. -/
theorem cluster_shift (k : Nat) (c c' t : F) :
    (⟨0, 1, c⟩ :: ⟨0, -1, c⟩ :: (List.replicate k ⟨0, 0, c⟩ ++ [(⟨0, 0, c'⟩ : Vec3 F)])).map
        (fun p => Vec3.add p ⟨0, 0, t⟩)
      = ⟨0, 1, c + t⟩ :: ⟨0, -1, c + t⟩ ::
          (List.replicate k ⟨0, 0, c + t⟩ ++ [(⟨0, 0, c' + t⟩ : Vec3 F)]) := by
  simp [Vec3.add]

/-! ## Evaluation in binary64 -/

theorem ones_m0 : extended80 (1) = fin (1) :=
  roundTo_of_rep 64 16383 _ _ (1) (0) (by norm_num) (by norm_num) (by norm_num [abs_lt])
    (by norm_num) (by norm_num)

theorem ones_m1 : extended80 (1 + 1 / 2 ^ 52 - 1) = fin (1 / 2 ^ 52) :=
  roundTo_of_rep 64 16383 _ _ (1) (-52) (by norm_num) (by norm_num) (by norm_num [abs_lt])
    (by norm_num) (by norm_num)

theorem ones_m2 : extended80 (1 / 2 ^ 52 / (((14 + 1 : Nat) : ℚ) + 1)) = fin (1 / 2 ^ 56) :=
  roundTo_of_rep 64 16383 _ _ (1) (-56) (by norm_num) (by norm_num) (by norm_num [abs_lt])
    (by norm_num) (by norm_num)

theorem ones_m3 : extended80 (1 + 1 / 2 ^ 56) = fin (72057594037927937 / 2 ^ 56) :=
  roundTo_of_rep 64 16383 _ _ (72057594037927937) (-56) (by norm_num) (by norm_num) (by norm_num [abs_lt])
    (by norm_num) (by norm_num)

theorem ones_m4 : binary64 (72057594037927937 / 2 ^ 56) = fin (1) :=
  roundTo_of_near 53 1023 _ _ (0) (-52) (4503599627370496)
    (by rw [abs_of_pos (by norm_num)]; norm_num)
    (by rw [abs_of_pos (by norm_num)]; norm_num)
    (by norm_num) (by norm_num [abs_lt]) (by norm_num) (by norm_num [abs_lt])

theorem ones_mean : Fp.gsl_stats_mean ieee (List.replicate (14 + 1) (1) ++ [1 + 1 / 2 ^ 52]) = fin (1) :=
  Fp.gsl_stats_mean_run ieee (1) (1 + 1 / 2 ^ 52) _ _ _ _ 14 extended80_zero ones_m0 ones_m1 ones_m2 ones_m3 ones_m4

theorem ones_v0 : binary64 (1 - (1)) = fin (0) := by
  have h : (1 - (1) : ℚ) = 0 := by norm_num
  rw [h]
  exact roundTo_zero 53 1023

theorem ones_v1 : extended80 ((0) * (0)) = fin (0) := by
  have h : ((0) * (0) : ℚ) = 0 := by norm_num
  rw [h]
  exact roundTo_zero 64 16383

theorem ones_v2 : extended80 (0) = fin (0) := by
  have h : (0 : ℚ) = 0 := by norm_num
  rw [h]
  exact roundTo_zero 64 16383

theorem ones_v3 : binary64 (1 + 1 / 2 ^ 52 - (1)) = fin (1 / 2 ^ 52) :=
  roundTo_of_rep 53 1023 _ _ (1) (-52) (by norm_num) (by norm_num) (by norm_num [abs_lt])
    (by norm_num) (by norm_num)

theorem ones_v4 : extended80 ((1 / 2 ^ 52) * (1 / 2 ^ 52)) = fin (1 / 2 ^ 104) :=
  roundTo_of_rep 64 16383 _ _ (1) (-104) (by norm_num) (by norm_num) (by norm_num [abs_lt])
    (by norm_num) (by norm_num)

theorem ones_v5 : extended80 (1 / 2 ^ 104 - (0)) = fin (1 / 2 ^ 104) :=
  roundTo_of_rep 64 16383 _ _ (1) (-104) (by norm_num) (by norm_num) (by norm_num [abs_lt])
    (by norm_num) (by norm_num)

theorem ones_v6 : extended80 (1 / 2 ^ 104 / (((14 + 1 : Nat) : ℚ) + 1)) = fin (1 / 2 ^ 108) :=
  roundTo_of_rep 64 16383 _ _ (1) (-108) (by norm_num) (by norm_num) (by norm_num [abs_lt])
    (by norm_num) (by norm_num)

theorem ones_v7 : extended80 (0 + 1 / 2 ^ 108) = fin (1 / 2 ^ 108) :=
  roundTo_of_rep 64 16383 _ _ (1) (-108) (by norm_num) (by norm_num) (by norm_num [abs_lt])
    (by norm_num) (by norm_num)

theorem ones_v8 : binary64 (1 / 2 ^ 108) = fin (1 / 2 ^ 108) :=
  roundTo_of_rep 53 1023 _ _ (1) (-108) (by norm_num) (by norm_num) (by norm_num [abs_lt])
    (by norm_num) (by norm_num)

theorem ones_v9 : binary64 (((14 + 1 + 1 : Nat) : ℚ) / ((14 + 1 : Nat) : ℚ)) = fin (4803839602528529 / 2 ^ 52) :=
  roundTo_of_near 53 1023 _ _ (0) (-52) (4803839602528529)
    (by rw [abs_of_pos (by norm_num)]; norm_num)
    (by rw [abs_of_pos (by norm_num)]; norm_num)
    (by norm_num) (by norm_num [abs_lt]) (by norm_num) (by norm_num [abs_lt])

theorem ones_v10 : binary64 (1 / 2 ^ 108 * (4803839602528529 / 2 ^ 52)) = fin (4803839602528529 / 2 ^ 160) :=
  roundTo_of_rep 53 1023 _ _ (4803839602528529) (-160) (by norm_num) (by norm_num) (by norm_num [abs_lt])
    (by norm_num) (by norm_num)

theorem ones_sqrt : dLib.sqrt (4803839602528529 / 2 ^ 160) = fin (2325648847305581 / 2 ^ 105) := by
  show dSqrt _ = _
  norm_num [dSqrt]

theorem ones_sd : Fp.gsl_stats_sd ieee dLib (List.replicate (14 + 1) (1) ++ [1 + 1 / 2 ^ 52]) = fin (2325648847305581 / 2 ^ 105) :=
  Fp.gsl_stats_sd_run ieee dLib (1) (1 + 1 / 2 ^ 52) (1) _ _ _ _ _ _ _ _ _ _ _ 14 ones_mean extended80_zero
    ones_v0 ones_v1 ones_v2 ones_v3 ones_v4 ones_v5 ones_v6 ones_v7 ones_v8 ones_v9 ones_v10 ones_sqrt

theorem zeros_m0 : extended80 (0) = fin (0) := by
  have h : (0 : ℚ) = 0 := by norm_num
  rw [h]
  exact roundTo_zero 64 16383

theorem zeros_m1 : extended80 (1 / 2 ^ 52 - 0) = fin (1 / 2 ^ 52) :=
  roundTo_of_rep 64 16383 _ _ (1) (-52) (by norm_num) (by norm_num) (by norm_num [abs_lt])
    (by norm_num) (by norm_num)

theorem zeros_m2 : extended80 (1 / 2 ^ 52 / (((14 + 1 : Nat) : ℚ) + 1)) = fin (1 / 2 ^ 56) :=
  roundTo_of_rep 64 16383 _ _ (1) (-56) (by norm_num) (by norm_num) (by norm_num [abs_lt])
    (by norm_num) (by norm_num)

theorem zeros_m3 : extended80 (0 + 1 / 2 ^ 56) = fin (1 / 2 ^ 56) :=
  roundTo_of_rep 64 16383 _ _ (1) (-56) (by norm_num) (by norm_num) (by norm_num [abs_lt])
    (by norm_num) (by norm_num)

theorem zeros_m4 : binary64 (1 / 2 ^ 56) = fin (1 / 2 ^ 56) :=
  roundTo_of_rep 53 1023 _ _ (1) (-56) (by norm_num) (by norm_num) (by norm_num [abs_lt])
    (by norm_num) (by norm_num)

theorem zeros_mean : Fp.gsl_stats_mean ieee (List.replicate (14 + 1) (0) ++ [1 / 2 ^ 52]) = fin (1 / 2 ^ 56) :=
  Fp.gsl_stats_mean_run ieee (0) (1 / 2 ^ 52) _ _ _ _ 14 extended80_zero zeros_m0 zeros_m1 zeros_m2 zeros_m3 zeros_m4

theorem zeros_v0 : binary64 (0 - (1 / 2 ^ 56)) = fin (-(1 / 2 ^ 56)) :=
  roundTo_of_rep 53 1023 _ _ (-1) (-56) (by norm_num) (by norm_num) (by norm_num [abs_lt])
    (by norm_num) (by norm_num)

theorem zeros_v1 : extended80 ((-(1 / 2 ^ 56)) * (-(1 / 2 ^ 56))) = fin (1 / 2 ^ 112) :=
  roundTo_of_rep 64 16383 _ _ (1) (-112) (by norm_num) (by norm_num) (by norm_num [abs_lt])
    (by norm_num) (by norm_num)

theorem zeros_v2 : extended80 (1 / 2 ^ 112) = fin (1 / 2 ^ 112) :=
  roundTo_of_rep 64 16383 _ _ (1) (-112) (by norm_num) (by norm_num) (by norm_num [abs_lt])
    (by norm_num) (by norm_num)

theorem zeros_v3 : binary64 (1 / 2 ^ 52 - (1 / 2 ^ 56)) = fin (15 / 2 ^ 56) :=
  roundTo_of_rep 53 1023 _ _ (15) (-56) (by norm_num) (by norm_num) (by norm_num [abs_lt])
    (by norm_num) (by norm_num)

theorem zeros_v4 : extended80 ((15 / 2 ^ 56) * (15 / 2 ^ 56)) = fin (225 / 2 ^ 112) :=
  roundTo_of_rep 64 16383 _ _ (225) (-112) (by norm_num) (by norm_num) (by norm_num [abs_lt])
    (by norm_num) (by norm_num)

theorem zeros_v5 : extended80 (225 / 2 ^ 112 - (1 / 2 ^ 112)) = fin (7 / 2 ^ 107) :=
  roundTo_of_rep 64 16383 _ _ (7) (-107) (by norm_num) (by norm_num) (by norm_num [abs_lt])
    (by norm_num) (by norm_num)

theorem zeros_v6 : extended80 (7 / 2 ^ 107 / (((14 + 1 : Nat) : ℚ) + 1)) = fin (7 / 2 ^ 111) :=
  roundTo_of_rep 64 16383 _ _ (7) (-111) (by norm_num) (by norm_num) (by norm_num [abs_lt])
    (by norm_num) (by norm_num)

theorem zeros_v7 : extended80 (1 / 2 ^ 112 + 7 / 2 ^ 111) = fin (15 / 2 ^ 112) :=
  roundTo_of_rep 64 16383 _ _ (15) (-112) (by norm_num) (by norm_num) (by norm_num [abs_lt])
    (by norm_num) (by norm_num)

theorem zeros_v8 : binary64 (15 / 2 ^ 112) = fin (15 / 2 ^ 112) :=
  roundTo_of_rep 53 1023 _ _ (15) (-112) (by norm_num) (by norm_num) (by norm_num [abs_lt])
    (by norm_num) (by norm_num)

theorem zeros_v9 : binary64 (((14 + 1 + 1 : Nat) : ℚ) / ((14 + 1 : Nat) : ℚ)) = fin (4803839602528529 / 2 ^ 52) :=
  roundTo_of_near 53 1023 _ _ (0) (-52) (4803839602528529)
    (by rw [abs_of_pos (by norm_num)]; norm_num)
    (by rw [abs_of_pos (by norm_num)]; norm_num)
    (by norm_num) (by norm_num [abs_lt]) (by norm_num) (by norm_num [abs_lt])

theorem zeros_v10 : binary64 (15 / 2 ^ 112 * (4803839602528529 / 2 ^ 52)) = fin (1 / 2 ^ 108) :=
  roundTo_of_near 53 1023 _ _ (-109) (-161) (9007199254740992)
    (by rw [abs_of_pos (by norm_num)]; norm_num)
    (by rw [abs_of_pos (by norm_num)]; norm_num)
    (by norm_num) (by norm_num [abs_lt]) (by norm_num) (by norm_num [abs_lt])

theorem zeros_sqrt : dLib.sqrt (1 / 2 ^ 108) = fin (1 / 2 ^ 54) := by
  show dSqrt _ = _
  norm_num [dSqrt]

theorem zeros_sd : Fp.gsl_stats_sd ieee dLib (List.replicate (14 + 1) (0) ++ [1 / 2 ^ 52]) = fin (1 / 2 ^ 54) :=
  Fp.gsl_stats_sd_run ieee dLib (0) (1 / 2 ^ 52) (1 / 2 ^ 56) _ _ _ _ _ _ _ _ _ _ _ 14 zeros_mean extended80_zero
    zeros_v0 zeros_v1 zeros_v2 zeros_v3 zeros_v4 zeros_v5 zeros_v6 zeros_v7 zeros_v8 zeros_v9 zeros_v10 zeros_sqrt

theorem crit_a : binary64 (3602879701896397 / 2 ^ 56 / 2) = fin (3602879701896397 / 2 ^ 57) :=
  roundTo_of_rep 53 1023 _ _ (3602879701896397) (-57) (by norm_num) (by norm_num) (by norm_num [abs_lt])
    (by norm_num) (by norm_num)

theorem crit_p : binary64 (1 - 3602879701896397 / 2 ^ 57) = fin (8782019273372467 / 2 ^ 53) :=
  roundTo_of_near 53 1023 _ _ (-1) (-53) (8782019273372467)
    (by rw [abs_of_pos (by norm_num)]; norm_num)
    (by rw [abs_of_pos (by norm_num)]; norm_num)
    (by norm_num) (by norm_num [abs_lt]) (by norm_num) (by norm_num [abs_lt])

theorem crit_q : dLib.gsl_cdf_ugaussian_Pinv (8782019273372467 / 2 ^ 53) = fin (2206723267608545 / 2 ^ 50) := by
  show dQuantile _ = _
  norm_num [dQuantile]

theorem crit_s : dLib.sqrt (((14 + 1 + 1 : Nat) : ℚ)) = fin 4 := by
  show dSqrt (((14 + 1 + 1 : Nat) : ℚ)) = fin 4
  norm_num [dSqrt]

theorem crit_k : binary64 (2206723267608545 / 2 ^ 50 / 4) = fin (2206723267608545 / 2 ^ 52) :=
  roundTo_of_rep 53 1023 _ _ (2206723267608545) (-52) (by norm_num) (by norm_num) (by norm_num [abs_lt])
    (by norm_num) (by norm_num)

theorem crit_value : Fp.criticalValue ieee dLib (14 + 1 + 1) (fin (3602879701896397 / 2 ^ 56)) = fin (2206723267608545 / 2 ^ 52) :=
  Fp.criticalValue_eval ieee dLib (14 + 1 + 1) _ _ _ _ _ _ crit_a crit_p crit_q crit_s (by norm_num) crit_k

theorem dPhi_range (x : ℚ) :
    0 ≤ dLib.gsl_cdf_ugaussian_P x ∧ dLib.gsl_cdf_ugaussian_P x ≤ 1 := by
  show 0 ≤ dPhi x ∧ dPhi x ≤ 1
  unfold dPhi
  split_ifs
  · norm_num
  · norm_num
  · norm_num
  · norm_num
  · have hq : 0 ≤ qPhi x ∧ qPhi x ≤ 1 := qPhi_range x
    obtain ⟨r, hr, h1, h2⟩ := roundTo_between 53 1023 (qPhi x) 0 1 0 (2 ^ 52) (-52)
      (by norm_num) (by norm_num) hq.1 hq.2
      (lt_of_le_of_lt (abs_le.mpr ⟨by linarith [hq.1], hq.2⟩) (by norm_num))
      (by norm_num) (by norm_num) (by norm_num)
    have hb : binary64 (qPhi x) = fin r := hr
    rw [hb]
    exact ⟨h1, h2⟩

theorem binary64_two (x : ℚ) (hx : |x| ≤ 2) : ∃ y, binary64 x = fin y := by
  obtain ⟨r, hr, _, _⟩ := roundTo_between 53 1023 x (-2) 2 (-2 ^ 52) (2 ^ 52) (-51)
    (by norm_num) (by norm_num) (abs_le.mp hx).1 (abs_le.mp hx).2
    (lt_of_le_of_lt hx (by norm_num)) (by norm_num) (by norm_num) (by norm_num)
  exact ⟨r, hr⟩

theorem binary64_natCast_add_one (j : Nat) (hj : j < 2 ^ 52) :
    binary64 ((j : ℚ) + 1) = fin ((j : ℚ) + 1) := by
  have h := binary64_natCast (j + 1) (by omega)
  push_cast at h
  exact h

/-- The fractions `(j + 1) / 16` are numbers of binary64. -/
theorem binary64_sixteenth (j : Nat) (hj : j < 16) :
    binary64 (((j : ℚ) + 1) / ((14 + 1 + 1 : Nat) : ℚ)) = fin (((j : ℚ) + 1) / 16) := by
  have hj' : (j : ℚ) < 16 := by exact_mod_cast hj
  apply roundTo_of_rep 53 1023 _ _ ((j : ℤ) + 1) (-4)
  · push_cast
    norm_num
    ring
  · push_cast
    norm_num
    ring
  · push_cast
    rw [abs_of_nonneg (by positivity)]
    norm_num
    linarith
  · norm_num
  · norm_num

/-- The differences `1/2 - (j + 1)/16` are numbers of binary64. -/
theorem binary64_half_sub (j : Nat) (hj : j < 16) :
    binary64 (1 / 2 - ((j : ℚ) + 1) / 16) = fin (1 / 2 - ((j : ℚ) + 1) / 16) := by
  have hj' : (j : ℚ) < 16 := by exact_mod_cast hj
  have hj0 : (0 : ℚ) ≤ (j : ℚ) := by positivity
  apply roundTo_of_rep 53 1023 _ _ (7 - (j : ℤ)) (-4)
  · push_cast
    norm_num
    ring
  · push_cast
    norm_num
    ring
  · push_cast
    rw [abs_lt]
    constructor <;> norm_num <;> linarith
  · norm_num
  · norm_num

theorem ones_z : binary64 (0 / (2325648847305581 / 2 ^ 105)) = fin 0 := by
  have h : (0 / (2325648847305581 / 2 ^ 105) : ℚ) = 0 := by norm_num
  rw [h]
  exact binary64_zero

theorem dPhi_zero : dLib.gsl_cdf_ugaussian_P 0 = 1 / 2 := by
  show dPhi 0 = 1 / 2
  norm_num [dPhi]

theorem ones_z15 : binary64 (1 / 2 ^ 52 / (2325648847305581 / 2 ^ 105)) = fin (8721183177395931 / 2 ^ 51) :=
  roundTo_of_near 53 1023 _ _ (1) (-51) (8721183177395931)
    (by rw [abs_of_pos (by norm_num)]; norm_num)
    (by rw [abs_of_pos (by norm_num)]; norm_num)
    (by norm_num) (by norm_num [abs_lt]) (by norm_num) (by norm_num [abs_lt])

theorem dPhi_z15 : dLib.gsl_cdf_ugaussian_P (8721183177395931 / 2 ^ 51) = 9006715067445535 / 2 ^ 53 := by
  show dPhi _ = _
  norm_num [dPhi]

theorem ones_i15 : binary64 (((14 + 1 : Nat) : ℚ) + 1) = fin (((14 + 1 : Nat) : ℚ) + 1) :=
  roundTo_of_rep 53 1023 _ _ (1) (4) (by norm_num) (by norm_num) (by norm_num [abs_lt])
    (by norm_num) (by norm_num)

theorem ones_e15 : binary64 ((((14 + 1 : Nat) : ℚ) + 1) / ((14 + 1 + 1 : Nat) : ℚ)) = fin (1) :=
  roundTo_of_rep 53 1023 _ _ (1) (0) (by norm_num) (by norm_num) (by norm_num [abs_lt])
    (by norm_num) (by norm_num)

theorem ones_t15 : binary64 (9006715067445535 / 2 ^ 53 - 1) = fin (-(484187295457 / 2 ^ 53)) :=
  roundTo_of_rep 53 1023 _ _ (-484187295457) (-53) (by norm_num) (by norm_num) (by norm_num [abs_lt])
    (by norm_num) (by norm_num)

theorem zeros_z14 : binary64 (-(1 / 2 ^ 56) / (1 / 2 ^ 54)) = fin (-(1 / 2 ^ 2)) :=
  roundTo_of_rep 53 1023 _ _ (-1) (-2) (by norm_num) (by norm_num) (by norm_num [abs_lt])
    (by norm_num) (by norm_num)

theorem dPhi_z14 : dLib.gsl_cdf_ugaussian_P (-(1 / 2 ^ 2)) = 903633021060261 / 2 ^ 51 := by
  show dPhi _ = _
  norm_num [dPhi]

theorem zeros_i14 : binary64 (((14 : Nat) : ℚ) + 1) = fin (((14 : Nat) : ℚ) + 1) :=
  roundTo_of_rep 53 1023 _ _ (15) (0) (by norm_num) (by norm_num) (by norm_num [abs_lt])
    (by norm_num) (by norm_num)

theorem zeros_e14 : binary64 ((((14 : Nat) : ℚ) + 1) / ((14 + 1 + 1 : Nat) : ℚ)) = fin (15 / 2 ^ 4) :=
  roundTo_of_rep 53 1023 _ _ (15) (-4) (by norm_num) (by norm_num) (by norm_num [abs_lt])
    (by norm_num) (by norm_num)

theorem zeros_t14 : binary64 (903633021060261 / 2 ^ 51 - 15 / 2 ^ 4) = fin (-(1207429304269659 / 2 ^ 51)) :=
  roundTo_of_rep 53 1023 _ _ (-1207429304269659) (-51) (by norm_num) (by norm_num) (by norm_num [abs_lt])
    (by norm_num) (by norm_num)

theorem alpha_default : binary64 (5 / 100) = fin (3602879701896397 / 2 ^ 56) :=
  roundTo_of_near 53 1023 _ _ (-5) (-57) (7205759403792794)
    (by rw [abs_of_pos (by norm_num)]; norm_num)
    (by rw [abs_of_pos (by norm_num)]; norm_num)
    (by norm_num) (by norm_num [abs_lt]) (by norm_num) (by norm_num [abs_lt])

/-- The normality test accepts fifteen values `1` and the value `1 + 2^-52`. -/
theorem ones_gate : Fp.isNormallyDistributed ieee dLib
    (List.replicate (14 + 1) 1 ++ [1 + 1 / 2 ^ 52]) (fin (3602879701896397 / 2 ^ 56)) = true := by
  apply Fp.isNormallyDistributed_run_true ieee dLib 1 (1 + 1 / 2 ^ 52) 1 (2325648847305581 / 2 ^ 105)
    (2206723267608545 / 2 ^ 52) (7 / 16) _ 14 (by norm_num) ones_mean ones_sd crit_value (by norm_num)
    (by norm_num)
  · intro j hj
    refine ⟨_, Fp.ksTerm_eval ieee dLib (14 + 1 + 1) 1 (2325648847305581 / 2 ^ 105) j 1 0 0 (1 / 2)
      (((j : ℚ) + 1) / 16) (1 / 2 - ((j : ℚ) + 1) / 16) (by norm_num) (by norm_num)
      ones_v0 ones_z dPhi_zero (binary64_natCast_add_one j (by omega))
      (binary64_sixteenth j (by omega)) (binary64_half_sub j (by omega)), ?_⟩
    have hj' : (j : ℚ) ≤ 14 := by exact_mod_cast (by omega : j ≤ 14)
    have hj0 : (0 : ℚ) ≤ (j : ℚ) := by positivity
    rw [abs_le]
    constructor <;> linarith
  · refine ⟨_, Fp.ksTerm_eval ieee dLib (14 + 1 + 1) 1 (2325648847305581 / 2 ^ 105) (14 + 1)
      (1 + 1 / 2 ^ 52) _ _ _ _ _ (by norm_num) (by norm_num)
      ones_v3 ones_z15 dPhi_z15 ones_i15 ones_e15 ones_t15, ?_⟩
    norm_num [abs_le]

/-- The normality test rejects fifteen values `0` and the value `2^-52`. -/
theorem zeros_gate : Fp.isNormallyDistributed ieee dLib
    (List.replicate (14 + 1) 0 ++ [1 / 2 ^ 52]) (fin (3602879701896397 / 2 ^ 56)) = false := by
  apply Fp.isNormallyDistributed_run_false ieee dLib 0 (1 / 2 ^ 52) (1 / 2 ^ 56) (1 / 2 ^ 54)
    (2206723267608545 / 2 ^ 52) _ _ 14 14 (by norm_num) zeros_mean zeros_sd crit_value ?_ (by norm_num)
    (Fp.ksTerm_eval ieee dLib (14 + 1 + 1) (1 / 2 ^ 56) (1 / 2 ^ 54) 14 0 _ _ _ _ _
      (by norm_num) (by norm_num) zeros_v0 zeros_z14 dPhi_z14 zeros_i14 zeros_e14 zeros_t14)
    (by norm_num [abs_lt, lt_abs])
  intro j v hj
  obtain ⟨t, ht, _⟩ := Fp.ksTerm_fin ieee dLib (14 + 1 + 1) (1 / 2 ^ 56) (1 / 2 ^ 54) j v hj
    (by norm_num) (roundTo_ne_nan 53 1023) binary64_unit binary64_two
    (fun i hi => binary64_natCast i (lt_of_le_of_lt hi (by norm_num))) dPhi_range
  exact ⟨t, ht⟩

theorem binary64_one : binary64 1 = fin 1 := by
  simpa using binary64_natCast 1 (by norm_num)

theorem dLib_sqrt_one : dLib.sqrt 1 = fin 1 := by
  show dSqrt 1 = fin 1
  norm_num [dSqrt]

theorem dLib_sqrt_zero : dLib.sqrt 0 = fin 0 := by
  show dSqrt 0 = fin 0
  norm_num [dSqrt]

theorem dLib_acos_zero : dLib.acos 0 = fin (dPi / 2) := by
  show dAcos 0 = fin (dPi / 2)
  norm_num [dAcos]

theorem dPi_pos : 0 < dLib.M_PI := by
  show 0 < dPi
  norm_num [dPi]

/-- The constant `180.0 / M_PI` is `0x1.ca5dc1a63c1f8p+5`. -/
theorem binary64_degrees : binary64 (180 / dLib.M_PI) = fin (1007958012753983 / 2 ^ 44) := by
  show binary64 (180 / dPi) = _
  apply roundTo_of_near 53 1023 _ _ 5 (-47) 8063664102031864
  · rw [abs_of_pos (by norm_num [dPi])]; norm_num [dPi]
  · rw [abs_of_pos (by norm_num [dPi])]; norm_num [dPi]
  · norm_num
  · norm_num [dPi, abs_lt]
  · norm_num
  · norm_num [abs_lt]

/-- The right angle: `acos 0 * (180.0 / M_PI)` is `90`. -/
theorem binary64_right_angle : binary64 (dPi / 2 * (1007958012753983 / 2 ^ 44)) = fin 90 := by
  apply roundTo_of_near 53 1023 _ _ 6 (-46) (90 * 2 ^ 46)
  · rw [abs_of_pos (by norm_num [dPi])]; norm_num [dPi]
  · rw [abs_of_pos (by norm_num [dPi])]; norm_num [dPi]
  · norm_num
  · norm_num [dPi, abs_lt]
  · norm_num
  · norm_num [abs_lt]

/-- The arc cosine of the binary64 instance maps `[-1, 1]` into `[0, M_PI]`. -/
theorem dAcos_range (x : ℚ) (hx : |x| ≤ 1) :
    ∃ r, dLib.acos x = fin r ∧ 0 ≤ r ∧ r ≤ dLib.M_PI := by
  have h1 := (abs_le.mp hx).1
  have h2 := (abs_le.mp hx).2
  show ∃ r, dAcos x = fin r ∧ 0 ≤ r ∧ r ≤ dPi
  unfold dAcos
  rw [if_neg (by rintro (h | h) <;> linarith)]
  split_ifs
  · exact ⟨_, rfl, by norm_num [dPi], by norm_num [dPi]⟩
  · exact ⟨_, rfl, by norm_num [dPi], by norm_num [dPi]⟩
  · exact ⟨_, rfl, by norm_num [dPi], by norm_num [dPi]⟩
  · exact ⟨_, rfl, by norm_num [dPi], by norm_num [dPi]⟩
  · exact ⟨_, rfl, by norm_num [dPi], by norm_num [dPi]⟩
  · exact ⟨_, rfl, by norm_num [dPi], by norm_num [dPi]⟩
  · have hp : (0 : ℚ) < dPi := by norm_num [dPi]
    have hlo : (0 : ℚ) ≤ dPi * (1 - x) / 2 := by
      have : 0 ≤ dPi * (1 - x) := mul_nonneg (le_of_lt hp) (by linarith)
      linarith
    have hhi : dPi * (1 - x) / 2 ≤ dPi := by
      have : dPi * (1 - x) ≤ dPi * 2 := mul_le_mul_of_nonneg_left (by linarith) (le_of_lt hp)
      linarith
    obtain ⟨r, hr, r1, r2⟩ := roundTo_between 53 1023 (dPi * (1 - x) / 2) 0 dPi 0
      7074237752028440 (-51) (by norm_num) (by norm_num [dPi]) hlo hhi
      (by rw [abs_of_nonneg hlo]; exact lt_of_le_of_lt hhi (by norm_num [dPi]))
      (by norm_num) (by norm_num) (by norm_num [dPi, abs_lt])
    exact ⟨r, hr, r1, r2⟩

/-- The conversion to degrees maps `[0, M_PI]` into `[0, 180]`. -/
theorem binary64_degrees_range (r : ℚ) (h0 : 0 ≤ r) (h1 : r ≤ dLib.M_PI) :
    ∃ a, binary64 (r * (1007958012753983 / 2 ^ 44)) = fin a ∧ 0 ≤ a ∧ a ≤ 180 := by
  have h1' : r ≤ dPi := h1
  have hlo : (0 : ℚ) ≤ r * (1007958012753983 / 2 ^ 44) := mul_nonneg h0 (by norm_num)
  have hhi : r * (1007958012753983 / 2 ^ 44) ≤ 180 := by
    have : r * (1007958012753983 / 2 ^ 44) ≤ dPi * (1007958012753983 / 2 ^ 44) :=
      mul_le_mul_of_nonneg_right h1' (by norm_num)
    refine le_trans this ?_
    norm_num [dPi]
  exact roundTo_between 53 1023 _ 0 180 0 (180 * 2 ^ 45) (-45) (by norm_num) (by norm_num)
    hlo hhi (by rw [abs_of_nonneg hlo]; exact lt_of_le_of_lt hhi (by norm_num))
    (by norm_num) (by norm_num) (by norm_num [abs_lt])

theorem v340_sx : binary64 ((3) * (3)) = fin (9) :=
  roundTo_of_rep 53 1023 _ _ (9) (0) (by norm_num) (by norm_num) (by norm_num [abs_lt])
    (by norm_num) (by norm_num)

theorem v340_sy : binary64 ((4) * (4)) = fin (16) :=
  roundTo_of_rep 53 1023 _ _ (1) (4) (by norm_num) (by norm_num) (by norm_num [abs_lt])
    (by norm_num) (by norm_num)

theorem v340_sz : binary64 ((0) * (0)) = fin (0) := by
  have h : ((0) * (0) : ℚ) = 0 := by norm_num
  rw [h]
  exact roundTo_zero 53 1023

theorem v340_s1 : binary64 (9 + 16) = fin (25) :=
  roundTo_of_rep 53 1023 _ _ (25) (0) (by norm_num) (by norm_num) (by norm_num [abs_lt])
    (by norm_num) (by norm_num)

theorem v340_s2 : binary64 (25 + 0) = fin (25) :=
  roundTo_of_rep 53 1023 _ _ (25) (0) (by norm_num) (by norm_num) (by norm_num [abs_lt])
    (by norm_num) (by norm_num)

theorem v340_sqrt : dLib.sqrt (25) = fin (5) := by
  show dSqrt (25) = fin (5)
  norm_num [dSqrt]

theorem v340_mag : Fp.magnitude ieee dLib ⟨3, 4, 0⟩ = fin (5) :=
  Fp.magnitude_eval ieee dLib _ _ _ _ _ _ _ _ _ v340_sx v340_sy v340_sz v340_s1 v340_s2 v340_sqrt

theorem v340_y : binary64 (Vec3.y (⟨3, 4, 0⟩ : Vec3 ℚ)) = fin (Vec3.y (⟨3, 4, 0⟩ : Vec3 ℚ)) :=
  roundTo_of_rep 53 1023 _ _ (1) (2) (by norm_num) (by norm_num) (by norm_num [abs_lt])
    (by norm_num) (by norm_num)

theorem v340_mm : binary64 (5) = fin (5) :=
  roundTo_of_rep 53 1023 _ _ (5) (0) (by norm_num) (by norm_num) (by norm_num [abs_lt])
    (by norm_num) (by norm_num)

theorem v340_c : binary64 (Vec3.y (⟨3, 4, 0⟩ : Vec3 ℚ) / (5)) = fin (3602879701896397 / 2 ^ 52) :=
  roundTo_of_near 53 1023 _ _ (-1) (-53) (7205759403792794)
    (by rw [abs_of_pos (by norm_num)]; norm_num)
    (by rw [abs_of_pos (by norm_num)]; norm_num)
    (by norm_num) (by norm_num [abs_lt]) (by norm_num) (by norm_num [abs_lt])

theorem v340_acos : dLib.acos (3602879701896397 / 2 ^ 52) = fin (181129459610871 / 2 ^ 48) := by
  show dAcos (3602879701896397 / 2 ^ 52) = fin (181129459610871 / 2 ^ 48)
  norm_num [dAcos]

theorem v340_a : binary64 (181129459610871 / 2 ^ 48 * (1007958012753983 / 2 ^ 44)) = fin (5188976790594107 / 2 ^ 47) :=
  roundTo_of_near 53 1023 _ _ (5) (-47) (5188976790594107)
    (by rw [abs_of_pos (by norm_num)]; norm_num)
    (by rw [abs_of_pos (by norm_num)]; norm_num)
    (by norm_num) (by norm_num [abs_lt]) (by norm_num) (by norm_num [abs_lt])

theorem v340_angle : Fp.cosAngle ieee dLib ⟨3, 4, 0⟩ = fin (3602879701896397 / 2 ^ 52) ∧
    Fp.angleBetweenPlanes ieee dLib ⟨3, 4, 0⟩ = fin (5188976790594107 / 2 ^ 47) :=
  Fp.angleBetweenPlanes_eval ieee dLib _ _ _ _ _ _ binary64_zero binary64_one v340_y dLib_sqrt_one
    v340_mag (by norm_num) v340_mm v340_c v340_acos (ne_of_gt dPi_pos) binary64_degrees v340_a

theorem p88_sz : binary64 ((0) * (0)) = fin (0) := by
  have h : ((0) * (0) : ℚ) = 0 := by norm_num
  rw [h]
  exact roundTo_zero 53 1023

theorem p88_s2 : binary64 (1 + 0) = fin (1) :=
  roundTo_of_rep 53 1023 _ _ (1) (0) (by norm_num) (by norm_num) (by norm_num [abs_lt])
    (by norm_num) (by norm_num)

theorem shifted_sum : binary64 (((13 + 2 : Nat) : ℚ) + (1 + 1 / 2 ^ 52)) = fin (16) :=
  roundTo_of_near 53 1023 _ _ (4) (-48) (4503599627370496)
    (by rw [abs_of_pos (by norm_num)]; norm_num)
    (by rw [abs_of_pos (by norm_num)]; norm_num)
    (by norm_num) (by norm_num [abs_lt]) (by norm_num) (by norm_num [abs_lt])

theorem shifted_centroid : binary64 (16 / ((13 + 3 : Nat) : ℚ)) = fin (1) :=
  roundTo_of_rep 53 1023 _ _ (1) (0) (by norm_num) (by norm_num) (by norm_num [abs_lt])
    (by norm_num) (by norm_num)

/-! ## The normality test in floating-point arithmetic (claim C3) -/

/-- Claim C3, amended: when the computed mean is finite and the computed standard
deviation is finite and not zero, `isNormallyDistributed` returns the inclusive
comparison `D <= critical value` in doubles, where `D` is the greatest over the
ranks `i = 1..n` of the sorted data of the computed values
`|Φ((x_(i) - mean)/stddev) - i/n|`, every operation rounded, with the mean and
the standard deviation as GSL computes them, and the critical value is the
computed quotient of line 32.  The rounding is any rounding that never returns
`NaN`, maps `[-1, 1]` into itself, is finite on `[-2, 2]` and keeps the integers
up to `n`. -/
theorem Fp.isNormallyDistributed_iff_ks (R : Rounding F) (lib : Numerics F) (data : List F)
    (α m s : F) (hne : data ≠ [])
    (hmean : Fp.gsl_stats_mean R (data.insertionSort (· ≤ ·)) = fin m)
    (hsd : Fp.gsl_stats_sd R lib (data.insertionSort (· ≤ ·)) = fin s) (hs : s ≠ 0)
    (hnn : ∀ x, R.dbl x ≠ nan)
    (hunit : ∀ x, |x| ≤ 1 → ∃ y, R.dbl x = fin y ∧ |y| ≤ 1)
    (htwo : ∀ x, |x| ≤ 2 → ∃ y, R.dbl x = fin y)
    (hnat : ∀ j : Nat, j ≤ data.length → R.dbl (j : F) = fin (j : F))
    (hP : ∀ x, 0 ≤ lib.gsl_cdf_ugaussian_P x ∧ lib.gsl_cdf_ugaussian_P x ≤ 1) :
    ∃ D : F,
      (∀ xs : List F, xs.Perm data → xs.Sorted (· ≤ ·) →
        Fp.IsKsStatistic R lib xs (fin m) (fin s) D) ∧
      Fp.isNormallyDistributed R lib data (fin α)
        = Dbl.le (fin D) (Fp.criticalValue R lib data.length (fin α)) ∧
      ∀ κ : F, Fp.criticalValue R lib data.length (fin α) = fin κ →
        (Fp.isNormallyDistributed R lib data (fin α) = true ↔ D ≤ κ) := by
  have hperm := List.perm_insertionSort (fun a b : F => a ≤ b) data
  have hlen := List.length_insertionSort (fun a b : F => a ≤ b) data
  have hsorted := List.sorted_insertionSort (fun a b : F => a ≤ b) data
  have hterm : ∀ j v, (data.insertionSort (fun a b : F => a ≤ b))[j]? = some v →
      ∃ t, Fp.ksTerm R lib data.length (fin m) (fin s) (0 + j) v = fin t := by
    intro j v hj
    have hjlt : j < data.length := by
      have := (List.getElem?_eq_some_iff.mp hj).1
      rwa [hlen] at this
    obtain ⟨t, ht, _⟩ := Fp.ksTerm_fin R lib data.length m s j v hjlt hs hnn hunit htwo hnat hP
    exact ⟨t, by rw [zero_add]; exact ht⟩
  obtain ⟨D, hD, hD0, hall, hatt⟩ := Fp.ksLoop_max R lib data.length (fin m) (fin s)
    (data.insertionSort (fun a b : F => a ≤ b)) 0 0 hterm
  have hval := Fp.isNormallyDistributed_eq R lib data (fin α) (fin m) (fin s) hne hmean hsd
  rw [hD] at hval
  refine ⟨D, ?_, hval, ?_⟩
  · intro xs hxs hxsorted
    have hx : xs = data.insertionSort (fun a b : F => a ≤ b) :=
      List.eq_of_perm_of_sorted (hxs.trans hperm.symm) hxsorted hsorted
    rw [hx]
    constructor
    · rcases hatt with h | ⟨j, v, hj, h⟩
      · obtain ⟨v, t, hvt⟩ := List.exists_cons_of_ne_nil
          (fun hnil => hne (List.Perm.eq_nil (hnil ▸ hperm.symm)))
        have h0 : (data.insertionSort (fun a b : F => a ≤ b))[0]? = some v := by
          rw [hvt]
          simp
        have hlt : 0 < data.length := by
          have := (List.getElem?_eq_some_iff.mp h0).1
          rwa [hlen] at this
        obtain ⟨t', ht', ht0⟩ :=
          Fp.ksTerm_fin R lib data.length m s 0 v hlt hs hnn hunit htwo hnat hP
        have hle := hall 0 v t' h0 (by rw [zero_add]; exact ht')
        have hzero : t' = D := by
          rw [h] at hle ⊢
          exact le_antisymm hle ht0
        refine ⟨1, v, le_refl _, h0, ?_⟩
        rw [hlen, ← hzero, ← ht', Fp.ksTerm_eq_rank R lib _ _ _ 0 v (hnat 1 (by omega))]
      · have hjlt : j < data.length := by
          have := (List.getElem?_eq_some_iff.mp hj).1
          rwa [hlen] at this
        refine ⟨j + 1, v, by omega, by simpa using hj, ?_⟩
        rw [zero_add] at h
        rw [hlen, ← h, Fp.ksTerm_eq_rank R lib _ _ _ j v (hnat (j + 1) (by omega))]
    · rintro d ⟨i, v, hi, hv, hd⟩
      have hilt : i - 1 < data.length := by
        have := (List.getElem?_eq_some_iff.mp hv).1
        rwa [hlen] at this
      have hcast : i - 1 + 1 = i := by omega
      have := Fp.ksTerm_eq_rank R lib data.length (fin m) (fin s) (i - 1) v
        (hnat (i - 1 + 1) (by omega))
      rw [hcast] at this
      rw [hlen] at hd
      rw [hd] at this
      exact hall (i - 1) v d hv (by rw [zero_add]; exact this)
  · intro κ hκ
    rw [hval, hκ, Dbl.le_fin_fin]
    simp

/-- Every term of the statistic is at most the statistic. -/
theorem IsKsStatistic.term_le {F : Type} [LinearOrderedField F] (Φ : F → F) (xs : List F)
    (μ σ D : F) (h : IsKsStatistic Φ xs μ σ D) (i : Nat) (v : F) (hi : 1 ≤ i)
    (hv : xs[i - 1]? = some v) : |Φ ((v - μ) / σ) - (i : F) / (xs.length : F)| ≤ D :=
  h.2 ⟨i, v, hi, hv, rfl⟩

/-- Witness of the amended C3: fifteen values `1` and the value `1 + 2^-52` in
binary64, where the computed mean is `1` and the computed standard deviation is
`0x1.08654a2d4f6dap-54`. -/
theorem Fp.isNormallyDistributed_iff_ks_witness :
    ∃ D : ℚ,
      (∀ xs : List ℚ, xs.Perm (List.replicate 15 1 ++ [1 + 1 / 2 ^ 52]) → xs.Sorted (· ≤ ·) →
        Fp.IsKsStatistic ieee dLib xs (fin 1) (fin (2325648847305581 / 2 ^ 105)) D) ∧
      Fp.isNormallyDistributed ieee dLib (List.replicate 15 1 ++ [1 + 1 / 2 ^ 52])
          (fin (3602879701896397 / 2 ^ 56))
        = Dbl.le (fin D) (Fp.criticalValue ieee dLib
            (List.replicate 15 (1 : ℚ) ++ [1 + 1 / 2 ^ 52]).length
            (fin (3602879701896397 / 2 ^ 56))) ∧
      ∀ κ : ℚ, Fp.criticalValue ieee dLib (List.replicate 15 (1 : ℚ) ++ [1 + 1 / 2 ^ 52]).length
          (fin (3602879701896397 / 2 ^ 56)) = fin κ →
        (Fp.isNormallyDistributed ieee dLib (List.replicate 15 1 ++ [1 + 1 / 2 ^ 52])
          (fin (3602879701896397 / 2 ^ 56)) = true ↔ D ≤ κ) :=
  Fp.isNormallyDistributed_iff_ks ieee dLib (List.replicate 15 1 ++ [1 + 1 / 2 ^ 52])
    (3602879701896397 / 2 ^ 56) 1 (2325648847305581 / 2 ^ 105) (by simp)
    (by rw [insertionSort_replicate_append 1 (1 + 1 / 2 ^ 52) (by norm_num) 15]; exact ones_mean)
    (by rw [insertionSort_replicate_append 1 (1 + 1 / 2 ^ 52) (by norm_num) 15]; exact ones_sd)
    (by norm_num) (roundTo_ne_nan 53 1023) binary64_unit binary64_two
    (fun j hj => binary64_natCast j (lt_of_le_of_lt hj (by simp))) dPhi_range

/-- Counterexample to C3: for fifteen values `1` and the value `1 + 2^-52`, at the
`double` `0.05`, the function returns true, because the computed mean is `1` and
the greatest computed difference is `7/16`; the mean of the sixteen values is
`1 + 2^-56` and their sample standard deviation is `2^-54`, so that every `D` that
is the greatest of `|Φ((x_(i) - μ)/σ) - i/n|` exceeds the critical value
`1.959963984540054 / 4`: the term of rank 15 is `|Φ(-1/4) - 15/16|`, about
`0.536`. -/
theorem isNormallyDistributed_rounding_counterexample :
    Fp.isNormallyDistributed ieee dLib (List.replicate 15 1 ++ [1 + 1 / 2 ^ 52])
      (fin (3602879701896397 / 2 ^ 56)) = true ∧
    gsl_stats_mean (List.replicate 15 (1 : ℚ) ++ [1 + 1 / 2 ^ 52]) = 1 + 1 / 2 ^ 56 ∧
    sumSqDev (List.replicate 15 (1 : ℚ) ++ [1 + 1 / 2 ^ 52]) / (16 - 1)
      = 1 / 2 ^ 54 * (1 / 2 ^ 54) ∧
    ∀ D : ℚ, IsKsStatistic dLib.gsl_cdf_ugaussian_P (List.replicate 15 1 ++ [1 + 1 / 2 ^ 52])
        (1 + 1 / 2 ^ 56) (1 / 2 ^ 54) D →
      2206723267608545 / 2 ^ 50 / 4 < D := by
  have hmean : gsl_stats_mean (List.replicate 15 (1 : ℚ) ++ [1 + 1 / 2 ^ 52])
      = 1 + 1 / 2 ^ 56 := by
    norm_num [gsl_stats_mean, List.sum_replicate]
  refine ⟨ones_gate, hmean, ?_, ?_⟩
  · unfold sumSqDev
    rw [hmean]
    norm_num [List.sum_replicate]
  · intro D hD
    have hmem := IsKsStatistic.term_le dLib.gsl_cdf_ugaussian_P _ _ _ D hD 15 1 (by norm_num)
      (by simp)
    have harg : ((1 : ℚ) - (1 + 1 / 2 ^ 56)) / (1 / 2 ^ 54) = -(1 / 2 ^ 2) := by norm_num
    have hlen : (List.replicate 15 (1 : ℚ) ++ [1 + 1 / 2 ^ 52]).length = 16 := by simp
    rw [harg, dPhi_z14, hlen] at hmem
    refine lt_of_lt_of_le ?_ hmem
    norm_num [lt_abs]

/-! ## The angle to the reference normal in floating-point arithmetic (claim C10) -/

/-- Claim C10, amended: for a vector `n` whose computed magnitude `m` (the `sqrt` of the
rounded sum of the rounded squares) is finite, positive and at least `|n_y|`,
which excludes the vectors whose squares overflow or underflow, the function
returns `acos c * (180 / M_PI)` in doubles, where `c` is the rounded quotient
`n_y / m` and lies in `[-1, 1]`; the result is finite and in `[0, 180]`.  The
rounding keeps `0`, `1`, `n_y` and `m`, maps `[-1, 1]` into itself and the
products `r * (180 / M_PI)` for `r` in `[0, M_PI]` into `[0, 180]`; `sqrt 1 = 1`
and `acos` maps `[-1, 1]` into `[0, M_PI]`. -/
theorem Fp.angleBetweenPlanes_eq_acos (R : Rounding F) (lib : Numerics F) (n : Vec3 F)
    (m k : F) (hmag : Fp.magnitude R lib n = fin m) (hm0 : 0 < m) (hny : |n.y| ≤ m)
    (h0 : R.dbl 0 = fin 0) (h1 : R.dbl 1 = fin 1) (hy : R.dbl n.y = fin n.y)
    (hmm : R.dbl m = fin m)
    (hunit : ∀ x, |x| ≤ 1 → ∃ y, R.dbl x = fin y ∧ |y| ≤ 1)
    (hone : lib.sqrt 1 = fin 1)
    (hacos : ∀ x, |x| ≤ 1 → ∃ r, lib.acos x = fin r ∧ 0 ≤ r ∧ r ≤ lib.M_PI)
    (hpi : 0 < lib.M_PI) (hk : R.dbl (180 / lib.M_PI) = fin k)
    (hdeg : ∀ r, 0 ≤ r → r ≤ lib.M_PI → ∃ a, R.dbl (r * k) = fin a ∧ 0 ≤ a ∧ a ≤ 180) :
    ∃ c r a : F, R.dbl (n.y / m) = fin c ∧ |c| ≤ 1 ∧ Fp.cosAngle R lib n = fin c ∧
      lib.acos c = fin r ∧ R.dbl (r * k) = fin a ∧
      Fp.angleBetweenPlanes R lib n = fin a ∧ 0 ≤ a ∧ a ≤ 180 := by
  have hq : |n.y / m| ≤ 1 := by
    rw [abs_div, abs_of_pos hm0, div_le_one hm0]
    exact hny
  obtain ⟨c, hc, hc1⟩ := hunit _ hq
  obtain ⟨r, hr, hr0, hrπ⟩ := hacos c hc1
  obtain ⟨a, ha, ha0, ha180⟩ := hdeg r hr0 hrπ
  obtain ⟨hcos, hangle⟩ := Fp.angleBetweenPlanes_eval R lib n m c r k a h0 h1 hy hone hmag
    (ne_of_gt hm0) hmm hc hr (ne_of_gt hpi) hk ha
  exact ⟨c, r, a, hc, hc1, hcos, hr, ha, hangle, ha0, ha180⟩

/-- Witness of the amended C10: the vector `(3, 4, 0)` in binary64, with computed
magnitude `5`. -/
theorem Fp.angleBetweenPlanes_eq_acos_witness :
    ∃ c r a : ℚ, ieee.dbl ((⟨3, 4, 0⟩ : Vec3 ℚ).y / 5) = fin c ∧ |c| ≤ 1 ∧
      Fp.cosAngle ieee dLib ⟨3, 4, 0⟩ = fin c ∧
      dLib.acos c = fin r ∧ ieee.dbl (r * (1007958012753983 / 2 ^ 44)) = fin a ∧
      Fp.angleBetweenPlanes ieee dLib ⟨3, 4, 0⟩ = fin a ∧ 0 ≤ a ∧ a ≤ 180 :=
  Fp.angleBetweenPlanes_eq_acos ieee dLib ⟨3, 4, 0⟩ 5 (1007958012753983 / 2 ^ 44) v340_mag
    (by norm_num) (by norm_num [abs_le]) binary64_zero binary64_one v340_y v340_mm
    binary64_unit dLib_sqrt_one dAcos_range dPi_pos binary64_degrees binary64_degrees_range

/-- Counterexample to C10 in binary64: the vector `(0, 2^600, 0)` is a positive
multiple of the reference normal, so that `n_y / ‖n‖ = 1` and the angle of the
claim is `acos 1` in degrees, which is `0`; its square overflows, the computed
magnitude is `+inf`, the cosine `0` and the function returns `90`.  The square of
the vector `(0, 2^-600, 0)` underflows to `0`, the cosine is `+inf` and the
function returns `NaN`, which is not in `[0, 180]`. -/
theorem angleBetweenPlanes_range_counterexample :
    Fp.angleBetweenPlanes ieee dLib ⟨0, 2 ^ 600, 0⟩ = fin 90 ∧
    dLib.acos 1 = fin 0 ∧
    Fp.angleBetweenPlanes ieee dLib ⟨0, 1 / 2 ^ 600, 0⟩ = nan ∧
    ¬ ∃ a : ℚ, Fp.angleBetweenPlanes ieee dLib ⟨0, 1 / 2 ^ 600, 0⟩ = fin a ∧ 0 ≤ a ∧ a ≤ 180 := by
  have hbig : Fp.angleBetweenPlanes ieee dLib ⟨0, 2 ^ 600, 0⟩ = fin 90 :=
    Fp.angle_of_overflow ieee dLib (2 ^ 600) (dPi / 2) (1007958012753983 / 2 ^ 44) 90
      binary64_zero binary64_one
      (roundTo_of_rep 53 1023 _ _ 1 600 (by norm_num) (by norm_num) (by norm_num)
        (by norm_num) (by norm_num))
      (by
        have := roundTo_overflow 53 1023 (2 ^ 600 * 2 ^ 600) (by norm_num) (by norm_num)
          (by rw [abs_of_pos (by positivity)]; norm_num)
        show roundTo 53 1023 (2 ^ 600 * 2 ^ 600) = pinf
        rw [this]
        simp [Dbl.infOfSign])
      dLib_sqrt_one dLib_acos_zero (ne_of_gt dPi_pos) binary64_degrees binary64_right_angle
  have hsmall : Fp.angleBetweenPlanes ieee dLib ⟨0, 1 / 2 ^ 600, 0⟩ = nan :=
    Fp.angle_of_underflow ieee dLib (1 / 2 ^ 600) binary64_zero binary64_one
      (roundTo_of_rep 53 1023 _ _ 1 (-600) (by norm_num) (by norm_num) (by norm_num)
        (by norm_num) (by norm_num))
      (by positivity)
      (roundTo_of_near 53 1023 _ _ (-1200) (-1074) 0 (by norm_num [abs_of_pos])
        (by norm_num [abs_of_pos]) (by norm_num) (by norm_num [abs_lt]) (by norm_num)
        (by norm_num))
      dLib_sqrt_one dLib_sqrt_zero
  refine ⟨hbig, ?_, hsmall, ?_⟩
  · show dAcos 1 = fin 0
    norm_num [dAcos]
  · rintro ⟨a, ha, _⟩
    rw [hsmall] at ha
    cases ha

/-! ## The angle of the opposite normal in floating-point arithmetic (claim C11) -/

/-- Claim C18, amended: `wallDetector` reads the cluster through the number of
points, the computed differences `sorted_z[i] - mean` and the computed centred
matrix: in the arithmetic of any rounding, two clusters that agree on the three
get the same result.  Without rounding a translation by any offset `t` leaves
the differences and the centred matrix unchanged, so that the result for the
translated cluster is the result for the cluster; with rounding the differences
of the translated cluster are computed anew and the result may change. -/
theorem wallDetector_translation (lib : Numerics F) :
    (∀ (R : Rounding F) (points points' : List (Vec3 F)),
        points'.length = points.length →
        Fp.deviations R (points'.map Vec3.z) = Fp.deviations R (points.map Vec3.z) →
        Fp.centredMatrix R points' = Fp.centredMatrix R points →
        Fp.wallDetector R lib points' = Fp.wallDetector R lib points) ∧
      ∀ (t : Vec3 F) (points : List (Vec3 F)),
        Fp.deviations Rounding.exact ((points.map (fun p => Vec3.add p t)).map Vec3.z)
            = Fp.deviations Rounding.exact (points.map Vec3.z) ∧
          Fp.centredMatrix Rounding.exact (points.map (fun p => Vec3.add p t))
            = Fp.centredMatrix Rounding.exact points ∧
          Fp.wallDetector Rounding.exact lib (points.map (fun p => Vec3.add p t))
            = Fp.wallDetector Rounding.exact lib points := by
  have hz : ∀ (t : Vec3 F) (points : List (Vec3 F)),
      (points.map (fun p => Vec3.add p t)).map Vec3.z
        = (points.map Vec3.z).map (fun x => x + t.z) := by
    intro t points
    simp [List.map_map, Function.comp, Vec3.add]
  refine ⟨fun R points points' hlen hdev hA =>
    Fp.wallDetector_congr R lib points points' hlen hdev hA, fun t points => ?_⟩
  have hdev : Fp.deviations Rounding.exact ((points.map (fun p => Vec3.add p t)).map Vec3.z)
      = Fp.deviations Rounding.exact (points.map Vec3.z) := by
    rw [hz, exact_deviations_shift]
  exact ⟨hdev, exact_centredMatrix_shift t points,
    Fp.wallDetector_congr Rounding.exact lib points _ (by simp) hdev
      (exact_centredMatrix_shift t points)⟩

theorem binary64_neg_one : binary64 (-1) = fin (-1) := by
  rw [binary64_neg, binary64_one]
  rfl

/-- The computed mean of the z-coordinates of the translated cluster. -/
theorem shifted_colMean :
    Fp.colMean ieee (1 :: 1 :: (List.replicate 13 1 ++ [1 + 1 / 2 ^ 52])) = fin 1 :=
  Fp.colMean_ones ieee 13 (1 + 1 / 2 ^ 52) 16 1
    (fun i hi => binary64_natCast i (lt_of_le_of_lt hi (by norm_num))) shifted_sum
    shifted_centroid

/-- The centred matrix of the translated cluster. -/
theorem shifted_centredMatrix :
    Fp.centredMatrix ieee (⟨0, 1, 1⟩ :: ⟨0, -1, 1⟩ ::
        (List.replicate 13 ⟨0, 0, 1⟩ ++ [⟨0, 0, 1 + 1 / 2 ^ 52⟩]))
      = some (⟨0, 1, 0⟩ :: ⟨0, -1, 0⟩ :: (List.replicate 13 ⟨0, 0, 0⟩ ++ [⟨0, 0, 1 / 2 ^ 52⟩])) :=
  Fp.centredMatrix_cluster ieee 13 1 (1 + 1 / 2 ^ 52) 1 0 (1 / 2 ^ 52) binary64_zero binary64_one
    binary64_neg_one shifted_colMean ones_v0 ones_v3

/-- A sum over the rows of the centred matrix of the translated cluster. -/
theorem shifted_gram (f : Vec3 ℚ → ℚ) (k : Nat) (a b c d : ℚ)
    (ha : f ⟨0, 1, 0⟩ = a) (hb : f ⟨0, -1, 0⟩ = b) (hc : f ⟨0, 0, 0⟩ = c)
    (hd : f ⟨0, 0, 1 / 2 ^ 52⟩ = d) :
    ((⟨0, 1, 0⟩ :: ⟨0, -1, 0⟩ ::
        (List.replicate k ⟨0, 0, 0⟩ ++ [(⟨0, 0, 1 / 2 ^ 52⟩ : Vec3 ℚ)])).map f).sum
      = a + (b + (k * c + d)) := by
  simp only [List.map_cons, List.map_append, List.map_replicate, List.map_nil, List.sum_cons,
    List.sum_append, List.sum_replicate, List.sum_nil, ha, hb, hc, hd, nsmul_eq_mul, add_zero]

/-- The normal of the translated cluster: column 2 of `V`. -/
theorem shifted_normal :
    (dLib.jacobiSvdV (⟨0, 1, 0⟩ :: ⟨0, -1, 0⟩ ::
        (List.replicate 13 ⟨0, 0, 0⟩ ++ [(⟨0, 0, 1 / 2 ^ 52⟩ : Vec3 ℚ)])))[2]?
      = some ⟨1, 0, 0⟩ := by
  show (qSvdV _)[2]? = _
  unfold qSvdV
  simp only [shifted_gram (fun r => r.x * r.x) 13 0 0 0 0 (by norm_num) (by norm_num) (by norm_num)
      (by norm_num),
    shifted_gram (fun r => r.y * r.y) 13 1 1 0 0 (by norm_num) (by norm_num) (by norm_num)
      (by norm_num),
    shifted_gram (fun r => r.z * r.z) 13 0 0 0 (1 / 2 ^ 104) (by norm_num) (by norm_num)
      (by norm_num) (by norm_num)]
  norm_num

/-- The matrix `V` of the instance satisfies the contract of the decomposition
for the centred matrix of the translated cluster. -/
theorem shifted_contract :
    IsThinSvdV (⟨0, 1, 0⟩ :: ⟨0, -1, 0⟩ ::
        (List.replicate 13 ⟨0, 0, 0⟩ ++ [(⟨0, 0, 1 / 2 ^ 52⟩ : Vec3 ℚ)]))
      (dLib.jacobiSvdV (⟨0, 1, 0⟩ :: ⟨0, -1, 0⟩ ::
        (List.replicate 13 ⟨0, 0, 0⟩ ++ [(⟨0, 0, 1 / 2 ^ 52⟩ : Vec3 ℚ)]))) := by
  refine qSvdV_isThinSvdV _ (by simp) ?_ ?_ ?_
  · rw [shifted_gram (fun r => r.x * r.y) 13 0 0 0 0 (by norm_num) (by norm_num) (by norm_num)
      (by norm_num)]
    norm_num
  · rw [shifted_gram (fun r => r.x * r.z) 13 0 0 0 0 (by norm_num) (by norm_num) (by norm_num)
      (by norm_num)]
    norm_num
  · rw [shifted_gram (fun r => r.y * r.z) 13 0 0 0 0 (by norm_num) (by norm_num) (by norm_num)
      (by norm_num)]
    norm_num

theorem axis_x_sq : binary64 (1 * 1) = fin 1 := by
  rw [mul_one]
  exact binary64_one

/-- The computed magnitude of the normal `(1, 0, 0)`. -/
theorem axis_x_mag : Fp.magnitude ieee dLib ⟨1, 0, 0⟩ = fin 1 :=
  Fp.magnitude_eval ieee dLib 1 0 0 1 0 0 1 1 _ axis_x_sq p88_sz p88_sz p88_s2 p88_s2
    dLib_sqrt_one

/-- The computed angle of the normal `(1, 0, 0)`. -/
theorem axis_x_angle : Fp.angleBetweenPlanes ieee dLib ⟨1, 0, 0⟩ = fin 90 :=
  (Fp.angleBetweenPlanes_eval ieee dLib ⟨1, 0, 0⟩ 1 0 (dPi / 2) _ 90 binary64_zero binary64_one
    binary64_zero dLib_sqrt_one axis_x_mag one_ne_zero binary64_one
    (by show binary64 (0 / 1) = fin 0; rw [zero_div]; exact binary64_zero) dLib_acos_zero
    (ne_of_gt dPi_pos) binary64_degrees binary64_right_angle).2

/-- Counterexample to C18, in binary64 arithmetic with the `long double`
accumulators of GSL: the sixteen points `(0, 1, 0)`, `(0, -1, 0)`, thirteen times
`(0, 0, 0)` and `(0, 0, 2^-52)` of the plane `x = 0`.  The computed mean of the
z-coordinates is `2^-56`, the normality test rejects them and `wallDetector`
returns false.  After the translation by `(0, 0, 1)` the computed mean is `1`, the
differences are fifteen times `0` and once `2^-52`, the normality test accepts,
the centred matrix is the one shown, the matrix `V` of the instance satisfies the
contract of the decomposition, the normal is `(1, 0, 0)` with the angle `90`, and
`wallDetector` returns true. -/
theorem wallDetector_translation_counterexample :
    Fp.wallDetector ieee dLib (⟨0, 1, 0⟩ :: ⟨0, -1, 0⟩ ::
        (List.replicate 13 ⟨0, 0, 0⟩ ++ [⟨0, 0, 1 / 2 ^ 52⟩])) = some false ∧
    Fp.centredMatrix ieee ((⟨0, 1, 0⟩ :: ⟨0, -1, 0⟩ ::
        (List.replicate 13 ⟨0, 0, 0⟩ ++ [⟨0, 0, 1 / 2 ^ 52⟩])).map
          (fun p => Vec3.add p ⟨0, 0, 1⟩))
      = some (⟨0, 1, 0⟩ :: ⟨0, -1, 0⟩ ::
        (List.replicate 13 ⟨0, 0, 0⟩ ++ [⟨0, 0, 1 / 2 ^ 52⟩])) ∧
    IsThinSvdV (⟨0, 1, 0⟩ :: ⟨0, -1, 0⟩ ::
        (List.replicate 13 ⟨0, 0, 0⟩ ++ [(⟨0, 0, 1 / 2 ^ 52⟩ : Vec3 ℚ)]))
      (dLib.jacobiSvdV (⟨0, 1, 0⟩ :: ⟨0, -1, 0⟩ ::
        (List.replicate 13 ⟨0, 0, 0⟩ ++ [(⟨0, 0, 1 / 2 ^ 52⟩ : Vec3 ℚ)]))) ∧
    Fp.wallDetector ieee dLib ((⟨0, 1, 0⟩ :: ⟨0, -1, 0⟩ ::
        (List.replicate 13 ⟨0, 0, 0⟩ ++ [⟨0, 0, 1 / 2 ^ 52⟩])).map
          (fun p => Vec3.add p ⟨0, 0, 1⟩)) = some true := by
  have hα : Fp.defaultSignificance ieee = fin (3602879701896397 / 2 ^ 56) := alpha_default
  have hshift := cluster_shift 13 (0 : ℚ) (1 / 2 ^ 52) 1
  rw [zero_add, add_comm (1 / 2 ^ 52 : ℚ) 1] at hshift
  rw [hshift]
  refine ⟨?_, shifted_centredMatrix, shifted_contract, ?_⟩
  · apply Fp.wallDetector_of_rejected
    rw [cluster_z, hα]
    exact zeros_gate
  · rw [Fp.wallDetector_of_accepted ieee dLib _ _ ⟨1, 0, 0⟩ (fin 90) ?_ shifted_centredMatrix
      shifted_normal axis_x_angle]
    · norm_num [inWallRange, Dbl.le]
    · rw [cluster_z, hα]
      exact ones_gate

end WallDetection
